import Mathlib

/-!
# certstate-pemdecode: the PEM block scanner and dispatcher of `main.go`

A shallow embedding of `main.go` and a settlement of the claims of its
specification.

The scan of `main` is nothing but calls of `pem.Decode`, and every print
function starts with `pem.Encode`: what the program does with a buffer is
decided in Go's standard library (`encoding/pem`, imported at main.go line
48, with the helpers it calls in `bytes` and `encoding/base64`).  These
library functions are transcribed here from the library's source, function
by function and under their Go names, as of the Go releases current when the
program was written (Go 1.10 to 1.13: `Decode` checks the END line against
the type, steps over a block it rejects through `decodeError`, and leaves
line ends to the base64 decoder).

Byte slices and strings are lists of natural numbers, a byte being a number
below 256.  The operating system (temporary files, the external command) is
an explicit parameter `Env`; the state the program acts on is a value
`World`, passed along; `os.Exit` and `log.Fatal` are the outcome `exited`.
Loops and recursion that Go leaves unbounded carry a bound in the model, and
theorems show that the bound is never hit (`Decode_total`, `main_total`).

The file has three parts: the definitions, lemmas about them, and the
claims `C1` to `C10`, each with the theorem that settles it.
-/

set_option maxRecDepth 100000

namespace PemDecode

/-- Go `[]byte` (and `string`): a sequence of bytes. -/
abbrev ByteSeq := List Nat

/-! ## Package `bytes` -/

/-- Go `bytes.HasPrefix`. -/
def hasPrefix (s pre : ByteSeq) : Bool := pre.isPrefixOf s

/-- Go `bytes.HasSuffix`. -/
def hasSuffix (s suf : ByteSeq) : Bool := suf.reverse.isPrefixOf s.reverse

/-- Go `bytes.Index`: position of the first occurrence of `sep` in `s`
(`none` for Go's `-1`). -/
def index : ByteSeq → ByteSeq → Option Nat
  | [], sep => if sep.isEmpty then some 0 else none
  | c :: s, sep =>
    if sep.isPrefixOf (c :: s) then some 0 else (index s sep).map (· + 1)

/-- Go `bytes.IndexByte`. -/
def indexByte : ByteSeq → Nat → Option Nat
  | [], _ => none
  | c :: s, b => if c = b then some 0 else (indexByte s b).map (· + 1)

/-- Go `bytes.TrimRight(s, " \t")`. -/
def trimRight (s : ByteSeq) : ByteSeq :=
  s.rdropWhile (fun c => c == 32 || c == 9)

/-- The UTF-8 encodings of the code points for which Go's `unicode.IsSpace`
holds: U+0009..U+000D, U+0020, U+0085, U+00A0, U+1680, U+2000..U+200A,
U+2028, U+2029, U+202F, U+205F, U+3000. -/
def spaceRunes : List ByteSeq :=
  [[9], [10], [11], [12], [13], [32], [194, 133], [194, 160], [225, 154, 128],
   [226, 128, 128], [226, 128, 129], [226, 128, 130], [226, 128, 131],
   [226, 128, 132], [226, 128, 133], [226, 128, 134], [226, 128, 135],
   [226, 128, 136], [226, 128, 137], [226, 128, 138], [226, 128, 168],
   [226, 128, 169], [226, 128, 175], [226, 129, 159], [227, 128, 128]]

/-- Width in bytes of the white-space rune that `s` starts with, if any. -/
def leadingSpace (s : ByteSeq) : Option Nat :=
  (spaceRunes.find? (fun r => r.isPrefixOf s)).map List.length

/-- Width in bytes of the white-space rune that `s` ends with, if any. -/
def trailingSpace (s : ByteSeq) : Option Nat :=
  (spaceRunes.find? (fun r => r.reverse.isPrefixOf s.reverse)).map List.length

/-- Go `bytes.TrimLeftFunc(s, unicode.IsSpace)`; every round cuts one rune,
so `s.length` rounds are enough. -/
def trimLeftSpace : Nat → ByteSeq → ByteSeq
  | 0, s => s
  | fuel + 1, s =>
    match leadingSpace s with
    | none => s
    | some w => trimLeftSpace fuel (s.drop w)

/-- Go `bytes.TrimRightFunc(s, unicode.IsSpace)`. -/
def trimRightSpace : Nat → ByteSeq → ByteSeq
  | 0, s => s
  | fuel + 1, s =>
    match trailingSpace s with
    | none => s
    | some w => trimRightSpace fuel (s.take (s.length - w))

/-- Go `bytes.TrimSpace`: white-space runes are cut from both ends. -/
def trimSpace (s : ByteSeq) : ByteSeq :=
  let l := trimLeftSpace s.length s
  trimRightSpace l.length l

/-! ## Package `encoding/base64`, `StdEncoding` -/

/-- Go `encodeStd[v]`: the character of the 6-bit value `v` in the alphabet
`A-Z a-z 0-9 + /`. -/
def encodeStd (v : Nat) : Nat :=
  if v < 26 then v + 65
  else if v < 52 then v + 71
  else if v < 62 then v - 4
  else if v = 62 then 43
  else 47

/-- Go `decodeMap[c]`: the 6-bit value of an alphabet character (`none` for
Go's `0xff`). -/
def decodeMap (c : Nat) : Option Nat :=
  if 65 ≤ c ∧ c ≤ 90 then some (c - 65)
  else if 97 ≤ c ∧ c ≤ 122 then some (c - 71)
  else if 48 ≤ c ∧ c ≤ 57 then some (c + 4)
  else if c = 43 then some 62
  else if c = 47 then some 63
  else none

/-- The padding character `=`. -/
def padChar : Nat := 61

/-- Go `StdEncoding.Encode`: three bytes become four characters; a final
group of one or two bytes is padded with `=`. -/
def stdEncode : ByteSeq → ByteSeq
  | [] => []
  | [a] =>
    let a := a % 256
    [encodeStd (a / 4), encodeStd (a % 4 * 16), padChar, padChar]
  | [a, b] =>
    let a := a % 256
    let b := b % 256
    [encodeStd (a / 4), encodeStd (a % 4 * 16 + b / 16), encodeStd (b % 16 * 4), padChar]
  | a :: b :: c :: s =>
    let a := a % 256
    let b := b % 256
    let c := c % 256
    encodeStd (a / 4) :: encodeStd (a % 4 * 16 + b / 16) ::
      encodeStd (b % 16 * 4 + c / 64) :: encodeStd (c % 64) :: stdEncode s

/-- The loop of `decodeQuantum` that skips over newlines. -/
def skipNewlines : ByteSeq → ByteSeq
  | [] => []
  | c :: s => if c = 10 ∨ c = 13 then skipNewlines s else c :: s

/-- The last lines of `decodeQuantum`: the 6-bit values read (two, three or
four of them) are joined into a 24-bit value and its bytes are written,
one byte fewer than values. -/
def quantumBytes (dbuf : List Nat) : ByteSeq :=
  let val := dbuf.getD 0 0 * 262144 + dbuf.getD 1 0 * 4096 + dbuf.getD 2 0 * 64 + dbuf.getD 3 0
  ([val / 65536 % 256, val / 256 % 256, val % 256] : List Nat).take (dbuf.length - 1)

/-- Go `StdEncoding.Decode`, the loop over `decodeQuantum`: `dbuf` holds the
values of the quantum being read.  Newlines and carriage returns are skipped
wherever they stand; any other character outside the alphabet, padding that
is misplaced or incomplete, anything but newlines after the padding, and
input that ends inside a quantum are errors (`none`). -/
def decodeFrom : ByteSeq → List Nat → Option ByteSeq
  | [], dbuf => if dbuf.isEmpty then some [] else none
  | c :: src, dbuf =>
    match decodeMap c with
    | some v =>
      if dbuf.length = 3 then (decodeFrom src []).map (quantumBytes (dbuf ++ [v]) ++ ·)
      else decodeFrom src (dbuf ++ [v])
    | none =>
      if c = 10 ∨ c = 13 then decodeFrom src dbuf
      else if c ≠ padChar then none
      else if dbuf.length = 2 then
        match skipNewlines src with
        | [] => none
        | c2 :: src2 =>
          if c2 ≠ padChar then none
          else if (skipNewlines src2).isEmpty then some (quantumBytes dbuf) else none
      else if dbuf.length = 3 then
        if (skipNewlines src).isEmpty then some (quantumBytes dbuf) else none
      else none

/-- Go `base64.StdEncoding.Decode(dst, src)`: the decoded bytes `dst[:n]`, or
`none` when Go returns an error. -/
def stdDecode (src : ByteSeq) : Option ByteSeq := decodeFrom src []

/-! ## Package `encoding/pem` -/

/-- Go `pem.Block`.  `Headers` is the Go map, kept as a list of key/value
pairs with distinct keys. -/
structure Block where
  /-- The type, taken from the preamble (Go field `Type`). -/
  Typ : ByteSeq
  /-- Optional headers. -/
  Headers : List (ByteSeq × ByteSeq)
  /-- The decoded bytes of the contents. -/
  Bytes : ByteSeq
  deriving DecidableEq, Repr

/-- The text `"\n-----BEGIN "`. -/
def pemStart : ByteSeq := [10, 45, 45, 45, 45, 45, 66, 69, 71, 73, 78, 32]

/-- The text `"\n-----END "`. -/
def pemEnd : ByteSeq := [10, 45, 45, 45, 45, 45, 69, 78, 68, 32]

/-- The text `"-----"`. -/
def pemEndOfLine : ByteSeq := [45, 45, 45, 45, 45]

/-- Go `getLine`: the first line of `data` without its line end (`\n` or
`\r\n`) and without trailing spaces and tabs, and what follows the line. -/
def getLine (data : ByteSeq) : ByteSeq × ByteSeq :=
  match indexByte data 10 with
  | none => (trimRight data, [])
  | some i =>
    let i2 := if i > 0 ∧ data.get? (i - 1) = some 13 then i - 1 else i
    (trimRight (data.take i2), data.drop (i + 1))

/-- Go `removeSpacesAndTabs`. -/
def removeSpacesAndTabs (data : ByteSeq) : ByteSeq :=
  data.filter (fun b => !(b == 32 || b == 9))

/-- Go map assignment `headers[key] = val`. -/
def setHeader : List (ByteSeq × ByteSeq) → ByteSeq → ByteSeq → List (ByteSeq × ByteSeq)
  | [], key, val => [(key, val)]
  | (k, v) :: hs, key, val =>
    if k = key then (k, val) :: hs else (k, v) :: setHeader hs key val

/-- What the header loop of `Decode` ends with. -/
inductive HeaderScan where
  /-- The model ran out of rounds (never the case with `rest.length + 1` rounds). -/
  | outOfFuel
  /-- The input ended inside the headers: `Decode` returns `nil, data`. -/
  | exhausted
  /-- The loop reached a line without a colon: the headers, and the input
  from that line on. -/
  | body (rest : ByteSeq) (headers : List (ByteSeq × ByteSeq))
  deriving DecidableEq, Repr

/-- The `for` loop of `Decode` that reads the header lines `Key: Value`. -/
def headerLoop : Nat → ByteSeq → List (ByteSeq × ByteSeq) → HeaderScan
  | 0, _, _ => .outOfFuel
  | fuel + 1, rest, headers =>
    if rest.length = 0 then .exhausted
    else
      match indexByte (getLine rest).1 58 with
      | none => .body rest headers
      | some i =>
        let line := (getLine rest).1
        headerLoop fuel (getLine rest).2
          (setHeader headers (trimSpace (line.take i)) (trimSpace (line.drop (i + 1))))

/-- The first lines of `Decode`: the input after the first `-----BEGIN `,
which stands at the very start of `data` or after a newline. -/
def findStart (data : ByteSeq) : Option ByteSeq :=
  if hasPrefix data (pemStart.drop 1) then some (data.drop (pemStart.length - 1))
  else
    match index data pemStart with
    | some i => some (data.drop (i + pemStart.length))
    | none => none

/-- Where the END line is, for `Decode`: `(endIndex, endTrailerIndex)`. -/
def findEnd (rest : ByteSeq) (headers : List (ByteSeq × ByteSeq)) : Option (Nat × Nat) :=
  if headers.length = 0 ∧ hasPrefix rest (pemEnd.drop 1) then some (0, pemEnd.length - 1)
  else (index rest pemEnd).map (fun i => (i, i + pemEnd.length))

/-- The second half of `Decode`, from the search of the END line to the
end: the block and the rest of the input, or `none` where Go calls
`decodeError`. -/
def decodeBody (typeLine rest : ByteSeq) (headers : List (ByteSeq × ByteSeq)) :
    Option (Block × ByteSeq) :=
  match findEnd rest headers with
  | none => none
  | some (endIndex, endTrailerIndex) =>
    let endTrailer := rest.drop endTrailerIndex
    let endTrailerLen := typeLine.length + pemEndOfLine.length
    if endTrailer.length < endTrailerLen then none
    else
      let restOfEndLine := endTrailer.drop endTrailerLen
      let endTrailer := endTrailer.take endTrailerLen
      if !hasPrefix endTrailer typeLine || !hasSuffix endTrailer pemEndOfLine then none
      else if (getLine restOfEndLine).1.length ≠ 0 then none
      else
        match stdDecode (removeSpacesAndTabs (rest.take endIndex)) with
        | none => none
        | some bytes =>
          some ({ Typ := typeLine, Headers := headers, Bytes := bytes },
                (getLine (rest.drop (endIndex + pemEnd.length - 1))).2)

/-- Go `decodeError(data, rest)`, given what `Decode(rest)` returned. -/
def decodeError (data : ByteSeq) (retry : Option (Option Block × ByteSeq)) :
    Option (Option Block × ByteSeq) :=
  match retry with
  | none => none
  | some (none, _) => some (none, data)
  | some (some p, rest) => some (some p, rest)

/-- Go `pem.Decode` with a bound on the depth of the recursion through
`decodeError`; `none` when the bound is hit. -/
def decodeFuel : Nat → ByteSeq → Option (Option Block × ByteSeq)
  | 0, _ => none
  | fuel + 1, data =>
    match findStart data with
    | none => some (none, data)
    | some rest =>
      let typeLine := (getLine rest).1
      let rest := (getLine rest).2
      if !hasSuffix typeLine pemEndOfLine then decodeError data (decodeFuel fuel rest)
      else
        let typeLine := typeLine.take (typeLine.length - pemEndOfLine.length)
        match headerLoop (rest.length + 1) rest [] with
        | .outOfFuel => none
        | .exhausted => some (none, data)
        | .body rest headers =>
          match decodeBody typeLine rest headers with
          | some (p, rest) => some (some p, rest)
          | none => decodeError data (decodeFuel fuel rest)

/-- Go `pem.Decode`: the next PEM block of `data` and the rest of the input,
or `nil` (`none`) and the whole input.  Every recursive call is on a shorter
input, so `data.length + 1` levels are enough. -/
def Decode (data : ByteSeq) : Option Block × ByteSeq :=
  (decodeFuel (data.length + 1) data).getD (none, data)

/-- The text `"Proc-Type"`. -/
def procType : ByteSeq := [80, 114, 111, 99, 45, 84, 121, 112, 101]

/-- Go `writeHeader`: the line `k: v`. -/
def writeHeader (k v : ByteSeq) : ByteSeq := k ++ [58, 32] ++ v ++ [10]

/-- Go `sort.Strings`, as an insertion sort: byte-wise lexicographic order. -/
def sortStrings : List ByteSeq → List ByteSeq
  | [] => []
  | k :: ks => (sortStrings ks).orderedInsert (fun a b => a ≤ b) k

/-- Go map read `headers[key]` (the empty string for a missing key). -/
def getHeader (headers : List (ByteSeq × ByteSeq)) (key : ByteSeq) : ByteSeq :=
  ((headers.find? (fun kv => kv.1 = key)).map Prod.snd).getD []

/-- Go `lineBreaker`: a newline after every 64 characters, and after a last
shorter line; `used` is the length of the line being filled. -/
def lineBreaker : ByteSeq → Nat → ByteSeq
  | [], used => if used > 0 then [10] else []
  | c :: s, used =>
    if used + 1 < 64 then c :: lineBreaker s (used + 1) else c :: 10 :: lineBreaker s 0

/-- Go `pem.Encode` into a buffer: the text written, or `none` for the error
"cannot encode a header key that contains a colon". -/
def Encode (b : Block) : Option ByteSeq :=
  if b.Headers.any (fun kv => kv.1.contains 58) then none
  else
    let h := sortStrings ((b.Headers.map Prod.fst).filter (fun k => k ≠ procType))
    let hasProcType := b.Headers.any (fun kv => kv.1 = procType)
    let headerText :=
      if b.Headers.length > 0 then
        (if hasProcType then writeHeader procType (getHeader b.Headers procType) else []) ++
          (h.map (fun k => writeHeader k (getHeader b.Headers k))).flatten ++ [10]
      else []
    some (pemStart.drop 1 ++ b.Typ ++ [45, 45, 45, 45, 45, 10] ++ headerText ++
      lineBreaker (stdEncode b.Bytes) 0 ++ pemEnd.drop 1 ++ b.Typ ++ [45, 45, 45, 45, 45, 10])

/-! ## The program: `main.go` -/

/-- The bytes of a text constant of the program. -/
def ascii (s : String) : ByteSeq := s.toList.map Char.toNat

/-- The `%s` or `%v` of a format with one verb, filled in (`fmt.Sprintf`). -/
def sprintf : ByteSeq → ByteSeq → ByteSeq
  | [], _ => []
  | [c], _ => [c]
  | c :: d :: s, arg =>
    if c = 37 ∧ (d = 115 ∨ d = 118) then arg ++ s else c :: sprintf (d :: s) arg

/-- The two `%v` of a format with two verbs, filled in, in order. -/
def sprintf2 : ByteSeq → ByteSeq → ByteSeq → ByteSeq
  | [], _, _ => []
  | [c], _, _ => [c]
  | c :: d :: s, arg1, arg2 =>
    if c = 37 ∧ (d = 115 ∨ d = 118) then arg1 ++ sprintf s arg2
    else c :: sprintf2 (d :: s) arg1 arg2

/-- The `%d` of a format with one verb, filled in. -/
def sprintfInt (format : ByteSeq) (n : Int) : ByteSeq :=
  match format with
  | [] => []
  | [c] => [c]
  | c :: d :: s =>
    if c = 37 ∧ d = 100 then ascii (toString n) ++ s else c :: sprintfInt (d :: s) n

/-- Testmode control extended outout for development (main.go, line 68). -/
def Testmode : Bool := false

/-- Command line for a certificate (main.go, line 75). -/
def opensslCertificate : ByteSeq :=
  ascii "openssl x509 -certopt ext_dump -text -noout -inform PEM -in %s"

/-- Command line for an OCSP response (main.go, line 76). -/
def opensslOCSPResonse : ByteSeq := ascii "openssl ocsp -text -noverify -respin %s"

/-- Command line for a CRL (main.go, line 77). -/
def opensslCRL : ByteSeq := ascii "openssl crl -text -noout -inform PEM -in %s"

/-- What `cmd.CombinedOutput()` returns for a command. -/
structure CommandResult where
  /-- The combined standard output and standard error. -/
  output : ByteSeq
  /-- The text of the error, `none` for `nil`. -/
  err : Option ByteSeq
  /-- Whether the error is an `*exec.ExitError` (the command ran and failed). -/
  isExitError : Bool
  /-- The exit status in the wait status. -/
  exitStatus : Int

/-- The operating system, as the program meets it: what it answers to each
request.  An error is the text `%v` prints for it. -/
structure Env where
  /-- `ioutil.TempFile("", pattern)`, given the files that exist: the name of
  the file created, or an error. -/
  tempFile : ByteSeq → List (ByteSeq × ByteSeq) → Except ByteSeq ByteSeq
  /-- `tmpfile.Write(data)` on the file of that name: `none` when it succeeds. -/
  write : ByteSeq → ByteSeq → Option ByteSeq
  /-- `tmpfile.Close()`: `none` when it succeeds. -/
  close : ByteSeq → Option ByteSeq
  /-- `exec.Command("/bin/bash", "-c", command).CombinedOutput()`, given the
  files that exist. -/
  run : ByteSeq → List (ByteSeq × ByteSeq) → CommandResult

/-- A request of the program to the operating system. -/
inductive Call where
  /-- `ioutil.TempFile("", pattern)`. -/
  | tempFile (pattern : ByteSeq)
  /-- `tmpfile.Write(data)` on the file of that name. -/
  | write (name data : ByteSeq)
  /-- `tmpfile.Close()`. -/
  | close (name : ByteSeq)
  /-- `exec.Command("/bin/bash", "-c", command).CombinedOutput()`. -/
  | run (command : ByteSeq)
  /-- `os.Remove(name)`. -/
  | remove (name : ByteSeq)
  deriving DecidableEq, Repr

/-- The state the program acts on. -/
structure World where
  /-- The temporary files that exist: name and content. -/
  files : List (ByteSeq × ByteSeq)
  /-- What `fmt.Printf` wrote, one entry a call. -/
  stdout : List ByteSeq
  /-- What `log.Printf`, `log.Fatal` and `log.Fatalf` wrote, one entry a call
  (the message, without the prefix of date, time and source line). -/
  log : List ByteSeq
  /-- The blocks `printPEM` was called with, in order. -/
  printed : List Block
  /-- The requests made to the operating system, in order. -/
  calls : List Call
  deriving DecidableEq, Repr

/-- How a function of the program ends: it returns, or the process exits
(`os.Exit`, also through `log.Fatal`; deferred calls are not run then). -/
inductive Outcome where
  | returned (w : World)
  | exited (code : Nat) (w : World)
  deriving DecidableEq, Repr

/-- Go `fmt.Printf`, the text already formatted. -/
def World.printf (w : World) (text : ByteSeq) : World :=
  { w with stdout := w.stdout ++ [text] }

/-- Go `log.Printf`, the text already formatted. -/
def World.logPrintf (w : World) (text : ByteSeq) : World :=
  { w with log := w.log ++ [text] }

/-- Go `log.Fatal` and `log.Fatalf`: the message is logged, then `os.Exit(1)`. -/
def World.logFatal (w : World) (text : ByteSeq) : Outcome :=
  .exited 1 (w.logPrintf text)

/-- A request to the operating system is recorded. -/
def World.call (w : World) (c : Call) : World :=
  { w with calls := w.calls ++ [c] }

/-- The file `ioutil.TempFile` has just created: it exists and is empty. -/
def World.create (w : World) (name : ByteSeq) : World :=
  { w with files := w.files ++ [(name, [])] }

/-- The file after a `Write` that succeeded. -/
def World.write (w : World) (name data : ByteSeq) : World :=
  { w with files := w.files.map (fun f => if f.1 = name then (f.1, f.2 ++ data) else f) }

/-- Go `os.Remove(name)`. -/
def World.remove (w : World) (name : ByteSeq) : World :=
  { (w.call (.remove name)) with files := w.files.filter (fun f => f.1 ≠ name) }

/-- runCommand runs a command / program (main.go, lines 292-327): the exit
status, the combined output and the error of `/bin/bash -c command`. -/
def runCommand (env : Env) (w : World) (command : ByteSeq) :
    World × Int × ByteSeq × Option ByteSeq :=
  let r := env.run command w.files
  let w := w.call (.run command)
  match r.err with
  | some e =>
    let w := if r.isExitError then
        w.logPrintf (sprintfInt (ascii "command exit code = <%d>") r.exitStatus)
      else w
    let w := w.logPrintf (sprintf (ascii "error <%v> at cmd.CombinedOutput()") e)
    let w := w.logPrintf
      (sprintf (ascii "command (not successful) = <%s>") (ascii "/bin/bash -c " ++ command))
    let w := if r.output.length > 0 then
        w.logPrintf (sprintf (ascii "command output (stdout, stderr) =\n%s") r.output)
      else w
    (w, if r.isExitError then r.exitStatus else 0, r.output, some e)
  | none =>
    let w := if Testmode then
        let w := w.logPrintf
          (sprintf (ascii "command (successful) = <%s>") (ascii "/bin/bash -c " ++ command))
        let w := w.logPrintf (sprintfInt (ascii "command exit code = <%d>") r.exitStatus)
        if r.output.length > 0 then
          w.logPrintf (sprintf (ascii "command output (stdout, stderr) =\n%s") r.output)
        else w
      else w
    (w, r.exitStatus, r.output, none)

/-- The part the three print functions have in common, from `ioutil.TempFile`
to the end (main.go, lines 199-218, 233-252, 267-286): `content` is written
to a temporary file named after `pattern`, the command `template` is run over
the file's name and its output printed.  `defer os.Remove` runs when the
function returns, and not when `log.Fatal` exits the process. -/
def viaTempFile (env : Env) (w : World) (pattern content template : ByteSeq) : Outcome :=
  match env.tempFile pattern w.files with
  | .error e => (w.call (.tempFile pattern)).logFatal e
  | .ok name =>
    let w := (w.call (.tempFile pattern)).create name
    match env.write name content with
    | some e =>
      (w.call (.write name content)).logFatal
        (sprintf2 (ascii "error <%v> at tmpfile.Write(); file = <%v>") e name)
    | none =>
      let w := (w.call (.write name content)).write name content
      match env.close name with
      | some e =>
        (w.call (.close name)).logFatal
          (sprintf2 (ascii "error <%v> at tmpfile.Close(); file = <%v>") e name)
      | none =>
        let w := w.call (.close name)
        let command := sprintf template name
        let (w, _, commandOutput, err) := runCommand env w command
        let w := match err with
          | some e => w.logPrintf (sprintf (ascii "error <%v> at runCommand()") e)
          | none => w
        let w := w.printf (sprintf (ascii "%s\n") commandOutput)
        .returned (w.remove name)

/-- The text of the `pem.Encode` error. -/
def encodeErrorText : ByteSeq := ascii "pem: cannot encode a header key that contains a colon"

/-- printCertificatePEM prints a single PEM data block (main.go, lines
190-219): the canonical PEM text goes to the temporary file. -/
def printCertificatePEM (env : Env) (w : World) (pemBlock : Block) : Outcome :=
  match Encode pemBlock with
  | none => w.logFatal (sprintf (ascii "error <%v> at pem.Encode()") encodeErrorText)
  | some pemCertificate =>
    let w := w.printf (sprintf (ascii "%s\n") pemCertificate)
    viaTempFile env w (ascii "Certificate_PEM_Tempfile_") pemCertificate opensslCertificate

/-- printOCSPResponsePEM prints a single PEM data block (main.go, lines
224-253): the decoded bytes of the block go to the temporary file. -/
def printOCSPResponsePEM (env : Env) (w : World) (pemBlock : Block) : Outcome :=
  match Encode pemBlock with
  | none => w.logFatal (sprintf (ascii "error <%v> at pem.Encode()") encodeErrorText)
  | some pemResponse =>
    let w := w.printf (sprintf (ascii "%s\n") pemResponse)
    viaTempFile env w (ascii "OCSPResponse_DER_Tempfile_") pemBlock.Bytes opensslOCSPResonse

/-- printCRLPEM prints a single PEM data block (main.go, lines 258-287): the
canonical PEM text goes to the temporary file. -/
def printCRLPEM (env : Env) (w : World) (pemBlock : Block) : Outcome :=
  match Encode pemBlock with
  | none => w.logFatal (sprintf (ascii "error <%v> at pem.Encode()") encodeErrorText)
  | some pemCertificate =>
    let w := w.printf (sprintf (ascii "%s\n") pemCertificate)
    viaTempFile env w (ascii "CRL_PEM_Tempfile_") pemCertificate opensslCRL

/-- printPEM prints a single PEM data block (main.go, lines 173-185).  The
call is recorded in `printed`. -/
def printPEM (env : Env) (w : World) (pemBlock : Block) : Outcome :=
  let w := { w with printed := w.printed ++ [pemBlock] }
  if pemBlock.Typ = ascii "CERTIFICATE" then printCertificatePEM env w pemBlock
  else if pemBlock.Typ = ascii "OCSP RESPONSE" then printOCSPResponsePEM env w pemBlock
  else if pemBlock.Typ = ascii "X509 CRL" then printCRLPEM env w pemBlock
  else .returned (w.printf (sprintf (ascii "\nPEM type <%v> not supported.\n") pemBlock.Typ))

/-- The loop "decode following PEM blocks" of `main` (main.go, lines
133-139), with a bound on its rounds; `none` when the bound is hit. -/
def scanLoop (env : Env) : Nat → World → ByteSeq → Option Outcome
  | 0, _, _ => none
  | fuel + 1, w, rest =>
    match Decode rest with
    | (none, _) => some (.returned w)
    | (some pemBlock, rest) =>
      match printPEM env w pemBlock with
      | .exited code w => some (.exited code w)
      | .returned w => scanLoop env fuel w rest

/-- The world `main` starts the scan in: nothing printed yet by the scan, no
temporary file. -/
def World.start : World :=
  { files := [], stdout := [], log := [], printed := [], calls := [] }

/-- The message of the fatal exit of `main` (main.go, line 128). -/
def noBlockMessage : ByteSeq :=
  ascii "failed to decode PEM block containing public key certificate"

/-- The function `main` from "decode first PEM block" on (main.go, lines
125-143), for the content `pemContent` of the input file.  Every round of the
loop consumes input, so `rest.length + 1` rounds are enough. -/
def main (env : Env) (pemContent : ByteSeq) : Option Outcome :=
  match Decode pemContent with
  | (none, _) =>
    some (World.start.logFatal noBlockMessage)
  | (some pemBlock, rest) =>
    match printPEM env World.start pemBlock with
    | .exited code w => some (.exited code w)
    | .returned w =>
      match scanLoop env (rest.length + 1) w rest with
      | none => none
      | some (.exited code w) => some (.exited code w)
      | some (.returned w) => some (.exited 0 (w.printf (ascii "\n")))

/-! ## What the claims speak of: outcomes, environments, recognized types -/

/-- The world an outcome ends in. -/
def Outcome.world : Outcome → World
  | .returned w => w
  | .exited _ w => w

/-- An operating system on which no file operation of the program fails. -/
def Env.filesOk (env : Env) : Prop :=
  (∀ pattern files, ∃ name, env.tempFile pattern files = .ok name) ∧
    (∀ name data, env.write name data = none) ∧ (∀ name, env.close name = none)

/-- The files at the moment the command of a dispatch runs: the temporary
file `name` has been created and `content` written to it. -/
def filesAtRun (w : World) (name content : ByteSeq) : List (ByteSeq × ByteSeq) :=
  ((w.create name).write name content).files

/-- The three types `printPEM` has a case for. -/
def recognized (t : ByteSeq) : Prop :=
  t = ascii "CERTIFICATE" ∨ t = ascii "OCSP RESPONSE" ∨ t = ascii "X509 CRL"

instance decidableRecognized (t : ByteSeq) : Decidable (recognized t) := by
  unfold recognized
  infer_instance

/-! ## What the claims speak of: the scan -/

/-- Go `decodeError(data, rest)` in terms of `Decode`: the block that `Decode`
finds in `rest`, or `nil` and the whole of `data`. -/
def decodeRetry (data rest : ByteSeq) : Option Block × ByteSeq :=
  match Decode rest with
  | (none, _) => (none, data)
  | (some p, r) => (some p, r)

/-- The blocks that `pem.Decode` yields when it is called on the buffer and
then again and again on the rest it returned, until it returns no block (the
scan of `main`, without the printing); at most `fuel` blocks. -/
def scanBlocks : Nat → ByteSeq → List Block
  | 0, _ => []
  | fuel + 1, data =>
    match Decode data with
    | (none, _) => []
    | (some b, rest) => b :: scanBlocks fuel rest

/-- The scan of `main` with its cursor: for every block that `Decode` yields,
the block, the offset in the buffer of the input of that call (the cursor
before the call) and the offset of the rest it returned (the cursor after). -/
def scanRanges : Nat → Nat → ByteSeq → List (Block × Nat × Nat)
  | 0, _, _ => []
  | fuel + 1, cursor, data =>
    match Decode data with
    | (none, _) => []
    | (some b, rest) =>
      (b, cursor, cursor + (data.length - rest.length)) ::
        scanRanges fuel (cursor + (data.length - rest.length)) rest

/-- The characters `Decode` of `StdEncoding` lets through: the alphabet, the
padding, and the line ends it skips. -/
def base64Char (c : Nat) : Prop := (decodeMap c).isSome ∨ c = 61 ∨ c = 10 ∨ c = 13

/-- Headers as `Decode` produces them: no colon in a key, and no newline in
a key or a value. -/
def HeadersOk (hs : List (ByteSeq × ByteSeq)) : Prop :=
  ∀ kv ∈ hs, 58 ∉ kv.1 ∧ 10 ∉ kv.1 ∧ 10 ∉ kv.2

/-- The header lines that `pem.Encode` writes for a block, as keys and
values in the order written: `Proc-Type` first, the other keys sorted. -/
def headerLines (b : Block) : List (ByteSeq × ByteSeq) :=
  (if b.Headers.any (fun kv => kv.1 = procType) then
      [(procType, getHeader b.Headers procType)] else []) ++
    (sortStrings ((b.Headers.map Prod.fst).filter (fun k => k ≠ procType))).map
      (fun k => (k, getHeader b.Headers k))

/-- The one kind of block that `pem.Encode` writes as a text that
`pem.Decode` does not read back: no header, no bytes, and a colon in the
type, so that the END line, which follows the BEGIN line at once, reads as
a header line. -/
def endLineReadsAsHeader (b : Block) : Prop :=
  b.Headers = [] ∧ b.Bytes = [] ∧ 58 ∈ b.Typ

instance decidableEndLineReadsAsHeader (b : Block) :
    Decidable (endLineReadsAsHeader b) := by
  unfold endLineReadsAsHeader
  infer_instance

/-! ## What the claims speak of: well-formed and malformed input -/

/-- The line `-----BEGIN label-----`. -/
def beginLine (label : ByteSeq) : ByteSeq := pemStart.drop 1 ++ label ++ pemEndOfLine ++ [10]

/-- The line `-----END label-----`. -/
def endLine (label : ByteSeq) : ByteSeq := pemEnd.drop 1 ++ label ++ pemEndOfLine ++ [10]

/-- The text of a PEM block without headers: the BEGIN line, the lines of the
body, the END line of the same label. -/
def blockText (label body : ByteSeq) : ByteSeq := beginLine label ++ body ++ endLine label

/-- A well-formed PEM block: the label stays on its line, the body is made
of whole lines and is valid base64, and the line after the BEGIN line is not
a header line `Key: Value` (for an empty body that line is the END line,
which holds the label). -/
def WellFormedBlock (label body : ByteSeq) : Prop :=
  10 ∉ label ∧ (body = [] → 58 ∉ label) ∧ (body = [] ∨ body.getLast? = some 10) ∧
    (stdDecode (removeSpacesAndTabs body)).isSome = true

instance decidableWellFormedBlock (label body : ByteSeq) :
    Decidable (WellFormedBlock label body) := by
  unfold WellFormedBlock
  infer_instance

/-- The base64-decoded body of a block. -/
def payload (body : ByteSeq) : ByteSeq := (stdDecode (removeSpacesAndTabs body)).getD []

/-- The block that a well-formed text stands for: its label and its decoded
body. -/
def blockOf (lb : ByteSeq × ByteSeq) : Block :=
  { Typ := lb.1, Headers := [], Bytes := payload lb.2 }

/-- The buffer that consists of the given blocks, one after the other. -/
def bufferOf (blocks : List (ByteSeq × ByteSeq)) : ByteSeq :=
  (blocks.map (fun lb => blockText lb.1 lb.2)).flatten

/-- An operating system on which every request succeeds: the temporary file
is named after the pattern, the command prints its own command line. -/
def envOk : Env where
  tempFile := fun pattern _ => .ok (ascii "/tmp/" ++ pattern ++ ascii "001")
  write := fun _ _ => none
  close := fun _ => none
  run := fun command _ =>
    { output := ascii "ran: " ++ command, err := none, isExitError := false, exitStatus := 0 }

/-- An operating system on which the command of every dispatch fails with
exit status 1, after printing a line. -/
def envCommandFails : Env where
  tempFile := fun pattern _ => .ok (ascii "/tmp/" ++ pattern ++ ascii "001")
  write := fun _ _ => none
  close := fun _ => none
  run := fun _ _ =>
    { output := ascii "unable to load certificate\n", err := some (ascii "exit status 1"),
      isExitError := true, exitStatus := 1 }

/-- An operating system on which writing to the temporary file fails (the
disk is full). -/
def envDiskFull : Env where
  tempFile := fun pattern _ => .ok (ascii "/tmp/" ++ pattern ++ ascii "001")
  write := fun _ _ => some (ascii "no space left on device")
  close := fun _ => none
  run := fun command _ =>
    { output := ascii "ran: " ++ command, err := none, isExitError := false, exitStatus := 0 }

/-- An operating system on which closing the temporary file fails. -/
def envCloseFails : Env where
  tempFile := fun pattern _ => .ok (ascii "/tmp/" ++ pattern ++ ascii "001")
  write := fun _ _ => none
  close := fun _ => some (ascii "input/output error")
  run := fun command _ =>
    { output := ascii "ran: " ++ command, err := none, isExitError := false, exitStatus := 0 }

/-- Two well-formed blocks, a certificate and a CRL (the bodies are short
stand-ins for the DER data). -/
def exampleBlocks : List (ByteSeq × ByteSeq) :=
  [(ascii "CERTIFICATE", ascii "MIIB\n"), (ascii "X509 CRL", ascii "MIIC\nAQ==\n")]

/-- An OCSP response block with three bytes of content. -/
def exampleOCSP : Block := { Typ := ascii "OCSP RESPONSE", Headers := [], Bytes := [48, 3, 10] }

/-- A certificate block with three bytes of content. -/
def exampleCertificate : Block := { Typ := ascii "CERTIFICATE", Headers := [], Bytes := [48, 130, 1] }

/-! ## What the claims speak of: the blocks of an input text -/

/-- A line end of a PEM text: LF, or CR LF. -/
def lineEnd (e : ByteSeq) : Prop := e = [10] ∨ e = [13, 10]

instance decidableLineEnd (e : ByteSeq) : Decidable (lineEnd e) := by
  unfold lineEnd
  infer_instance

/-- A PEM block as it stands in an input text, with the text that precedes
it. -/
structure InputBlock where
  /-- The text between the block before it (or the start of the input) and
  the BEGIN line. -/
  lead : ByteSeq
  /-- The label of the BEGIN line and of the END line. -/
  label : ByteSeq
  /-- The line end of the BEGIN line. -/
  beginEol : ByteSeq
  /-- The header lines `Key: Value` after the BEGIN line, each without the LF
  that ends it (a CR before that LF is the last byte of the line). -/
  headers : List ByteSeq
  /-- The lines between the BEGIN line and the END line. -/
  body : ByteSeq
  /-- The line end of the END line. -/
  endEol : ByteSeq
  deriving DecidableEq

/-- The bytes of a block of the input: the text before it, the BEGIN line,
the header lines, the body, the END line. -/
def InputBlock.text (t : InputBlock) : ByteSeq :=
  t.lead ++ (pemStart.drop 1 ++ t.label ++ pemEndOfLine ++ t.beginEol) ++
    (t.headers.map (fun l => l ++ [10])).flatten ++ t.body ++
    (pemEnd.drop 1 ++ t.label ++ pemEndOfLine ++ t.endEol)

/-- A well-formed block of the input: the text before it is made of whole
lines and does not hold the marker `-----BEGIN `, the label stays on its
line, the BEGIN line has a line end, every header line holds a colon, and
the body (with the empty line that may separate it from the headers) is made
of whole lines and is valid base64. -/
def InputBlock.WellFormed (t : InputBlock) : Prop :=
  (t.lead = [] ∨ t.lead.getLast? = some 10) ∧ ¬ pemStart.drop 1 <:+: t.lead ∧
    10 ∉ t.label ∧ lineEnd t.beginEol ∧
    (∀ l ∈ t.headers, 58 ∈ l ∧ 10 ∉ l) ∧
    (t.body = [] ∨ t.body.getLast? = some 10) ∧
    (stdDecode (removeSpacesAndTabs t.body)).isSome = true

instance decidableInputBlockWellFormed (t : InputBlock) : Decidable t.WellFormed := by
  unfold InputBlock.WellFormed
  infer_instance

/-- The well-formed blocks that `pem.Decode` does not read: the END line
follows the BEGIN line or the header lines at once (the body is empty), and
either the label holds a colon, so that the END line reads as a header line
`Key: Value`, or the block has headers, after which `Decode` looks for an END
line behind a line end only. -/
def InputBlock.endLineLost (t : InputBlock) : Prop :=
  t.body = [] ∧ (58 ∈ t.label ∨ t.headers ≠ [])

instance decidableEndLineLost (t : InputBlock) : Decidable t.endLineLost := by
  unfold InputBlock.endLineLost
  infer_instance

/-- The block `b` is the block of the input `t`: its type is the label, its
bytes are the base64-decoded body, and it has no headers when `t` has no
header line. -/
def InputBlock.yields (t : InputBlock) (b : Block) : Prop :=
  b.Typ = t.label ∧ b.Bytes = payload t.body ∧ (t.headers = [] → b.Headers = [])

instance decidableYields (t : InputBlock) (b : Block) : Decidable (t.yields b) := by
  unfold InputBlock.yields
  infer_instance

/-- The input that consists of the given blocks, one after the other, and
the text `trail` after the last of them. -/
def inputOf (blocks : List InputBlock) (trail : ByteSeq) : ByteSeq :=
  (blocks.map InputBlock.text).flatten ++ trail

/-- An input of well-formed blocks: every block is well-formed, every END
line has a line end, except that the input may end with the END line of the
last block, and the text after the last block does not hold the marker
`-----BEGIN `. -/
def WellFormedInput : List InputBlock → ByteSeq → Prop
  | [], trail => ¬ pemStart.drop 1 <:+: trail
  | t :: ts, trail =>
    t.WellFormed ∧ (lineEnd t.endEol ∨ (t.endEol = [] ∧ ts = [] ∧ trail = [])) ∧
      WellFormedInput ts trail

instance decidableWellFormedInput :
    (blocks : List InputBlock) → (trail : ByteSeq) → Decidable (WellFormedInput blocks trail)
  | [], trail => by
    unfold WellFormedInput
    infer_instance
  | t :: ts, trail => by
    unfold WellFormedInput
    have := decidableWellFormedInput ts trail
    infer_instance

/-- An input of three blocks: a comment line, a certificate with CR LF line
ends, a CRL with a header line, an empty line, and an OCSP response whose
END line ends the input. -/
def exampleInput : List InputBlock :=
  [{ lead := ascii "# bundle\n", label := ascii "CERTIFICATE", beginEol := [13, 10],
     headers := [], body := ascii "MIIB\r\n", endEol := [13, 10] },
   { lead := [], label := ascii "X509 CRL", beginEol := [10],
     headers := [ascii "Comment: none"], body := ascii "\nMIIC\nAQ==\n", endEol := [10] },
   { lead := ascii "\n", label := ascii "OCSP RESPONSE", beginEol := [10],
     headers := [], body := ascii "MAMK\n", endEol := [] }]

/-- A block whose END line follows the BEGIN line at once and whose label
holds a colon. -/
def exampleColon : InputBlock :=
  { lead := [], label := ascii "a:b", beginEol := [10], headers := [], body := [],
    endEol := [10] }

/-! # Lemmas -/

/-! ## Facts about the `bytes` helpers -/

theorem hasPrefix_iff (s pre : ByteSeq) : hasPrefix s pre = true ↔ pre <+: s := by
  unfold hasPrefix
  exact List.isPrefixOf_iff_prefix

theorem hasSuffix_iff (s suf : ByteSeq) : hasSuffix s suf = true ↔ suf <:+ s := by
  unfold hasSuffix
  rw [List.isPrefixOf_iff_prefix, List.reverse_prefix]

theorem hasPrefix_append (pre t : ByteSeq) : hasPrefix (pre ++ t) pre = true :=
  (hasPrefix_iff _ _).2 (List.prefix_append _ _)

theorem hasSuffix_append (t suf : ByteSeq) : hasSuffix (t ++ suf) suf = true :=
  (hasSuffix_iff _ _).2 (List.suffix_append _ _)

/-- An occurrence that `index` reports is one. -/
theorem index_some {s sep : ByteSeq} {i : Nat} (h : index s sep = some i) :
    ∃ a b, s = a ++ sep ++ b ∧ a.length = i := by
  induction s generalizing i with
  | nil =>
    simp only [index] at h
    split at h
    · rename_i he
      have : sep = [] := by simpa using he
      subst this
      exact ⟨[], [], by simp, by simpa using h⟩
    · cases h
  | cons c s ih =>
    simp only [index] at h
    split at h
    · rename_i hp
      obtain ⟨b, hb⟩ := List.isPrefixOf_iff_prefix.1 hp
      exact ⟨[], b, by simpa using hb.symm, by simpa using h⟩
    · cases hi : index s sep with
      | none => simp [hi] at h
      | some j =>
        simp only [hi, Option.map_some', Option.some.injEq] at h
        obtain ⟨a, b, hab, hl⟩ := ih hi
        exact ⟨c :: a, b, by simp [hab], by simp [hl, h]⟩

/-- When `index` reports none, there is none. -/
theorem index_none {s sep : ByteSeq} (h : index s sep = none) : ¬ sep <:+: s := by
  induction s with
  | nil =>
    simp only [index] at h
    split at h
    · cases h
    · rename_i he
      rintro ⟨a, b, hab⟩
      have : sep = [] := by
        rw [List.append_eq_nil, List.append_eq_nil] at hab
        exact hab.1.2
      simp [this] at he
  | cons c s ih =>
    simp only [index] at h
    split at h
    · cases h
    · rename_i hp
      cases hi : index s sep with
      | some j => simp [hi] at h
      | none =>
        rintro ⟨a, b, hab⟩
        cases a with
        | nil =>
          apply hp
          exact List.isPrefixOf_iff_prefix.2 ⟨b, by simpa using hab⟩
        | cons x a =>
          apply ih hi
          simp only [List.cons_append, List.append_assoc, List.cons.injEq] at hab
          exact ⟨a, b, by simpa using hab.2⟩

theorem index_isSome_of_occurs {s sep : ByteSeq} (h : sep <:+: s) : ∃ i, index s sep = some i := by
  cases hi : index s sep with
  | none => exact absurd h (index_none hi)
  | some i => exact ⟨i, rfl⟩

theorem indexByte_none {s : ByteSeq} {b : Nat} : indexByte s b = none ↔ b ∉ s := by
  induction s with
  | nil => simp [indexByte]
  | cons c s ih =>
    simp only [indexByte]
    by_cases hc : c = b
    · simp [hc]
    · simp only [hc, if_false, Option.map_eq_none', ih, List.mem_cons, not_or]
      constructor
      · intro h; exact ⟨fun e => hc e.symm, h⟩
      · intro h; exact h.2

theorem indexByte_some {s : ByteSeq} {b i : Nat} (h : indexByte s b = some i) :
    ∃ l r, s = l ++ b :: r ∧ l.length = i ∧ b ∉ l := by
  induction s generalizing i with
  | nil => simp [indexByte] at h
  | cons c s ih =>
    simp only [indexByte] at h
    by_cases hc : c = b
    · simp only [hc, if_true, Option.some.injEq] at h
      exact ⟨[], s, by simp [hc], by simpa using h, by simp⟩
    · simp only [hc, if_false] at h
      cases hi : indexByte s b with
      | none => simp [hi] at h
      | some j =>
        simp only [hi, Option.map_some', Option.some.injEq] at h
        obtain ⟨l, r, hs, hl, hn⟩ := ih hi
        refine ⟨c :: l, r, by simp [hs], by simp [hl, h], ?_⟩
        simp only [List.mem_cons, not_or]
        exact ⟨fun e => hc e.symm, hn⟩

/-- The position `indexByte` finds in `l ++ b :: r` when `b` is not in `l`. -/
theorem indexByte_append {l r : ByteSeq} {b : Nat} (h : b ∉ l) :
    indexByte (l ++ b :: r) b = some l.length := by
  induction l with
  | nil => simp [indexByte]
  | cons c l ih =>
    simp only [List.mem_cons, not_or] at h
    have hc : c ≠ b := fun e => h.1 e.symm
    simp [indexByte, hc, ih h.2]

theorem trimRight_subset (s : ByteSeq) : trimRight s <+: s := by
  unfold trimRight
  exact List.rdropWhile_prefix _ _

theorem trimRight_eq_self {s : ByteSeq} {c : Nat} (h32 : c ≠ 32) (h9 : c ≠ 9) :
    trimRight (s ++ [c]) = s ++ [c] := by
  unfold trimRight
  rw [List.rdropWhile_concat]
  simp [h32, h9]

/-! ## Facts about `getLine` and the header loop -/

/-- What `getLine` returns: the input is cut at its first newline, or taken
whole when it has none; the line returned is a prefix of the part before. -/
theorem getLine_spec (d : ByteSeq) :
    (∃ l r, d = l ++ 10 :: r ∧ 10 ∉ l ∧ (getLine d).2 = r ∧ (getLine d).1 <+: l) ∨
    (10 ∉ d ∧ (getLine d).2 = [] ∧ (getLine d).1 <+: d) := by
  unfold getLine
  cases hi : indexByte d 10 with
  | none =>
    right
    exact ⟨indexByte_none.1 hi, rfl, trimRight_subset _⟩
  | some i =>
    left
    obtain ⟨l, r, hd, hl, hn⟩ := indexByte_some hi
    subst hd
    refine ⟨l, r, rfl, hn, ?_, ?_⟩
    · simp only
      rw [← hl]
      simp
    · simp only
      refine (trimRight_subset _).trans ?_
      have hle : (if i > 0 ∧ (l ++ 10 :: r).get? (i - 1) = some 13 then i - 1 else i)
          ≤ l.length := by
        split <;> omega
      rw [List.take_append_of_le_length hle]
      exact List.take_prefix _ _

theorem getLine_snd_suffix (d : ByteSeq) : (getLine d).2 <:+ d := by
  rcases getLine_spec d with ⟨l, r, hd, _, h2, _⟩ | ⟨_, h2, _⟩
  · rw [h2]
    exact ⟨l ++ [10], by simp [hd]⟩
  · rw [h2]
    exact List.nil_suffix

theorem getLine_snd_length_lt {d : ByteSeq} (h : d ≠ []) : (getLine d).2.length < d.length := by
  rcases getLine_spec d with ⟨l, r, hd, _, h2, _⟩ | ⟨_, h2, _⟩
  · rw [h2, hd]
    simp
    omega
  · rw [h2]
    exact List.length_pos.2 h

theorem getLine_snd_length_le (d : ByteSeq) : (getLine d).2.length ≤ d.length :=
  (getLine_snd_suffix d).length_le

theorem getLine_fst_mem {d : ByteSeq} {x : Nat} (h : x ∈ (getLine d).1) : x ∈ d ∧ x ≠ 10 := by
  rcases getLine_spec d with ⟨l, r, hd, hn, _, h1⟩ | ⟨hn, _, h1⟩
  · have hx : x ∈ l := h1.subset h
    refine ⟨by rw [hd]; exact List.mem_append_left _ hx, ?_⟩
    rintro rfl
    exact hn hx
  · have hx : x ∈ d := h1.subset h
    refine ⟨hx, ?_⟩
    rintro rfl
    exact hn hx

/-- The line `getLine` returns when the first line ends in a byte that is
neither a carriage return nor a space or tab. -/
theorem getLine_append_concat {l r : ByteSeq} {c : Nat} (hl : 10 ∉ l) (hc10 : c ≠ 10)
    (hc13 : c ≠ 13) (hc32 : c ≠ 32) (hc9 : c ≠ 9) :
    getLine (l ++ [c] ++ 10 :: r) = (l ++ [c], r) := by
  have hn : 10 ∉ l ++ [c] := by
    simp only [List.mem_append, List.mem_singleton, not_or]
    exact ⟨hl, fun e => hc10 e.symm⟩
  unfold getLine
  rw [indexByte_append hn]
  have hget : (l ++ [c] ++ 10 :: r).get? ((l ++ [c]).length - 1) = some c := by
    have h1 : (l ++ [c]).length - 1 = l.length := by simp
    rw [h1, List.get?_eq_getElem?, List.append_assoc,
      List.getElem?_append_right (Nat.le_refl _)]
    simp
  simp only [hget, Option.some.injEq, hc13, and_false, if_false]
  rw [List.take_left, trimRight_eq_self hc32 hc9]
  have h2 : l ++ [c] ++ 10 :: r = (l ++ [c] ++ [10]) ++ r := by simp
  rw [h2, List.drop_left' (by simp)]

theorem getLine_nil_cons (r : ByteSeq) : getLine (10 :: r) = ([], r) := by
  simp [getLine, indexByte, trimRight]

/-- What follows the first line, whatever the line ends in. -/
theorem getLine_snd_append {l r : ByteSeq} (hl : 10 ∉ l) : (getLine (l ++ 10 :: r)).2 = r := by
  unfold getLine
  rw [indexByte_append hl]
  simp

theorem headerLoop_ne_outOfFuel {fuel : Nat} {rest : ByteSeq} {hs : List (ByteSeq × ByteSeq)}
    (h : rest.length < fuel) : headerLoop fuel rest hs ≠ .outOfFuel := by
  induction fuel generalizing rest hs with
  | zero => omega
  | succ fuel ih =>
    unfold headerLoop
    split
    · simp
    · rename_i hne
      have hne2 : rest ≠ [] := fun e => hne (by simp [e])
      split
      · simp
      · apply ih
        have := getLine_snd_length_lt hne2
        omega

/-- Where the header loop stops, the input left over is a non-empty suffix of
the input it started from. -/
theorem headerLoop_body {fuel : Nat} {rest rest2 : ByteSeq} {hs hs2 : List (ByteSeq × ByteSeq)}
    (h : headerLoop fuel rest hs = .body rest2 hs2) : rest2 <:+ rest ∧ rest2 ≠ [] := by
  induction fuel generalizing rest hs with
  | zero => simp [headerLoop] at h
  | succ fuel ih =>
    unfold headerLoop at h
    split at h
    · cases h
    · rename_i hne
      split at h
      · injection h with h1 h2
        subst h1
        exact ⟨List.suffix_refl _, fun e => hne (by simp [e])⟩
      · obtain ⟨hsuf, hnil⟩ := ih h
        exact ⟨hsuf.trans (getLine_snd_suffix _), hnil⟩

/-! ## Facts about `Decode`: termination and the cursor -/

theorem findStart_some {data rest : ByteSeq} (h : findStart data = some rest) :
    ∃ pre, data = pre ++ pemStart.drop 1 ++ rest := by
  unfold findStart at h
  split at h
  · rename_i hp
    obtain ⟨t, ht⟩ := (hasPrefix_iff _ _).1 hp
    injection h with h
    refine ⟨[], ?_⟩
    rw [← h, ← ht]
    simp [pemStart]
  · cases hi : index data pemStart with
    | none => simp [hi] at h
    | some i =>
      simp only [hi, Option.some.injEq] at h
      obtain ⟨a, b, hab, hl⟩ := index_some hi
      refine ⟨a ++ [10], ?_⟩
      rw [← h, hab, ← hl]
      simp [pemStart]

theorem findStart_none {data : ByteSeq} (h : findStart data = none) :
    ¬ pemStart.drop 1 <+: data ∧ ¬ pemStart <:+: data := by
  unfold findStart at h
  split at h
  · cases h
  · rename_i hp
    cases hi : index data pemStart with
    | some i => simp [hi] at h
    | none =>
      refine ⟨fun hpre => hp ((hasPrefix_iff _ _).2 hpre), index_none hi⟩

theorem findStart_length {data rest : ByteSeq} (h : findStart data = some rest) :
    rest.length + 11 ≤ data.length := by
  obtain ⟨pre, hd⟩ := findStart_some h
  rw [hd]
  simp [pemStart]

theorem findStart_suffix {data rest : ByteSeq} (h : findStart data = some rest) :
    rest <:+ data := by
  obtain ⟨pre, hd⟩ := findStart_some h
  exact ⟨pre ++ pemStart.drop 1, hd.symm⟩

/-- What `decodeBody` has checked when it returns a block. -/
theorem decodeBody_some {typeLine rest : ByteSeq} {hs : List (ByteSeq × ByteSeq)} {p : Block}
    {r : ByteSeq} (h : decodeBody typeLine rest hs = some (p, r)) :
    ∃ endIndex endTrailerIndex bytes,
      findEnd rest hs = some (endIndex, endTrailerIndex) ∧
      stdDecode (removeSpacesAndTabs (rest.take endIndex)) = some bytes ∧
      p = { Typ := typeLine, Headers := hs, Bytes := bytes } ∧
      r = (getLine (rest.drop (endIndex + pemEnd.length - 1))).2 := by
  unfold decodeBody at h
  split at h
  · cases h
  · rename_i endIndex endTrailerIndex hfe
    simp only at h
    split at h
    · cases h
    · split at h
      · cases h
      · split at h
        · cases h
        · split at h
          · cases h
          · rename_i bytes hb
            simp only [Option.some.injEq, Prod.mk.injEq] at h
            exact ⟨endIndex, endTrailerIndex, bytes, hfe, hb, h.1.symm, h.2.symm⟩

theorem decodeBody_suffix {typeLine rest : ByteSeq} {hs : List (ByteSeq × ByteSeq)} {p : Block}
    {r : ByteSeq} (h : decodeBody typeLine rest hs = some (p, r)) : r <:+ rest := by
  obtain ⟨e, _, _, _, _, _, hr⟩ := decodeBody_some h
  rw [hr]
  exact (getLine_snd_suffix _).trans (List.drop_suffix _ _)

theorem decodeBody_typ {typeLine rest : ByteSeq} {hs : List (ByteSeq × ByteSeq)} {p : Block}
    {r : ByteSeq} (h : decodeBody typeLine rest hs = some (p, r)) :
    p.Typ = typeLine ∧ p.Headers = hs := by
  obtain ⟨_, _, _, _, _, hp, _⟩ := decodeBody_some h
  rw [hp]
  exact ⟨rfl, rfl⟩

theorem decodeError_block {data r : ByteSeq} {x : Option (Option Block × ByteSeq)} {p : Block}
    (h : decodeError data x = some (some p, r)) : x = some (some p, r) := by
  unfold decodeError at h
  split at h
  · cases h
  · cases h
  · exact h

theorem decodeError_ne_none {data : ByteSeq} {x : Option (Option Block × ByteSeq)}
    (h : x ≠ none) : decodeError data x ≠ none := by
  unfold decodeError
  split
  · exact absurd rfl h
  · simp
  · simp

/-- A block that `Decode` returns comes with a rest that is a strictly
shorter suffix of the input. -/
theorem decodeFuel_block {fuel : Nat} {data r : ByteSeq} {p : Block}
    (h : decodeFuel fuel data = some (some p, r)) : r <:+ data ∧ r.length < data.length := by
  induction fuel generalizing data with
  | zero => simp [decodeFuel] at h
  | succ fuel ih =>
    unfold decodeFuel at h
    split at h
    · cases h
    · rename_i rest hfs
      have hlen := findStart_length hfs
      have hsuf := findStart_suffix hfs
      have hgl := getLine_snd_suffix rest
      simp only at h
      split at h
      · obtain ⟨h1, h2⟩ := ih (decodeError_block h)
        exact ⟨h1.trans (hgl.trans hsuf), by have := hgl.length_le; omega⟩
      · split at h
        · cases h
        · cases h
        · rename_i rest2 hs hhl
          obtain ⟨hb1, _⟩ := headerLoop_body hhl
          split at h
          · rename_i p2 r2 hdb
            simp only [Option.some.injEq, Prod.mk.injEq] at h
            obtain ⟨_, hr⟩ := h
            subst hr
            have h3 := decodeBody_suffix hdb
            refine ⟨h3.trans (hb1.trans (hgl.trans hsuf)), ?_⟩
            have := h3.length_le
            have := hb1.length_le
            have := hgl.length_le
            omega
          · obtain ⟨h1, h2⟩ := ih (decodeError_block h)
            refine ⟨h1.trans (hb1.trans (hgl.trans hsuf)), ?_⟩
            have := hb1.length_le
            have := hgl.length_le
            omega

/-- The bound on the recursion is never hit: with more levels than the input
has bytes, `decodeFuel` returns. -/
theorem decodeFuel_ne_none {fuel : Nat} {data : ByteSeq} (h : data.length < fuel) :
    decodeFuel fuel data ≠ none := by
  induction fuel generalizing data with
  | zero => omega
  | succ fuel ih =>
    unfold decodeFuel
    split
    · simp
    · rename_i rest hfs
      have hlen := findStart_length hfs
      have hgl := (getLine_snd_suffix rest).length_le
      simp only
      split
      · exact decodeError_ne_none (ih (by omega))
      · split
        · rename_i hhl
          exact absurd hhl (headerLoop_ne_outOfFuel (Nat.lt_succ_self _))
        · simp
        · rename_i rest2 hs hhl
          have hb := (headerLoop_body hhl).1.length_le
          split
          · simp
          · exact decodeError_ne_none (ih (by omega))

/-- The result does not depend on the bound, once it exceeds the length of
the input. -/
theorem decodeFuel_stable {f1 f2 : Nat} {data : ByteSeq} (h1 : data.length < f1)
    (h2 : data.length < f2) : decodeFuel f1 data = decodeFuel f2 data := by
  induction f1 generalizing f2 data with
  | zero => omega
  | succ f1 ih =>
    cases f2 with
    | zero => omega
    | succ f2 =>
      unfold decodeFuel
      cases hfs : findStart data with
      | none => rfl
      | some rest =>
        have hlen := findStart_length hfs
        have hgl := (getLine_snd_suffix rest).length_le
        simp only
        have e1 : decodeFuel f1 (getLine rest).2 = decodeFuel f2 (getLine rest).2 :=
          ih (by omega) (by omega)
        rw [e1]
        split
        · rfl
        · split
          · rfl
          · rfl
          · rename_i rest2 hs hhl
            have hb := (headerLoop_body hhl).1.length_le
            have e2 : decodeFuel f1 rest2 = decodeFuel f2 rest2 := ih (by omega) (by omega)
            rw [e2]

theorem decodeFuel_eq_Decode {fuel : Nat} {data : ByteSeq} (h : data.length < fuel) :
    decodeFuel fuel data = some (Decode data) := by
  unfold Decode
  rw [decodeFuel_stable (Nat.lt_succ_self _) h]
  cases hd : decodeFuel fuel data with
  | none => exact absurd hd (decodeFuel_ne_none h)
  | some x => rfl

theorem decodeError_eq_retry {data rest : ByteSeq} :
    (decodeError data (some (Decode rest))).getD (none, data) = decodeRetry data rest := by
  unfold decodeError decodeRetry
  rcases hd : Decode rest with ⟨_ | p, r⟩ <;> rfl

/-- The recursion equation of `Decode`, free of the bound: the text of Go's
`Decode`, with `decodeError` as `decodeRetry`. -/
theorem Decode_eq (data : ByteSeq) :
    Decode data =
      match findStart data with
      | none => (none, data)
      | some rest =>
        if !hasSuffix (getLine rest).1 pemEndOfLine then decodeRetry data (getLine rest).2
        else
          match headerLoop ((getLine rest).2.length + 1) (getLine rest).2 [] with
          | .outOfFuel => (none, data)
          | .exhausted => (none, data)
          | .body rest2 headers =>
            match decodeBody ((getLine rest).1.take
                ((getLine rest).1.length - pemEndOfLine.length)) rest2 headers with
            | some (p, r) => (some p, r)
            | none => decodeRetry data rest2 := by
  conv => lhs; unfold Decode decodeFuel
  cases hfs : findStart data with
  | none => rfl
  | some rest =>
    have hlen := findStart_length hfs
    have hgl := (getLine_snd_suffix rest).length_le
    simp only
    cases hsuf : hasSuffix (getLine rest).1 pemEndOfLine with
    | false =>
      simp only [Bool.not_false, if_true]
      rw [decodeFuel_eq_Decode (by omega)]
      exact decodeError_eq_retry
    | true =>
      simp only [Bool.not_true, Bool.false_eq_true, if_false]
      cases hhl : headerLoop ((getLine rest).2.length + 1) (getLine rest).2 [] with
      | outOfFuel => exact absurd hhl (headerLoop_ne_outOfFuel (Nat.lt_succ_self _))
      | exhausted => rfl
      | body rest2 hs =>
        have hb := (headerLoop_body hhl).1.length_le
        simp only
        cases hdb : decodeBody ((getLine rest).1.take
            ((getLine rest).1.length - pemEndOfLine.length)) rest2 hs with
        | some pr => rfl
        | none =>
          simp only
          rw [decodeFuel_eq_Decode (by omega)]
          exact decodeError_eq_retry

/-- The function `Decode` is total: the model's bound on the recursion is not what ends it. -/
theorem Decode_total (data : ByteSeq) :
    decodeFuel (data.length + 1) data = some (Decode data) :=
  decodeFuel_eq_Decode (Nat.lt_succ_self _)

theorem Decode_block {data r : ByteSeq} {p : Block} (h : Decode data = (some p, r)) :
    r <:+ data ∧ r.length < data.length := by
  have := Decode_total data
  rw [h] at this
  exact decodeFuel_block this

theorem decodeRetry_nil {data rest r : ByteSeq}
    (h : Decode rest = (none, r)) : decodeRetry data rest = (none, data) := by
  unfold decodeRetry
  rw [h]

/-! ## Facts about the base64 decoder -/

theorem skipNewlines_nil {s : ByteSeq} (h : skipNewlines s = []) : ∀ c ∈ s, c = 10 ∨ c = 13 := by
  induction s with
  | nil => simp
  | cons x s ih =>
    unfold skipNewlines at h
    split at h
    · rename_i hx
      intro c hc
      rcases List.mem_cons.1 hc with rfl | hc
      · exact hx
      · exact ih h c hc
    · cases h

theorem skipNewlines_cons {s t : ByteSeq} {c : Nat} (h : skipNewlines s = c :: t) :
    ∃ nl, s = nl ++ c :: t ∧ ∀ x ∈ nl, x = 10 ∨ x = 13 := by
  induction s with
  | nil => simp [skipNewlines] at h
  | cons x s ih =>
    unfold skipNewlines at h
    split at h
    · rename_i hx
      obtain ⟨nl, hs, hnl⟩ := ih h
      refine ⟨x :: nl, by simp [hs], ?_⟩
      intro y hy
      rcases List.mem_cons.1 hy with rfl | hy
      · exact hx
      · exact hnl y hy
    · injection h with h1 h2
      subst h1 h2
      exact ⟨[], by simp, by simp⟩

theorem isEmpty_eq_nil {s : ByteSeq} (h : s.isEmpty = true) : s = [] := by
  cases s with
  | nil => rfl
  | cons x s => simp at h

/-- Input that the base64 decoder accepts holds characters of the alphabet,
padding and line ends only. -/
theorem decodeFrom_chars {s : ByteSeq} {dbuf : List Nat} {out : ByteSeq}
    (h : decodeFrom s dbuf = some out) : ∀ c ∈ s, base64Char c := by
  induction s generalizing dbuf out with
  | nil => simp
  | cons x s ih =>
    intro c hc
    unfold decodeFrom at h
    split at h
    · rename_i v hv
      rcases List.mem_cons.1 hc with rfl | hc
      · left
        simp [hv]
      · split at h
        · cases hd : decodeFrom s [] with
          | none => simp [hd] at h
          | some o => exact ih hd c hc
        · exact ih h c hc
    · rename_i hv
      split at h
      · rename_i hnl
        rcases List.mem_cons.1 hc with rfl | hc
        · right; right; exact hnl
        · exact ih h c hc
      · split at h
        · cases h
        · rename_i hpad
          have hx : x = 61 := by simpa [padChar] using hpad
          rcases List.mem_cons.1 hc with rfl | hc
          · right; left; exact hx
          · split at h
            · split at h
              · cases h
              · rename_i c2 src2 hsk
                split at h
                · cases h
                · rename_i hc2
                  have hc2 : c2 = 61 := by simpa [padChar] using hc2
                  split at h
                  · rename_i hemp
                    obtain ⟨nl, hs, hnl⟩ := skipNewlines_cons hsk
                    have h2 := skipNewlines_nil (isEmpty_eq_nil hemp)
                    rw [hs] at hc
                    rcases List.mem_append.1 hc with hc | hc
                    · right; right; exact hnl c hc
                    · rcases List.mem_cons.1 hc with rfl | hc
                      · right; left; exact hc2
                      · right; right; exact h2 c hc
                  · cases h
            · split at h
              · split at h
                · rename_i hemp
                  right; right
                  exact skipNewlines_nil (isEmpty_eq_nil hemp) c hc
                · cases h
              · cases h

theorem stdDecode_chars {s out : ByteSeq} (h : stdDecode s = some out) :
    ∀ c ∈ s, base64Char c :=
  decodeFrom_chars h

theorem base64Char_ne {c : Nat} (h : base64Char c) : c ≠ 45 ∧ c ≠ 58 ∧ c ≠ 32 ∧ c ≠ 9 := by
  unfold base64Char decodeMap at h
  refine ⟨?_, ?_, ?_, ?_⟩ <;> rintro rfl <;> simp at h

/-- A text whose base64 content decodes has neither `-` nor `:` in it. -/
theorem body_chars {body out : ByteSeq} (h : stdDecode (removeSpacesAndTabs body) = some out) :
    45 ∉ body ∧ 58 ∉ body := by
  have hc := stdDecode_chars h
  constructor
  · intro hm
    have : 45 ∈ removeSpacesAndTabs body := by
      unfold removeSpacesAndTabs
      exact List.mem_filter.2 ⟨hm, by decide⟩
    exact (base64Char_ne (hc 45 this)).1 rfl
  · intro hm
    have : 58 ∈ removeSpacesAndTabs body := by
      unfold removeSpacesAndTabs
      exact List.mem_filter.2 ⟨hm, by decide⟩
    exact (base64Char_ne (hc 58 this)).2.1 rfl

theorem skipNewlines_append_newline (s : ByteSeq) :
    skipNewlines (s ++ [10]) = if skipNewlines s = [] then [] else skipNewlines s ++ [10] := by
  induction s with
  | nil => simp [skipNewlines]
  | cons x s ih =>
    by_cases hx : x = 10 ∨ x = 13
    · rw [List.cons_append]
      simp only [skipNewlines, hx, if_true]
      exact ih
    · simp [skipNewlines, hx]

/-- A newline at the end of the input changes nothing for the decoder. -/
theorem decodeFrom_append_newline (s : ByteSeq) (dbuf : List Nat) :
    decodeFrom (s ++ [10]) dbuf = decodeFrom s dbuf := by
  induction s generalizing dbuf with
  | nil => simp [decodeFrom, decodeMap]
  | cons x s ih =>
    simp only [List.cons_append]
    unfold decodeFrom
    cases hv : decodeMap x with
    | some v => simp only [ih]
    | none =>
      simp only [ih, skipNewlines_append_newline]
      by_cases hx : x = 10 ∨ x = 13
      · simp [hx]
      · simp only [hx, if_false]
        by_cases hp : x ≠ padChar
        · simp [hp]
        · simp only [hp, if_false]
          by_cases h2 : dbuf.length = 2
          · simp only [h2, if_true]
            cases hsk : skipNewlines s with
            | nil => simp
            | cons c2 src2 =>
              simp only [if_false, List.cons_append, reduceCtorEq]
              by_cases hc2 : c2 ≠ padChar
              · simp [hc2]
              · simp only [hc2, if_false]
                by_cases he : skipNewlines src2 = []
                · simp [he, skipNewlines_append_newline]
                · simp [he, skipNewlines_append_newline]
          · simp only [h2, if_false]
            by_cases h3 : dbuf.length = 3
            · simp only [h3, if_true]
              by_cases he : skipNewlines s = []
              · simp [he]
              · simp [he]
            · simp [h3]

theorem removeSpacesAndTabs_append (a b : ByteSeq) :
    removeSpacesAndTabs (a ++ b) = removeSpacesAndTabs a ++ removeSpacesAndTabs b := by
  simp [removeSpacesAndTabs]

theorem stdDecode_body_init (b : ByteSeq) :
    stdDecode (removeSpacesAndTabs (b ++ [10])) = stdDecode (removeSpacesAndTabs b) := by
  rw [removeSpacesAndTabs_append]
  have : removeSpacesAndTabs [10] = [10] := by decide
  rw [this]
  exact decodeFrom_append_newline _ _

/-! ## Finding the markers -/

/-- The search `index` steps over a byte at which the separator does not start. -/
theorem index_cons_of_no_match {x : Nat} {s sep : ByteSeq}
    (h : sep.isPrefixOf (x :: s) = false) :
    index (x :: s) sep = (index s sep).map (· + 1) := by
  simp [index, h]

theorem index_at_start {s sep : ByteSeq} (h : sep <+: s) : index s sep = some 0 := by
  cases s with
  | nil =>
    have : sep = [] := List.prefix_nil.1 h
    simp [index, this]
  | cons x s =>
    have : sep.isPrefixOf (x :: s) = true := List.isPrefixOf_iff_prefix.2 h
    simp [index, this]

/-- The first occurrence of a marker `\n...` that has no second newline: it
is where the marker stands, when it does not occur in the text before. -/
theorem index_marker (t r sep : ByteSeq) (h10 : 10 ∉ sep)
    (hno : ¬ (10 :: sep) <:+: (t ++ [10])) :
    index (t ++ 10 :: sep ++ r) (10 :: sep) = some t.length := by
  induction t with
  | nil =>
    apply index_at_start
    exact ⟨r, by simp⟩
  | cons x t ih =>
    have hnp : (10 :: sep).isPrefixOf (x :: (t ++ 10 :: sep ++ r)) = false := by
      rw [Bool.eq_false_iff]
      intro hp
      rw [List.isPrefixOf_iff_prefix] at hp
      obtain ⟨u, hu⟩ := hp
      simp only [List.cons_append, List.cons.injEq] at hu
      obtain ⟨hx, hu⟩ := hu
      have p1 : sep <+: t ++ 10 :: sep ++ r := ⟨u, hu⟩
      have p2 : t ++ [10] <+: t ++ 10 :: sep ++ r := ⟨sep ++ r, by simp⟩
      rcases List.prefix_or_prefix_of_prefix p1 p2 with h1 | h2
      · apply hno
        obtain ⟨v, hv⟩ := h1
        refine ⟨[], v, ?_⟩
        simp [← hx, ← hv]
      · apply h10
        exact h2.subset (by simp)
    have hno2 : ¬ (10 :: sep) <:+: (t ++ [10]) := by
      intro hi
      apply hno
      exact hi.trans ⟨[x], [], by simp⟩
    rw [List.cons_append, List.cons_append, index_cons_of_no_match hnp]
    simp only [List.cons_append] at ih
    rw [ih hno2]
    simp

/-- A text without a byte of the separator does not hold the separator. -/
theorem not_infix_of_not_mem {s sep : ByteSeq} {c : Nat} (hc : c ∈ sep) (hs : c ∉ s) :
    ¬ sep <:+: s := by
  intro h
  exact hs (h.subset hc)

theorem findStart_begin (r : ByteSeq) : findStart (pemStart.drop 1 ++ r) = some r := by
  unfold findStart
  rw [hasPrefix_append]
  simp [pemStart]

theorem getLine_fst_le {l r : ByteSeq} (hl : 10 ∉ l) : (getLine (l ++ 10 :: r)).1 <+: l := by
  unfold getLine
  rw [indexByte_append hl]
  simp only
  refine (trimRight_subset _).trans ?_
  have hle : (if l.length > 0 ∧ (l ++ 10 :: r).get? (l.length - 1) = some 13 then l.length - 1
      else l.length) ≤ l.length := by
    split <;> omega
  rw [List.take_append_of_le_length hle]
  exact List.take_prefix _ _

theorem getLast_append {s : ByteSeq} {c : Nat} (h : s.getLast? = some c) :
    ∃ t, s = t ++ [c] := by
  rcases List.eq_nil_or_concat s with rfl | ⟨t, d, rfl⟩
  · simp at h
  · simp at h
    exact ⟨t, by simp [h]⟩

/-- The first line of a text that starts with whole lines of `body` has its
bytes from `body`. -/
theorem getLine_fst_of_body {body r : ByteSeq} (h : body.getLast? = some 10) :
    ∀ x ∈ (getLine (body ++ r)).1, x ∈ body := by
  have hm : 10 ∈ body := by
    obtain ⟨t, ht⟩ := getLast_append h
    simp [ht]
  cases hi : indexByte body 10 with
  | none => exact absurd hm (indexByte_none.1 hi)
  | some i =>
    obtain ⟨l, r1, hb, _, hn⟩ := indexByte_some hi
    intro x hx
    rw [hb, List.append_assoc, List.cons_append] at hx
    have := (getLine_fst_le (r := r1 ++ r) hn).subset hx
    rw [hb]
    exact List.mem_append_left _ this

/-- What `decodeBody` returns for an END line that is in order. -/
theorem decodeBody_eq {typeLine rest : ByteSeq} {hs : List (ByteSeq × ByteSeq)} {e t : Nat}
    {bytes tl : ByteSeq} (hfe : findEnd rest hs = some (e, t))
    (htr : rest.drop t = typeLine ++ pemEndOfLine ++ 10 :: tl)
    (hdec : stdDecode (removeSpacesAndTabs (rest.take e)) = some bytes) :
    decodeBody typeLine rest hs =
      some ({ Typ := typeLine, Headers := hs, Bytes := bytes },
        (getLine (rest.drop (e + pemEnd.length - 1))).2) := by
  unfold decodeBody
  simp only [hfe, htr, hdec]
  have hlen : ¬ (typeLine ++ pemEndOfLine ++ 10 :: tl).length
      < typeLine.length + pemEndOfLine.length := by
    simp
  rw [if_neg hlen]
  have htake : (typeLine ++ pemEndOfLine ++ 10 :: tl).take
      (typeLine.length + pemEndOfLine.length) = typeLine ++ pemEndOfLine := by
    rw [List.take_left' (by simp)]
  have hdrop : (typeLine ++ pemEndOfLine ++ 10 :: tl).drop
      (typeLine.length + pemEndOfLine.length) = 10 :: tl := by
    rw [List.drop_left' (by simp)]
  rw [htake, hdrop, getLine_nil_cons]
  have hp : hasPrefix (typeLine ++ pemEndOfLine) typeLine = true := hasPrefix_append _ _
  have hsf : hasSuffix (typeLine ++ pemEndOfLine) pemEndOfLine = true := hasSuffix_append _ _
  simp [hp, hsf]

theorem getLine_typeLine (label r : ByteSeq) (h : 10 ∉ label) :
    getLine (label ++ pemEndOfLine ++ 10 :: r) = (label ++ pemEndOfLine, r) := by
  have e : label ++ pemEndOfLine = (label ++ [45, 45, 45, 45]) ++ [45] := by
    simp [pemEndOfLine]
  rw [e]
  apply getLine_append_concat
  · simp only [List.mem_append, not_or]
    exact ⟨h, by decide⟩
  all_goals decide

theorem take_typeLine (label : ByteSeq) :
    (label ++ pemEndOfLine).take ((label ++ pemEndOfLine).length - pemEndOfLine.length)
      = label := by
  rw [List.take_left' (by simp)]

/-- The header loop stops at once at a line without a colon. -/
theorem headerLoop_stop {rest : ByteSeq} (hne : rest ≠ [])
    (h : ∀ x ∈ (getLine rest).1, x ≠ 58) (fuel : Nat) (hs : List (ByteSeq × ByteSeq)) :
    headerLoop (fuel + 1) rest hs = .body rest hs := by
  unfold headerLoop
  have h0 : ¬ rest.length = 0 := fun e => hne (List.eq_nil_of_length_eq_zero e)
  have hi : indexByte (getLine rest).1 58 = none :=
    indexByte_none.2 (fun hm => h 58 hm rfl)
  simp [h0, hi]

/-- Where `Decode` finds the END line of a well-formed block. -/
theorem findEnd_wellFormed (label : ByteSeq) {body : ByteSeq} (tl : ByteSeq) (h10 : 10 ∉ label)
    (hb : body = [] ∨ body.getLast? = some 10) (h45 : 45 ∉ body) :
    ∃ e t, findEnd (body ++ endLine label ++ tl) [] = some (e, t) ∧
      (body ++ endLine label ++ tl).drop t = label ++ pemEndOfLine ++ 10 :: tl ∧
      stdDecode (removeSpacesAndTabs ((body ++ endLine label ++ tl).take e))
        = stdDecode (removeSpacesAndTabs body) ∧
      (getLine ((body ++ endLine label ++ tl).drop (e + pemEnd.length - 1))).2 = tl := by
  have hl32 : 10 ∉ 32 :: (label ++ pemEndOfLine) := by
    simp only [List.mem_cons, List.mem_append, not_or]
    exact ⟨by decide, h10, by decide⟩
  have hl : 10 ∉ label ++ pemEndOfLine := by
    simp only [List.mem_append, not_or]
    exact ⟨h10, by decide⟩
  rcases hb with rfl | hb
  · refine ⟨0, pemEnd.length - 1, ?_, ?_, ?_, ?_⟩
    · unfold findEnd
      have : hasPrefix ([] ++ endLine label ++ tl) (pemEnd.drop 1) = true := by
        apply (hasPrefix_iff _ _).2
        exact ⟨label ++ pemEndOfLine ++ [10] ++ tl, by simp [endLine]⟩
      rw [if_pos ⟨rfl, this⟩]
    · simp [endLine, pemEnd]
    · simp
    · have e2 : [] ++ endLine label ++ tl
          = [45, 45, 45, 45, 45, 69, 78, 68, 32] ++ ((label ++ pemEndOfLine) ++ 10 :: tl) := by
        simp [endLine, pemEnd]
      rw [e2, List.drop_left' (by simp [pemEnd])]
      exact getLine_snd_append hl
  · obtain ⟨b, rfl⟩ := getLast_append hb
    have hb45 : 45 ∉ b := fun hm => h45 (List.mem_append_left _ hm)
    have hdata : b ++ [10] ++ endLine label ++ tl
        = b ++ 10 :: pemEnd.drop 1 ++ (label ++ pemEndOfLine ++ 10 :: tl) := by
      simp [endLine]
    have hidx : index (b ++ [10] ++ endLine label ++ tl) pemEnd = some b.length := by
      rw [hdata]
      have hp : pemEnd = 10 :: pemEnd.drop 1 := by decide
      rw [hp]
      apply index_marker
      · decide
      · apply not_infix_of_not_mem (c := 45)
        · decide
        · exact h45
    have hnp : hasPrefix (b ++ [10] ++ endLine label ++ tl) (pemEnd.drop 1) = false := by
      rw [Bool.eq_false_iff]
      intro hp
      obtain ⟨u, hu⟩ := (hasPrefix_iff _ _).1 hp
      cases b with
      | nil => simp [pemEnd] at hu
      | cons x b =>
        simp only [pemEnd, List.drop_succ_cons, List.drop_zero, List.cons_append,
          List.cons.injEq] at hu
        exact hb45 (by simp [← hu.1])
    refine ⟨b.length, b.length + pemEnd.length, ?_, ?_, ?_, ?_⟩
    · unfold findEnd
      have hc : ¬ (([] : List (ByteSeq × ByteSeq)).length = 0 ∧
          hasPrefix (b ++ [10] ++ endLine label ++ tl) (pemEnd.drop 1) = true) := by
        intro h
        rw [hnp] at h
        exact Bool.false_ne_true h.2
      rw [if_neg hc, hidx]
      rfl
    · rw [hdata]
      have e2 : b ++ 10 :: pemEnd.drop 1 ++ (label ++ pemEndOfLine ++ 10 :: tl)
          = (b ++ pemEnd) ++ (label ++ pemEndOfLine ++ 10 :: tl) := by
        simp [pemEnd]
      rw [e2, List.drop_left' (by simp)]
    · rw [hdata, List.append_assoc, List.take_left' rfl]
      exact (stdDecode_body_init b).symm
    · rw [hdata]
      have e2 : b ++ 10 :: pemEnd.drop 1 ++ (label ++ pemEndOfLine ++ 10 :: tl)
          = (b ++ [10, 45, 45, 45, 45, 45, 69, 78, 68]) ++
            ((32 :: (label ++ pemEndOfLine)) ++ 10 :: tl) := by
        simp [pemEnd]
      rw [e2, List.drop_left' (by simp [pemEnd])]
      exact getLine_snd_append hl32

/-- The result of `Decode` on a well-formed block, whatever follows it: the block of that
label and payload, and as rest what follows the block. -/
theorem Decode_blockText {label body : ByteSeq} (h : WellFormedBlock label body)
    (tl : ByteSeq) :
    Decode (blockText label body ++ tl) = (some (blockOf (label, body)), tl) := by
  obtain ⟨h10, h58, hlines, hdec⟩ := h
  obtain ⟨bytes, hbytes⟩ := Option.isSome_iff_exists.1 hdec
  obtain ⟨hb45, hb58⟩ := body_chars hbytes
  have hdata : blockText label body ++ tl
      = pemStart.drop 1 ++ (label ++ pemEndOfLine ++ 10 :: (body ++ endLine label ++ tl)) := by
    simp [blockText, beginLine]
  rw [Decode_eq, hdata, findStart_begin]
  simp only [getLine_typeLine _ _ h10, hasSuffix_append, Bool.not_true, Bool.false_eq_true,
    if_false, take_typeLine]
  have hne : body ++ endLine label ++ tl ≠ [] := by simp [endLine]
  have hline : ∀ x ∈ (getLine (body ++ endLine label ++ tl)).1, x ≠ 58 := by
    intro x hx
    rcases hlines with rfl | hl
    · have e : [] ++ endLine label ++ tl
          = (pemEnd.drop 1 ++ label) ++ pemEndOfLine ++ 10 :: tl := by simp [endLine]
      rw [e, getLine_typeLine] at hx
      · rintro rfl
        simp only [List.mem_append] at hx
        rcases hx with (hx | hx) | hx
        · revert hx; decide
        · exact h58 rfl hx
        · revert hx; decide
      · simp only [List.mem_append, not_or]
        exact ⟨by decide, h10⟩
    · rw [List.append_assoc] at hx
      have := getLine_fst_of_body hl x hx
      rintro rfl
      exact hb58 this
  rw [headerLoop_stop hne hline]
  obtain ⟨e, t, hfe, htr, hd, hrest⟩ := findEnd_wellFormed label tl h10 hlines hb45
  simp only
  rw [decodeBody_eq hfe htr (hd.trans hbytes), hrest]
  simp [blockOf, payload, hbytes]

/-! ## The headers of a decoded block -/

theorem trimLeftSpace_suffix (fuel : Nat) (s : ByteSeq) : trimLeftSpace fuel s <:+ s := by
  induction fuel generalizing s with
  | zero => exact List.suffix_refl _
  | succ fuel ih =>
    unfold trimLeftSpace
    split
    · exact List.suffix_refl _
    · exact (ih _).trans (List.drop_suffix _ _)

theorem trimRightSpace_init (fuel : Nat) (s : ByteSeq) : trimRightSpace fuel s <+: s := by
  induction fuel generalizing s with
  | zero => exact List.prefix_refl _
  | succ fuel ih =>
    unfold trimRightSpace
    split
    · exact List.prefix_refl _
    · exact (ih _).trans (List.take_prefix _ _)

theorem trimSpace_subset {s : ByteSeq} {x : Nat} (h : x ∈ trimSpace s) : x ∈ s := by
  unfold trimSpace at h
  exact (trimLeftSpace_suffix _ _).subset ((trimRightSpace_init _ _).subset h)

theorem mem_setHeader {hs : List (ByteSeq × ByteSeq)} {key val : ByteSeq} {kv : ByteSeq × ByteSeq}
    (h : kv ∈ setHeader hs key val) : kv = (key, val) ∨ kv ∈ hs := by
  induction hs with
  | nil =>
    simp only [setHeader, List.mem_singleton] at h
    exact Or.inl h
  | cons a hs ih =>
    obtain ⟨k, v⟩ := a
    unfold setHeader at h
    split at h
    · rename_i hk
      rcases List.mem_cons.1 h with h | h
      · left
        rw [h, hk]
      · right
        exact List.mem_cons_of_mem _ h
    · rcases List.mem_cons.1 h with h | h
      · right
        rw [h]
        exact List.mem_cons_self _ _
      · rcases ih h with h | h
        · exact Or.inl h
        · exact Or.inr (List.mem_cons_of_mem _ h)

theorem setHeader_ne_nil (hs : List (ByteSeq × ByteSeq)) (key val : ByteSeq) :
    setHeader hs key val ≠ [] := by
  cases hs with
  | nil => simp [setHeader]
  | cons a hs =>
    obtain ⟨k, v⟩ := a
    unfold setHeader
    split <;> simp

/-- The header loop keeps the headers in order. -/
theorem headerLoop_headersOk {fuel : Nat} {rest rest2 : ByteSeq}
    {hs hs2 : List (ByteSeq × ByteSeq)} (hok : HeadersOk hs)
    (h : headerLoop fuel rest hs = .body rest2 hs2) : HeadersOk hs2 := by
  induction fuel generalizing rest hs with
  | zero => simp [headerLoop] at h
  | succ fuel ih =>
    unfold headerLoop at h
    split at h
    · cases h
    · split at h
      · injection h with h1 h2
        subst h2
        exact hok
      · rename_i i hi
        refine ih ?_ h
        obtain ⟨l, r, hl, hlen, hn⟩ := indexByte_some hi
        have hline : ∀ x ∈ l ++ 58 :: r, x ≠ 10 := by
          intro x hx
          rw [← hl] at hx
          exact (getLine_fst_mem hx).2
        intro kv hkv
        rcases mem_setHeader hkv with rfl | hkv
        · simp only
          have hdrop : (l ++ 58 :: r).drop (l.length + 1) = r := by
            have e : l ++ 58 :: r = (l ++ [58]) ++ r := by simp
            rw [e]
            exact List.drop_left' (by simp)
          rw [hl, ← hlen, List.take_left, hdrop]
          refine ⟨fun hm => hn (trimSpace_subset hm), fun hm => ?_, fun hm => ?_⟩
          · exact hline 10 (List.mem_append_left _ (trimSpace_subset hm)) rfl
          · exact hline 10 (List.mem_append_right _
              (List.mem_cons_of_mem _ (trimSpace_subset hm))) rfl
        · exact hok kv hkv

theorem decodeRetry_inv {data rest r : ByteSeq} {p : Block}
    (h : decodeRetry data rest = (some p, r)) : Decode rest = (some p, r) := by
  unfold decodeRetry at h
  split at h
  · cases h
  · rename_i p2 r2 hd
    rw [hd, ← h]

/-- A block that `Decode` returns was read by `decodeBody` behind a BEGIN
line: the attempt that succeeded. -/
theorem Decode_some_inv {data r : ByteSeq} {p : Block} (h : Decode data = (some p, r)) :
    ∃ rest rest2 hs, rest.length < data.length ∧ rest <:+ data ∧
      headerLoop ((getLine rest).2.length + 1) (getLine rest).2 [] = .body rest2 hs ∧
      decodeBody ((getLine rest).1.take ((getLine rest).1.length - pemEndOfLine.length))
        rest2 hs = some (p, r) := by
  generalize hn : data.length = n
  induction n using Nat.strong_induction_on generalizing data with
  | _ n ih =>
    subst hn
    rw [Decode_eq] at h
    cases hfs : findStart data with
    | none => simp [hfs] at h
    | some rest =>
      have hlen := findStart_length hfs
      have hsf := findStart_suffix hfs
      have hgs := getLine_snd_suffix rest
      have hgl := hgs.length_le
      simp only [hfs] at h
      cases hsuf : hasSuffix (getLine rest).1 pemEndOfLine with
      | false =>
        simp only [hsuf, Bool.not_false, if_true] at h
        obtain ⟨a, b, c, h1, h2, h3⟩ := ih _ (by omega) (decodeRetry_inv h) rfl
        exact ⟨a, b, c, by omega, h2.trans (hgs.trans hsf), h3⟩
      | true =>
        simp only [hsuf, Bool.not_true, Bool.false_eq_true, if_false] at h
        cases hhl : headerLoop ((getLine rest).2.length + 1) (getLine rest).2 [] with
        | outOfFuel => simp [hhl] at h
        | exhausted => simp [hhl] at h
        | body rest2 hs =>
          simp only [hhl] at h
          have hbs := (headerLoop_body hhl).1
          have hb := hbs.length_le
          cases hdb : decodeBody ((getLine rest).1.take
              ((getLine rest).1.length - pemEndOfLine.length)) rest2 hs with
          | some pr =>
            obtain ⟨p2, r2⟩ := pr
            simp only [hdb, Prod.mk.injEq, Option.some.injEq] at h
            obtain ⟨rfl, rfl⟩ := h
            exact ⟨rest, rest2, hs, by omega, hsf, hhl, hdb⟩
          | none =>
            simp only [hdb] at h
            obtain ⟨a, b, c, h1, h2, h3⟩ := ih _ (by omega) (decodeRetry_inv h) rfl
            exact ⟨a, b, c, by omega, h2.trans (hbs.trans (hgs.trans hsf)), h3⟩

theorem quantumBytes_lt (dbuf : List Nat) : ∀ x ∈ quantumBytes dbuf, x < 256 := by
  intro x hx
  unfold quantumBytes at hx
  have := List.mem_of_mem_take hx
  simp only [List.mem_cons, List.mem_singleton, List.not_mem_nil, or_false] at this
  rcases this with rfl | rfl | rfl <;> exact Nat.mod_lt _ (by decide)

theorem decodeFrom_lt {s : ByteSeq} {dbuf : List Nat} {out : ByteSeq}
    (h : decodeFrom s dbuf = some out) : ∀ x ∈ out, x < 256 := by
  induction s generalizing dbuf out with
  | nil =>
    unfold decodeFrom at h
    split at h
    · injection h with h
      subst h
      simp
    · cases h
  | cons c s ih =>
    unfold decodeFrom at h
    split at h
    · split at h
      · cases hd : decodeFrom s [] with
        | none => simp [hd] at h
        | some o =>
          simp only [hd, Option.map_some', Option.some.injEq] at h
          subst h
          intro x hx
          rcases List.mem_append.1 hx with hx | hx
          · exact quantumBytes_lt _ x hx
          · exact ih hd x hx
      · exact ih h
    · split at h
      · exact ih h
      · split at h
        · cases h
        · split at h
          · split at h
            · cases h
            · split at h
              · cases h
              · split at h
                · injection h with h
                  subst h
                  exact quantumBytes_lt _
                · cases h
          · split at h
            · split at h
              · injection h with h
                subst h
                exact quantumBytes_lt _
              · cases h
            · cases h

/-- What every block that `Decode` returns is like: the type has no newline,
the headers are in order, the bytes are bytes. -/
theorem Decode_block_ok {data r : ByteSeq} {p : Block} (h : Decode data = (some p, r)) :
    10 ∉ p.Typ ∧ HeadersOk p.Headers ∧ ∀ x ∈ p.Bytes, x < 256 := by
  obtain ⟨rest, rest2, hs, _, _, hhl, hdb⟩ := Decode_some_inv h
  obtain ⟨e, t, bytes, _, hdec, hp, _⟩ := decodeBody_some hdb
  subst hp
  refine ⟨?_, ?_, ?_⟩
  · intro hm
    exact (getLine_fst_mem (List.mem_of_mem_take hm)).2 rfl
  · exact headerLoop_headersOk (fun kv hkv => by cases hkv) hhl
  · exact decodeFrom_lt hdec

theorem Encode_isSome_of_headersOk {b : Block} (h : HeadersOk b.Headers) :
    (Encode b).isSome = true := by
  unfold Encode
  have : b.Headers.any (fun kv => kv.1.contains 58) = false := by
    rw [Bool.eq_false_iff]
    intro ha
    obtain ⟨kv, hkv, hc⟩ := List.any_eq_true.1 ha
    have : 58 ∈ kv.1 := by simpa using hc
    exact (h kv hkv).1 this
  simp only [this, Bool.false_eq_true, if_false, Option.isSome_some]

/-- The function `pem.Encode` does not fail on a block that `Decode` returned. -/
theorem Encode_isSome_of_Decode {data r : ByteSeq} {p : Block} (h : Decode data = (some p, r)) :
    (Encode p).isSome = true :=
  Encode_isSome_of_headersOk (Decode_block_ok h).2.1

/-! ## The print functions -/

@[simp] theorem World.printf_printed (w : World) (t : ByteSeq) : (w.printf t).printed = w.printed := rfl
@[simp] theorem World.printf_files (w : World) (t : ByteSeq) : (w.printf t).files = w.files := rfl
@[simp] theorem World.printf_log (w : World) (t : ByteSeq) : (w.printf t).log = w.log := rfl
@[simp] theorem World.printf_calls (w : World) (t : ByteSeq) : (w.printf t).calls = w.calls := rfl
@[simp] theorem World.printf_stdout (w : World) (t : ByteSeq) :
    (w.printf t).stdout = w.stdout ++ [t] := rfl
@[simp] theorem World.logPrintf_printed (w : World) (t : ByteSeq) :
    (w.logPrintf t).printed = w.printed := rfl
@[simp] theorem World.logPrintf_files (w : World) (t : ByteSeq) :
    (w.logPrintf t).files = w.files := rfl
@[simp] theorem World.logPrintf_stdout (w : World) (t : ByteSeq) :
    (w.logPrintf t).stdout = w.stdout := rfl
@[simp] theorem World.logPrintf_calls (w : World) (t : ByteSeq) :
    (w.logPrintf t).calls = w.calls := rfl
@[simp] theorem World.logPrintf_log (w : World) (t : ByteSeq) :
    (w.logPrintf t).log = w.log ++ [t] := rfl
@[simp] theorem World.call_printed (w : World) (c : Call) : (w.call c).printed = w.printed := rfl
@[simp] theorem World.call_files (w : World) (c : Call) : (w.call c).files = w.files := rfl
@[simp] theorem World.call_stdout (w : World) (c : Call) : (w.call c).stdout = w.stdout := rfl
@[simp] theorem World.call_log (w : World) (c : Call) : (w.call c).log = w.log := rfl
@[simp] theorem World.call_calls (w : World) (c : Call) : (w.call c).calls = w.calls ++ [c] := rfl
@[simp] theorem World.create_printed (w : World) (n : ByteSeq) :
    (w.create n).printed = w.printed := rfl
@[simp] theorem World.create_stdout (w : World) (n : ByteSeq) :
    (w.create n).stdout = w.stdout := rfl
@[simp] theorem World.create_log (w : World) (n : ByteSeq) : (w.create n).log = w.log := rfl
@[simp] theorem World.create_calls (w : World) (n : ByteSeq) : (w.create n).calls = w.calls := rfl
@[simp] theorem World.create_files (w : World) (n : ByteSeq) :
    (w.create n).files = w.files ++ [(n, [])] := rfl
@[simp] theorem World.write_printed (w : World) (n d : ByteSeq) :
    (w.write n d).printed = w.printed := rfl
@[simp] theorem World.write_stdout (w : World) (n d : ByteSeq) :
    (w.write n d).stdout = w.stdout := rfl
@[simp] theorem World.write_log (w : World) (n d : ByteSeq) : (w.write n d).log = w.log := rfl
@[simp] theorem World.write_calls (w : World) (n d : ByteSeq) :
    (w.write n d).calls = w.calls := rfl
@[simp] theorem World.remove_printed (w : World) (n : ByteSeq) :
    (w.remove n).printed = w.printed := rfl
@[simp] theorem World.remove_stdout (w : World) (n : ByteSeq) :
    (w.remove n).stdout = w.stdout := rfl
@[simp] theorem World.remove_log (w : World) (n : ByteSeq) : (w.remove n).log = w.log := rfl
@[simp] theorem World.remove_calls (w : World) (n : ByteSeq) :
    (w.remove n).calls = w.calls ++ [.remove n] := rfl
@[simp] theorem World.remove_files (w : World) (n : ByteSeq) :
    (w.remove n).files = w.files.filter (fun f => f.1 ≠ n) := rfl
@[simp] theorem Outcome.world_returned (w : World) : (Outcome.returned w).world = w := rfl
@[simp] theorem Outcome.world_exited (c : Nat) (w : World) : (Outcome.exited c w).world = w := rfl
@[simp] theorem World.logFatal_world (w : World) (t : ByteSeq) :
    (w.logFatal t).world = w.logPrintf t := rfl

/-- What `runCommand` leaves unchanged, and what it returns: the output it
captured and the error of `CombinedOutput`. -/
theorem runCommand_spec (env : Env) (w : World) (command : ByteSeq) :
    (runCommand env w command).1.printed = w.printed ∧
    (runCommand env w command).1.files = w.files ∧
    (runCommand env w command).1.stdout = w.stdout ∧
    (runCommand env w command).1.calls = w.calls ++ [.run command] ∧
    (runCommand env w command).2.2 = ((env.run command w.files).output,
      (env.run command w.files).err) := by
  unfold runCommand
  simp only [Testmode]
  cases he : (env.run command w.files).err with
  | none => simp
  | some e =>
    simp only
    split <;> split <;> simp

theorem runCommand_log_ok (env : Env) (w : World) (command : ByteSeq)
    (h : (env.run command w.files).err = none) : (runCommand env w command).1.log = w.log := by
  unfold runCommand
  simp [Testmode, h]

theorem viaTempFile_printed (env : Env) (w : World) (pattern content template : ByteSeq) :
    (viaTempFile env w pattern content template).world.printed = w.printed := by
  unfold viaTempFile
  split
  · simp
  · split
    · simp
    · split
      · simp
      · simp [(runCommand_spec env _ _).1]
        split <;> simp [(runCommand_spec env _ _).1]

/-- The dispatch when no file operation fails: the function returns, having
made these requests, in this order, and having printed the output captured
from the command, whether the command failed or not; a failure of the command
is reported in the log. -/
theorem viaTempFile_ok {env : Env} {w : World} {pattern content template name : ByteSeq}
    (ht : env.tempFile pattern w.files = .ok name) (hw : env.write name content = none)
    (hc : env.close name = none) :
    ∃ w2, viaTempFile env w pattern content template = .returned w2 ∧
      w2.printed = w.printed ∧
      w2.calls = w.calls ++ [.tempFile pattern, .write name content, .close name,
        .run (sprintf template name), .remove name] ∧
      w2.stdout = w.stdout ++ [sprintf (ascii "%s\n")
        (env.run (sprintf template name) (filesAtRun w name content)).output] ∧
      w2.files = (filesAtRun w name content).filter (fun f => f.1 ≠ name) ∧
      (∀ e, (env.run (sprintf template name) (filesAtRun w name content)).err = some e →
        w2.log.getLast? = some (sprintf (ascii "error <%v> at runCommand()") e)) ∧
      ((env.run (sprintf template name) (filesAtRun w name content)).err = none →
        w2.log = w.log) := by
  unfold viaTempFile
  simp only [ht, hw, hc]
  have hs := runCommand_spec env (((((w.call (.tempFile pattern)).create name).call
    (.write name content)).write name content).call (.close name)) (sprintf template name)
  have hl := runCommand_log_ok env (((((w.call (.tempFile pattern)).create name).call
    (.write name content)).write name content).call (.close name)) (sprintf template name)
  rcases hr : runCommand env (((((w.call (.tempFile pattern)).create name).call
    (.write name content)).write name content).call (.close name)) (sprintf template name)
    with ⟨w3, st, out, err⟩
  rw [hr] at hs hl
  simp only [World.call_printed, World.write_printed, World.create_printed, World.call_files,
    World.call_stdout, World.write_stdout, World.create_stdout, World.call_calls,
    World.write_calls, World.create_calls, Prod.mk.injEq, World.call_log, World.write_log,
    World.create_log] at hs hl
  obtain ⟨h1, h2, h3, h4, h5, h6⟩ := hs
  have hf : ((((w.call (.tempFile pattern)).create name).call
      (.write name content)).write name content).files = filesAtRun w name content := rfl
  rw [hf] at h2 h5 h6 hl
  refine ⟨_, rfl, ?_, ?_, ?_, ?_, ?_, ?_⟩
  · cases err <;> simp [h1]
  · cases err <;> simp [h4]
  · cases err <;> simp [h3, h5]
  · cases err <;> simp [h2]
  · intro e he
    rw [← h6] at he
    subst he
    simp
  · intro he
    have hl2 := hl he
    rw [← h6] at he
    subst he
    simpa using hl2

/-! ## `printPEM` and the scan loop -/

/-- Every call of `printPEM` is recorded, however it ends. -/
theorem printPEM_printed (env : Env) (w : World) (b : Block) :
    (printPEM env w b).world.printed = w.printed ++ [b] := by
  unfold printPEM printCertificatePEM printOCSPResponsePEM printCRLPEM
  simp only
  split
  · cases Encode b <;> simp [viaTempFile_printed]
  · split
    · cases Encode b <;> simp [viaTempFile_printed]
    · split
      · cases Encode b <;> simp [viaTempFile_printed]
      · simp

theorem viaTempFile_returned_of_filesOk {env : Env} (henv : env.filesOk) (w : World)
    (pattern content template : ByteSeq) :
    ∃ w2, viaTempFile env w pattern content template = .returned w2 := by
  obtain ⟨name, hn⟩ := henv.1 pattern w.files
  obtain ⟨w2, h, _⟩ := @viaTempFile_ok env w pattern content template name hn (henv.2.1 name content)
    (henv.2.2 name)
  exact ⟨w2, h⟩

/-- On an operating system whose file operations succeed, `printPEM` returns
for every block that can be encoded. -/
theorem printPEM_returned_of_filesOk {env : Env} (henv : env.filesOk) (w : World) {b : Block}
    (henc : (Encode b).isSome = true) :
    ∃ w2, printPEM env w b = .returned w2 ∧ w2.printed = w.printed ++ [b] := by
  have hp := printPEM_printed env w b
  suffices h : ∃ w2, printPEM env w b = .returned w2 by
    obtain ⟨w2, h2⟩ := h
    rw [h2] at hp
    exact ⟨w2, h2, hp⟩
  obtain ⟨text, ht⟩ := Option.isSome_iff_exists.1 henc
  unfold printPEM printCertificatePEM printOCSPResponsePEM printCRLPEM
  simp only [ht]
  split
  · exact viaTempFile_returned_of_filesOk henv _ _ _ _
  · split
    · exact viaTempFile_returned_of_filesOk henv _ _ _ _
    · split
      · exact viaTempFile_returned_of_filesOk henv _ _ _ _
      · exact ⟨_, rfl⟩

/-- A block of a type that is not recognized: `printPEM` prints one line and
returns; it makes no request to the operating system and logs nothing. -/
theorem printPEM_unsupported (env : Env) (w : World) {b : Block} (h : ¬ recognized b.Typ) :
    printPEM env w b = .returned
      { w with printed := w.printed ++ [b],
               stdout := w.stdout ++ [sprintf (ascii "\nPEM type <%v> not supported.\n") b.Typ] } := by
  unfold recognized at h
  simp only [not_or] at h
  unfold printPEM
  simp only [h.1, h.2.1, h.2.2, if_false]
  rfl

theorem Decode_empty : Decode [] = (none, []) := by decide

/-- The loop of `main` ends: the bound on its rounds is not hit when it
exceeds the length of the input. -/
theorem scanLoop_total (env : Env) {fuel : Nat} (w : World) {rest : ByteSeq}
    (h : rest.length < fuel) : ∃ o, scanLoop env fuel w rest = some o := by
  induction fuel generalizing w rest with
  | zero => omega
  | succ fuel ih =>
    unfold scanLoop
    rcases hd : Decode rest with ⟨_ | b, r⟩
    · exact ⟨_, rfl⟩
    · simp only
      have := (Decode_block hd).2
      cases printPEM env w b with
      | exited c w2 => exact ⟨_, rfl⟩
      | returned w2 => exact ih w2 (by omega)

/-- The blocks the loop passes to `printPEM` are the blocks `Decode` yields,
in order: all of them when the loop ends by itself, the first ones when a
print function exits the process. -/
theorem scanLoop_printed (env : Env) {fuel : Nat} {w : World} {rest : ByteSeq} {o : Outcome}
    (h : scanLoop env fuel w rest = some o) :
    (∀ w2, o = .returned w2 → w2.printed = w.printed ++ scanBlocks fuel rest) ∧
    ∃ k, o.world.printed = w.printed ++ (scanBlocks fuel rest).take k := by
  induction fuel generalizing w rest with
  | zero => simp [scanLoop] at h
  | succ fuel ih =>
    unfold scanLoop at h
    unfold scanBlocks
    rcases hd : Decode rest with ⟨_ | b, r⟩
    · simp only [hd, Option.some.injEq] at h
      subst h
      simp
    · simp only [hd] at h
      have hp := printPEM_printed env w b
      cases hpr : printPEM env w b with
      | exited c w2 =>
        simp only [hpr, Option.some.injEq] at h
        subst h
        rw [hpr] at hp
        refine ⟨(fun w3 h3 => nomatch h3), 1, ?_⟩
        simpa using hp
      | returned w2 =>
        simp only [hpr] at h
        rw [hpr] at hp
        simp only [Outcome.world_returned] at hp
        obtain ⟨h1, k, h2⟩ := ih h
        refine ⟨fun w3 h3 => ?_, k + 1, ?_⟩
        · rw [h1 w3 h3, hp]
          simp
        · rw [h2, hp]
          simp

/-- On an operating system whose file operations succeed the loop ends by
itself, having passed every block to `printPEM`. -/
theorem scanLoop_ok {env : Env} (henv : env.filesOk) {fuel : Nat} (w : World) {rest : ByteSeq}
    (h : rest.length < fuel) :
    ∃ w2, scanLoop env fuel w rest = some (.returned w2) ∧
      w2.printed = w.printed ++ scanBlocks fuel rest := by
  induction fuel generalizing w rest with
  | zero => omega
  | succ fuel ih =>
    unfold scanLoop scanBlocks
    rcases hd : Decode rest with ⟨_ | b, r⟩
    · exact ⟨w, rfl, by simp⟩
    · simp only
      have := (Decode_block hd).2
      obtain ⟨w2, hw2, hp⟩ := printPEM_returned_of_filesOk henv w (Encode_isSome_of_Decode hd)
      rw [hw2]
      simp only
      obtain ⟨w3, hw3, hp3⟩ := @ih w2 r (by omega)
      exact ⟨w3, hw3, by rw [hp3, hp]; simp⟩

theorem scanBlocks_length (fuel : Nat) (data : ByteSeq) :
    (scanBlocks fuel data).length ≤ data.length := by
  induction fuel generalizing data with
  | zero => simp [scanBlocks]
  | succ fuel ih =>
    unfold scanBlocks
    rcases hd : Decode data with ⟨_ | b, r⟩
    · simp
    · simp only [List.length_cons]
      have := (Decode_block hd).2
      have := ih r
      omega

theorem scanBlocks_stable {f1 f2 : Nat} {data : ByteSeq} (h1 : data.length < f1)
    (h2 : data.length < f2) : scanBlocks f1 data = scanBlocks f2 data := by
  induction f1 generalizing f2 data with
  | zero => omega
  | succ f1 ih =>
    cases f2 with
    | zero => omega
    | succ f2 =>
      unfold scanBlocks
      rcases hd : Decode data with ⟨_ | b, r⟩
      · rfl
      · simp only
        have := (Decode_block hd).2
        rw [@ih f2 r (by omega) (by omega)]

/-- The blocks of a buffer made of well-formed blocks: one for each, in
order, with its label and its decoded body. -/
theorem scanBlocks_bufferOf (blocks : List (ByteSeq × ByteSeq))
    (hwf : ∀ lb ∈ blocks, WellFormedBlock lb.1 lb.2) (fuel : Nat)
    (hf : blocks.length < fuel) :
    scanBlocks fuel (bufferOf blocks) = blocks.map blockOf := by
  induction blocks generalizing fuel with
  | nil =>
    cases fuel with
    | zero => omega
    | succ fuel =>
      unfold scanBlocks
      simp [bufferOf, Decode_empty]
  | cons lb blocks ih =>
    cases fuel with
    | zero => omega
    | succ fuel =>
      unfold scanBlocks
      have e : bufferOf (lb :: blocks) = blockText lb.1 lb.2 ++ bufferOf blocks := by
        simp [bufferOf]
      rw [e, Decode_blockText (hwf lb (List.mem_cons_self _ _))]
      simp only [List.map_cons, List.cons.injEq, true_and]
      exact ih (fun x hx => hwf x (List.mem_cons_of_mem _ hx)) fuel
        (by simp at hf; omega)

/-! ## `main` -/

theorem envOk_filesOk : envOk.filesOk :=
  ⟨fun _ _ => ⟨_, rfl⟩, fun _ _ => rfl, fun _ => rfl⟩

theorem envCommandFails_filesOk : envCommandFails.filesOk :=
  ⟨fun _ _ => ⟨_, rfl⟩, fun _ _ => rfl, fun _ => rfl⟩

/-- When the first `Decode` returns no block, `main` logs the failure and
exits with code 1; nothing was passed to `printPEM`, nothing printed, no
request made. -/
theorem main_of_nil (env : Env) {buf : ByteSeq} (h : (Decode buf).1 = none) :
    main env buf = some (.exited 1
      { files := [], stdout := [], log := [noBlockMessage], printed := [], calls := [] }) := by
  unfold main
  rcases hd : Decode buf with ⟨_ | b, r⟩
  · rfl
  · rw [hd] at h
    cases h

/-- The function `main` ends: the bound on the rounds of its loop is never hit. -/
theorem main_total (env : Env) (buf : ByteSeq) : ∃ o, main env buf = some o := by
  unfold main
  rcases hd : Decode buf with ⟨_ | b, r⟩
  · exact ⟨_, rfl⟩
  · simp only
    cases printPEM env World.start b with
    | exited c w => exact ⟨_, rfl⟩
    | returned w =>
      simp only
      obtain ⟨o, ho⟩ := scanLoop_total env w (Nat.lt_succ_self r.length)
      rw [ho]
      cases o <;> exact ⟨_, rfl⟩

theorem scanBlocks_of_Decode {buf r : ByteSeq} {b : Block} (hd : Decode buf = (some b, r)) :
    scanBlocks (buf.length + 1) buf = b :: scanBlocks (r.length + 1) r := by
  conv => lhs; unfold scanBlocks
  rw [hd]
  simp only
  have := (Decode_block hd).2
  rw [scanBlocks_stable (by omega) (Nat.lt_succ_self _)]

/-- The blocks `main` passes to `printPEM` are the first blocks that `Decode`
yields, in order. -/
theorem main_printed (env : Env) {buf : ByteSeq} {o : Outcome} (h : main env buf = some o) :
    ∃ k, o.world.printed = (scanBlocks (buf.length + 1) buf).take k := by
  unfold main at h
  rcases hd : Decode buf with ⟨_ | b, r⟩
  · simp only [hd, Option.some.injEq] at h
    subst h
    exact ⟨0, rfl⟩
  · simp only [hd] at h
    rw [scanBlocks_of_Decode hd]
    have hp := printPEM_printed env World.start b
    cases hpr : printPEM env World.start b with
    | exited c w =>
      simp only [hpr, Option.some.injEq] at h
      subst h
      rw [hpr] at hp
      exact ⟨1, by simpa [World.start] using hp⟩
    | returned w =>
      simp only [hpr] at h
      rw [hpr] at hp
      simp only [Outcome.world_returned, World.start, List.nil_append] at hp
      cases hs : scanLoop env (r.length + 1) w r with
      | none => simp [hs] at h
      | some o2 =>
        obtain ⟨_, k, hk⟩ := scanLoop_printed env hs
        refine ⟨k + 1, ?_⟩
        cases o2 with
        | exited c w2 =>
          simp only [hs, Option.some.injEq] at h
          subst h
          simpa [hp] using hk
        | returned w2 =>
          simp only [hs, Option.some.injEq] at h
          subst h
          simpa [hp] using hk

/-- On an operating system whose file operations succeed, `main` passes every
block that `Decode` yields to `printPEM` and exits with code 0, once the
first `Decode` has returned a block. -/
theorem main_ok {env : Env} (henv : env.filesOk) {buf r : ByteSeq} {b : Block}
    (hd : Decode buf = (some b, r)) :
    ∃ w, main env buf = some (.exited 0 w) ∧ w.printed = scanBlocks (buf.length + 1) buf := by
  unfold main
  rw [hd, scanBlocks_of_Decode hd]
  simp only
  obtain ⟨w2, hw2, hp⟩ := printPEM_returned_of_filesOk henv World.start (Encode_isSome_of_Decode hd)
  rw [hw2]
  simp only
  obtain ⟨w3, hw3, hp3⟩ := scanLoop_ok henv w2 (Nat.lt_succ_self r.length)
  rw [hw3]
  refine ⟨_, rfl, ?_⟩
  simp [hp3, hp, World.start]

theorem blockText_length_pos (label body : ByteSeq) : 0 < (blockText label body).length := by
  simp [blockText, beginLine]

theorem bufferOf_length (blocks : List (ByteSeq × ByteSeq)) :
    blocks.length ≤ (bufferOf blocks).length := by
  induction blocks with
  | nil => simp
  | cons lb blocks ih =>
    have e : bufferOf (lb :: blocks) = blockText lb.1 lb.2 ++ bufferOf blocks := by
      simp [bufferOf]
    rw [e, List.length_append, List.length_cons]
    have := blockText_length_pos lb.1 lb.2
    omega

/-- The run of `main` on a buffer of well-formed blocks, when no file
operation fails: every block is passed to `printPEM`, in order. -/
theorem main_bufferOf {env : Env} (henv : env.filesOk) {blocks : List (ByteSeq × ByteSeq)}
    (hN : 1 ≤ blocks.length) (hwf : ∀ lb ∈ blocks, WellFormedBlock lb.1 lb.2) :
    ∃ w, main env (bufferOf blocks) = some (.exited 0 w) ∧ w.printed = blocks.map blockOf := by
  cases blocks with
  | nil => simp at hN
  | cons lb blocks =>
    have e : bufferOf (lb :: blocks) = blockText lb.1 lb.2 ++ bufferOf blocks := by
      simp [bufferOf]
    have hd : Decode (bufferOf (lb :: blocks)) = (some (blockOf lb), bufferOf blocks) := by
      rw [e]
      exact Decode_blockText (hwf lb (List.mem_cons_self _ _)) _
    obtain ⟨w, hw, hp⟩ := main_ok henv hd
    refine ⟨w, hw, ?_⟩
    rw [hp]
    apply scanBlocks_bufferOf _ hwf
    have := bufferOf_length (lb :: blocks)
    omega

/-- A buffer without the text `-----BEGIN ` holds no block for `Decode`. -/
theorem Decode_of_no_begin {buf : ByteSeq} (h : ¬ pemStart.drop 1 <:+: buf) :
    Decode buf = (none, buf) := by
  have hfs : findStart buf = none := by
    cases hf : findStart buf with
    | none => rfl
    | some rest =>
      obtain ⟨pre, hp⟩ := findStart_some hf
      exact absurd ⟨pre, rest, hp.symm⟩ h
  rw [Decode_eq, hfs]

/-- The first block that `Decode` returns is passed to `printPEM`, however
`main` goes on. -/
theorem main_printed_ne_nil (env : Env) {buf r : ByteSeq} {b : Block} {o : Outcome}
    (hd : Decode buf = (some b, r)) (h : main env buf = some o) : o.world.printed ≠ [] := by
  unfold main at h
  simp only [hd] at h
  have hp := printPEM_printed env World.start b
  cases hpr : printPEM env World.start b with
  | exited c w =>
    simp only [hpr, Option.some.injEq] at h
    subst h
    rw [hpr] at hp
    simp only [Outcome.world_exited] at hp ⊢
    rw [hp]
    simp
  | returned w =>
    simp only [hpr] at h
    rw [hpr] at hp
    simp only [Outcome.world_returned] at hp
    cases hs : scanLoop env (r.length + 1) w r with
    | none => simp [hs] at h
    | some o2 =>
      obtain ⟨_, k, hk⟩ := scanLoop_printed env hs
      cases o2 with
      | exited c w2 =>
        simp only [hs, Option.some.injEq] at h
        subst h
        simp only [Outcome.world_exited] at hk ⊢
        rw [hk, hp]
        simp
      | returned w2 =>
        simp only [hs, Option.some.injEq] at h
        subst h
        simp only [Outcome.world_returned] at hk
        simp only [Outcome.world_exited, World.printf_printed]
        rw [hk, hp]
        simp

/-! ## Base64: decoding what was encoded -/

theorem decodeMap_encodeStd {v : Nat} (h : v < 64) : decodeMap (encodeStd v) = some v := by
  unfold encodeStd
  split
  · unfold decodeMap
    rw [if_pos (by omega)]
    exact congrArg some (by omega)
  · split
    · unfold decodeMap
      rw [if_neg (by omega), if_pos (by omega)]
      exact congrArg some (by omega)
    · split
      · unfold decodeMap
        rw [if_neg (by omega), if_neg (by omega), if_pos (by omega)]
        exact congrArg some (by omega)
      · split
        · rename_i h62
          subst h62
          rfl
        · have : v = 63 := by omega
          subst this
          rfl

theorem encodeStd_ne {v : Nat} (h : v < 64) :
    encodeStd v ≠ 32 ∧ encodeStd v ≠ 9 ∧ encodeStd v ≠ 45 ∧ encodeStd v ≠ 58 ∧
      encodeStd v ≠ 10 := by
  unfold encodeStd
  split
  · omega
  · split
    · omega
    · split
      · omega
      · split <;> decide

theorem quantumBytes_four {a b c : Nat} (ha : a < 256) (hb : b < 256) (hc : c < 256) :
    quantumBytes [a / 4, a % 4 * 16 + b / 16, b % 16 * 4 + c / 64, c % 64] = [a, b, c] := by
  simp only [quantumBytes, List.getD_cons_zero, List.getD_cons_succ, List.length_cons,
    List.length_nil, List.take, List.cons.injEq, and_true]
  omega

theorem quantumBytes_three {a b : Nat} (ha : a < 256) (hb : b < 256) :
    quantumBytes [a / 4, a % 4 * 16 + b / 16, b % 16 * 4] = [a, b] := by
  simp only [quantumBytes, List.getD_cons_zero, List.getD_cons_succ, List.length_cons,
    List.length_nil, List.take, List.cons.injEq, and_true, List.getD_nil]
  omega

theorem quantumBytes_two {a : Nat} (ha : a < 256) :
    quantumBytes [a / 4, a % 4 * 16] = [a] := by
  simp only [quantumBytes, List.getD_cons_zero, List.getD_cons_succ, List.length_cons,
    List.length_nil, List.take, List.cons.injEq, and_true, List.getD_nil]
  omega

theorem decodeFrom_newline (s : ByteSeq) (dbuf : List Nat) :
    decodeFrom (10 :: s) dbuf = decodeFrom s dbuf := by
  conv => lhs; unfold decodeFrom
  simp [decodeMap]

/-- The decoder reads a character of the alphabet into the quantum. -/
theorem decodeFrom_char {v : Nat} (h : v < 64) (s : ByteSeq) (dbuf : List Nat)
    (hd : dbuf.length ≠ 3) :
    decodeFrom (encodeStd v :: s) dbuf = decodeFrom s (dbuf ++ [v]) := by
  conv => lhs; unfold decodeFrom
  rw [decodeMap_encodeStd h]
  simp only [hd, if_false]

theorem decodeFrom_char_last {v : Nat} (h : v < 64) (s : ByteSeq) (dbuf : List Nat)
    (hd : dbuf.length = 3) :
    decodeFrom (encodeStd v :: s) dbuf
      = (decodeFrom s []).map (quantumBytes (dbuf ++ [v]) ++ ·) := by
  conv => lhs; unfold decodeFrom
  rw [decodeMap_encodeStd h]
  simp only [hd, if_true]

theorem lineBreaker_four (e1 e2 e3 e4 : Nat) (s : ByteSeq) {u : Nat} (hu : u % 4 = 0)
    (hu64 : u < 64) :
    lineBreaker (e1 :: e2 :: e3 :: e4 :: s) u =
      e1 :: e2 :: e3 :: e4 ::
        (if u + 4 < 64 then lineBreaker s (u + 4) else 10 :: lineBreaker s 0) := by
  rw [lineBreaker, if_pos (by omega), lineBreaker, if_pos (by omega), lineBreaker,
    if_pos (by omega), lineBreaker]
  by_cases h : u + 4 < 64
  · rw [if_pos (by omega), if_pos h]
  · rw [if_neg (by omega), if_neg h]

theorem lineBreaker_four_end (e1 e2 e3 e4 : Nat) {u : Nat} (hu : u % 4 = 0) (hu64 : u < 64) :
    lineBreaker [e1, e2, e3, e4] u = [e1, e2, e3, e4, 10] := by
  rw [lineBreaker_four _ _ _ _ _ hu hu64]
  by_cases h : u + 4 < 64
  · simp [h, lineBreaker]
  · simp [h, lineBreaker]

/-- Decoding the lines that `pem.Encode` writes for `bytes` gives `bytes`
back: the line breaks fall between the quanta of four characters. -/
theorem decode_lineBreaker_encode :
    ∀ (bytes : ByteSeq) (u : Nat), (∀ x ∈ bytes, x < 256) → u % 4 = 0 → u < 64 →
      decodeFrom (lineBreaker (stdEncode bytes) u) [] = some bytes
  | [], u, _, _, _ => by
    unfold stdEncode lineBreaker
    split <;> simp [decodeFrom, decodeMap]
  | [a], u, h, hu, hu64 => by
    have ha : a < 256 := h a (by simp)
    simp only [stdEncode, Nat.mod_eq_of_lt ha]
    rw [lineBreaker_four_end _ _ _ _ hu hu64,
      decodeFrom_char (by omega) _ _ (by simp), decodeFrom_char (by omega) _ _ (by simp)]
    simp [decodeFrom, decodeMap, padChar, skipNewlines, quantumBytes_two ha]
  | [a, b], u, h, hu, hu64 => by
    have ha : a < 256 := h a (by simp)
    have hb : b < 256 := h b (by simp)
    simp only [stdEncode, Nat.mod_eq_of_lt ha, Nat.mod_eq_of_lt hb]
    rw [lineBreaker_four_end _ _ _ _ hu hu64,
      decodeFrom_char (by omega) _ _ (by simp), decodeFrom_char (by omega) _ _ (by simp),
      decodeFrom_char (by omega) _ _ (by simp)]
    simp [decodeFrom, decodeMap, padChar, skipNewlines, quantumBytes_three ha hb]
  | a :: b :: c :: rest, u, h, hu, hu64 => by
    have ha : a < 256 := h a (by simp)
    have hb : b < 256 := h b (by simp)
    have hc : c < 256 := h c (by simp)
    have hrest : ∀ x ∈ rest, x < 256 := fun x hx => h x (by simp [hx])
    simp only [stdEncode, Nat.mod_eq_of_lt ha, Nat.mod_eq_of_lt hb, Nat.mod_eq_of_lt hc]
    rw [lineBreaker_four _ _ _ _ _ hu hu64,
      decodeFrom_char (by omega) _ _ (by simp), decodeFrom_char (by omega) _ _ (by simp),
      decodeFrom_char (by omega) _ _ (by simp), decodeFrom_char_last (by omega) _ _ (by simp)]
    have hq : quantumBytes ([] ++ [a / 4] ++ [a % 4 * 16 + b / 16] ++ [b % 16 * 4 + c / 64]
        ++ [c % 64]) = [a, b, c] := quantumBytes_four ha hb hc
    rw [hq]
    by_cases h4 : u + 4 < 64
    · rw [if_pos h4, decode_lineBreaker_encode rest (u + 4) hrest (by omega) h4]
      rfl
    · rw [if_neg h4, decodeFrom_newline,
        decode_lineBreaker_encode rest 0 hrest (by decide) (by decide)]
      rfl

theorem mem_stdEncode {x : Nat} :
    ∀ {bytes : ByteSeq}, x ∈ stdEncode bytes → x = 61 ∨ ∃ v, v < 64 ∧ x = encodeStd v
  | [], h => by simp [stdEncode] at h
  | [a], h => by
    simp only [stdEncode, padChar, List.mem_cons, List.mem_singleton, List.not_mem_nil,
      or_false] at h
    rcases h with h | h | h | h
    · exact Or.inr ⟨_, by omega, h⟩
    · exact Or.inr ⟨_, by omega, h⟩
    · exact Or.inl h
    · exact Or.inl h
  | [a, b], h => by
    simp only [stdEncode, padChar, List.mem_cons, List.mem_singleton, List.not_mem_nil,
      or_false] at h
    rcases h with h | h | h | h
    · exact Or.inr ⟨_, by omega, h⟩
    · exact Or.inr ⟨_, by omega, h⟩
    · exact Or.inr ⟨_, by omega, h⟩
    · exact Or.inl h
  | a :: b :: c :: rest, h => by
    simp only [stdEncode, List.mem_cons] at h
    rcases h with h | h | h | h | h
    · exact Or.inr ⟨_, by omega, h⟩
    · exact Or.inr ⟨_, by omega, h⟩
    · exact Or.inr ⟨_, by omega, h⟩
    · exact Or.inr ⟨_, by omega, h⟩
    · exact mem_stdEncode h

theorem mem_lineBreaker {x : Nat} {s : ByteSeq} {u : Nat} (h : x ∈ lineBreaker s u) :
    x ∈ s ∨ x = 10 := by
  induction s generalizing u with
  | nil =>
    unfold lineBreaker at h
    split at h
    · right
      simpa using h
    · simp at h
  | cons c s ih =>
    unfold lineBreaker at h
    split at h
    · rcases List.mem_cons.1 h with h | h
      · left; simp [h]
      · rcases ih h with h | h
        · left; simp [h]
        · right; exact h
    · rcases List.mem_cons.1 h with h | h
      · left; simp [h]
      · rcases List.mem_cons.1 h with h | h
        · right; exact h
        · rcases ih h with h | h
          · left; simp [h]
          · right; exact h

theorem getLast_cons {l : ByteSeq} {x c : Nat} (h : l.getLast? = some x) :
    (c :: l).getLast? = some x := by
  cases l with
  | nil => simp at h
  | cons d l =>
    rw [List.getLast?_cons_cons]
    exact h

theorem lineBreaker_getLast (s : ByteSeq) (u : Nat) :
    lineBreaker s u = [] ∨ (lineBreaker s u).getLast? = some 10 := by
  induction s generalizing u with
  | nil =>
    unfold lineBreaker
    split
    · right; rfl
    · left; rfl
  | cons c s ih =>
    right
    unfold lineBreaker
    split
    · rcases ih (u + 1) with h | h
      · exfalso
        unfold lineBreaker at h
        cases s with
        | nil => simp at h
        | cons d s =>
          simp only at h
          split at h <;> cases h
      · exact getLast_cons h
    · rcases ih 0 with h | h
      · rw [h]
        rfl
      · exact getLast_cons (getLast_cons h)

/-- The body that `pem.Encode` writes for the bytes of a block. -/
theorem encoded_body (bytes : ByteSeq) (h : ∀ x ∈ bytes, x < 256) :
    (lineBreaker (stdEncode bytes) 0 = [] ∨
      (lineBreaker (stdEncode bytes) 0).getLast? = some 10) ∧
    stdDecode (removeSpacesAndTabs (lineBreaker (stdEncode bytes) 0)) = some bytes ∧
    (bytes = [] → lineBreaker (stdEncode bytes) 0 = []) ∧
    (bytes ≠ [] → lineBreaker (stdEncode bytes) 0 ≠ []) := by
  refine ⟨lineBreaker_getLast _ _, ?_, ?_, ?_⟩
  · have hf : removeSpacesAndTabs (lineBreaker (stdEncode bytes) 0)
        = lineBreaker (stdEncode bytes) 0 := by
      unfold removeSpacesAndTabs
      rw [List.filter_eq_self]
      intro x hx
      rcases mem_lineBreaker hx with hx | rfl
      · rcases mem_stdEncode hx with rfl | ⟨v, hv, rfl⟩
        · decide
        · have := encodeStd_ne hv
          simp [this.1, this.2.1]
      · decide
    rw [hf]
    exact decode_lineBreaker_encode bytes 0 h (by decide) (by decide)
  · rintro rfl
    rfl
  · intro hne hnil
    cases bytes with
    | nil => exact hne rfl
    | cons a t =>
      cases t with
      | nil => simp [stdEncode, lineBreaker] at hnil
      | cons b t =>
        cases t with
        | nil => simp [stdEncode, lineBreaker] at hnil
        | cons c t => simp [stdEncode, lineBreaker] at hnil

/-! ## `Decode` on what `Encode` wrote -/

theorem mem_trimRight_of_ne {s : ByteSeq} {x : Nat} (h : x ∈ s) (h32 : x ≠ 32) (h9 : x ≠ 9) :
    x ∈ trimRight s := by
  induction s using List.reverseRecOn with
  | nil => simp at h
  | append_singleton l a ih =>
    unfold trimRight at ih ⊢
    rw [List.rdropWhile_concat]
    split
    · rename_i hp
      rcases List.mem_append.1 h with h | h
      · exact ih h
      · exfalso
        simp only [List.mem_singleton] at h
        subst h
        simp [h32, h9] at hp
    · exact h

/-- A colon in a line is still there in the line that `getLine` returns. -/
theorem getLine_fst_colon {l r : ByteSeq} (hl : 10 ∉ l) (hc : 58 ∈ l) :
    58 ∈ (getLine (l ++ 10 :: r)).1 := by
  unfold getLine
  rw [indexByte_append hl]
  simp only
  apply mem_trimRight_of_ne _ (by decide) (by decide)
  split
  · rename_i h13
    obtain ⟨hpos, hget⟩ := h13
    rcases List.eq_nil_or_concat l with rfl | ⟨t, d, rfl⟩
    · simp at hpos
    · simp only [List.concat_eq_append] at hl hc hpos hget ⊢
      have hd : d = 13 := by
        have e1 : (t ++ [d]).length - 1 = t.length := by simp
        rw [e1, List.get?_eq_getElem?, List.append_assoc,
          List.getElem?_append_right (Nat.le_refl _)] at hget
        simpa using hget
      have e2 : (t ++ [d]).length - 1 = t.length := by simp
      rw [e2, List.append_assoc, List.take_left]
      rcases List.mem_append.1 hc with h | h
      · exact h
      · simp only [List.mem_singleton] at h
        omega
  · rw [List.take_left]
    exact hc

theorem writeHeader_eq (k v : ByteSeq) (r : ByteSeq) :
    writeHeader k v ++ r = (k ++ [58, 32] ++ v) ++ 10 :: r := by
  simp [writeHeader]

/-- The header loop reads the header lines that `Encode` wrote and stops at
the line after them, with a header read for each line. -/
theorem headerLoop_lines (lines : List (ByteSeq × ByteSeq))
    (hl : ∀ kv ∈ lines, 10 ∉ kv.1 ∧ 10 ∉ kv.2) (r : ByteSeq) (hr : r ≠ [])
    (hrl : ∀ x ∈ (getLine r).1, x ≠ 58) (fuel : Nat) (hf : lines.length < fuel)
    (hs : List (ByteSeq × ByteSeq)) :
    ∃ hs2, headerLoop fuel ((lines.map (fun kv => writeHeader kv.1 kv.2)).flatten ++ r) hs
        = .body r hs2 ∧ (lines ≠ [] → hs2 ≠ []) ∧ (lines = [] → hs2 = hs) := by
  induction lines generalizing fuel hs with
  | nil =>
    cases fuel with
    | zero => simp at hf
    | succ fuel =>
      refine ⟨hs, ?_, fun h => absurd rfl h, fun _ => rfl⟩
      simp only [List.map_nil, List.flatten_nil, List.nil_append]
      exact headerLoop_stop hr hrl fuel hs
  | cons kv lines ih =>
    cases fuel with
    | zero => simp at hf
    | succ fuel =>
      obtain ⟨hk, hv⟩ := hl kv (List.mem_cons_self _ _)
      have hline : 10 ∉ kv.1 ++ [58, 32] ++ kv.2 := by
        simp only [List.mem_append, List.mem_cons, List.mem_singleton, List.not_mem_nil,
          or_false, not_or]
        exact ⟨⟨hk, by decide, by decide⟩, hv⟩
      have hcolon : 58 ∈ kv.1 ++ [58, 32] ++ kv.2 := by simp
      have htext : ((kv :: lines).map (fun kv => writeHeader kv.1 kv.2)).flatten ++ r
          = (kv.1 ++ [58, 32] ++ kv.2) ++
            10 :: ((lines.map (fun kv => writeHeader kv.1 kv.2)).flatten ++ r) := by
        rw [List.map_cons, List.flatten_cons, List.append_assoc, writeHeader_eq]
      obtain ⟨tl, htl⟩ : ∃ tl, tl = (lines.map (fun kv => writeHeader kv.1 kv.2)).flatten ++ r :=
        ⟨_, rfl⟩
      rw [htext, ← htl]
      unfold headerLoop
      have hne : ¬ ((kv.1 ++ [58, 32] ++ kv.2) ++ 10 :: tl).length = 0 := by simp
      rw [if_neg hne]
      have hin : 58 ∈ (getLine ((kv.1 ++ [58, 32] ++ kv.2) ++ 10 :: tl)).1 :=
        getLine_fst_colon hline hcolon
      cases hi : indexByte (getLine ((kv.1 ++ [58, 32] ++ kv.2) ++ 10 :: tl)).1 58 with
      | none => exact absurd hin (indexByte_none.1 hi)
      | some i =>
        simp only
        rw [getLine_snd_append hline, htl]
        obtain ⟨hs2, h1, h2, h3⟩ := ih (fun x hx => hl x (List.mem_cons_of_mem _ hx)) fuel
          (by simp at hf; omega)
          (setHeader hs
            (trimSpace (List.take i (getLine ((kv.1 ++ [58, 32] ++ kv.2) ++ 10 :: tl)).1))
            (trimSpace (List.drop (i + 1)
              (getLine ((kv.1 ++ [58, 32] ++ kv.2) ++ 10 :: tl)).1)))
        rw [htl] at h1 h3
        refine ⟨hs2, h1, fun _ => ?_, fun h => by cases h⟩
        by_cases hn : lines = []
        · rw [h3 hn]
          exact setHeader_ne_nil _ _ _
        · exact h2 hn

/-- Where `Decode` finds the END line behind a body of whole lines, whatever
the headers. -/
theorem findEnd_lines (label : ByteSeq) {body : ByteSeq} (hs : List (ByteSeq × ByteSeq))
    (tl : ByteSeq) (h10 : 10 ∉ label) (hb : body.getLast? = some 10) (h45 : 45 ∉ body) :
    ∃ e t, findEnd (body ++ endLine label ++ tl) hs = some (e, t) ∧
      (body ++ endLine label ++ tl).drop t = label ++ pemEndOfLine ++ 10 :: tl ∧
      stdDecode (removeSpacesAndTabs ((body ++ endLine label ++ tl).take e))
        = stdDecode (removeSpacesAndTabs body) ∧
      (getLine ((body ++ endLine label ++ tl).drop (e + pemEnd.length - 1))).2 = tl := by
  have hl32 : 10 ∉ 32 :: (label ++ pemEndOfLine) := by
    simp only [List.mem_cons, List.mem_append, not_or]
    exact ⟨by decide, h10, by decide⟩
  obtain ⟨b, rfl⟩ := getLast_append hb
  have hb45 : 45 ∉ b := fun hm => h45 (List.mem_append_left _ hm)
  have hdata : b ++ [10] ++ endLine label ++ tl
      = b ++ 10 :: pemEnd.drop 1 ++ (label ++ pemEndOfLine ++ 10 :: tl) := by
    simp [endLine]
  have hidx : index (b ++ [10] ++ endLine label ++ tl) pemEnd = some b.length := by
    rw [hdata]
    have hp : pemEnd = 10 :: pemEnd.drop 1 := by decide
    rw [hp]
    apply index_marker
    · decide
    · apply not_infix_of_not_mem (c := 45)
      · decide
      · exact h45
  have hnp : hasPrefix (b ++ [10] ++ endLine label ++ tl) (pemEnd.drop 1) = false := by
    rw [Bool.eq_false_iff]
    intro hp
    obtain ⟨u, hu⟩ := (hasPrefix_iff _ _).1 hp
    cases b with
    | nil => simp [pemEnd] at hu
    | cons x b =>
      simp only [pemEnd, List.drop_succ_cons, List.drop_zero, List.cons_append,
        List.cons.injEq] at hu
      exact hb45 (by simp [← hu.1])
  refine ⟨b.length, b.length + pemEnd.length, ?_, ?_, ?_, ?_⟩
  · unfold findEnd
    have hc : ¬ (hs.length = 0 ∧
        hasPrefix (b ++ [10] ++ endLine label ++ tl) (pemEnd.drop 1) = true) := by
      intro h
      rw [hnp] at h
      exact Bool.false_ne_true h.2
    rw [if_neg hc, hidx]
    rfl
  · rw [hdata]
    have e2 : b ++ 10 :: pemEnd.drop 1 ++ (label ++ pemEndOfLine ++ 10 :: tl)
        = (b ++ pemEnd) ++ (label ++ pemEndOfLine ++ 10 :: tl) := by
      simp [pemEnd]
    rw [e2, List.drop_left' (by simp)]
  · rw [hdata, List.append_assoc, List.take_left' rfl]
    exact (stdDecode_body_init b).symm
  · rw [hdata]
    have e2 : b ++ 10 :: pemEnd.drop 1 ++ (label ++ pemEndOfLine ++ 10 :: tl)
        = (b ++ [10, 45, 45, 45, 45, 45, 69, 78, 68]) ++
          ((32 :: (label ++ pemEndOfLine)) ++ 10 :: tl) := by
      simp [pemEnd]
    rw [e2, List.drop_left' (by simp [pemEnd])]
    exact getLine_snd_append hl32

theorem mem_sortStrings {x : ByteSeq} {l : List ByteSeq} : x ∈ sortStrings l ↔ x ∈ l := by
  induction l with
  | nil => simp [sortStrings]
  | cons k ks ih =>
    unfold sortStrings
    rw [List.mem_orderedInsert, ih, List.mem_cons]

theorem getHeader_newline {hs : List (ByteSeq × ByteSeq)} (h : HeadersOk hs) (k : ByteSeq) :
    10 ∉ getHeader hs k := by
  unfold getHeader
  cases hf : hs.find? (fun kv => kv.1 = k) with
  | none => simp
  | some kv =>
    simp only [Option.map_some', Option.getD_some]
    exact (h kv (List.mem_of_find?_eq_some hf)).2.2

theorem headerLines_ok {b : Block} (h : HeadersOk b.Headers) :
    (∀ kv ∈ headerLines b, 10 ∉ kv.1 ∧ 10 ∉ kv.2) ∧ (b.Headers ≠ [] → headerLines b ≠ []) := by
  constructor
  · intro kv hkv
    unfold headerLines at hkv
    rcases List.mem_append.1 hkv with hkv | hkv
    · split at hkv
      · simp only [List.mem_singleton] at hkv
        subst hkv
        have hp10 : 10 ∉ procType := by decide
        exact ⟨hp10, getHeader_newline h _⟩
      · simp at hkv
    · obtain ⟨k, hk, rfl⟩ := List.mem_map.1 hkv
      rw [mem_sortStrings] at hk
      have hk2 := (List.mem_filter.1 hk).1
      obtain ⟨kv0, hkv0, rfl⟩ := List.mem_map.1 hk2
      exact ⟨(h kv0 hkv0).2.1, getHeader_newline h _⟩
  · intro hne
    unfold headerLines
    cases hH : b.Headers with
    | nil => exact absurd hH hne
    | cons kv0 t =>
      by_cases hp : kv0.1 = procType
      · have : (kv0 :: t).any (fun kv => decide (kv.1 = procType)) = true := by
          simp [hp]
        rw [this]
        simp
      · intro hnil
        have h2 := (List.append_eq_nil.1 hnil).2
        have hm : kv0.1 ∈ sortStrings (((kv0 :: t).map Prod.fst).filter (fun k => k ≠ procType)) := by
          rw [mem_sortStrings]
          exact List.mem_filter.2 ⟨by simp, by simpa using hp⟩
        rw [List.map_eq_nil_iff] at h2
        rw [h2] at hm
        cases hm

/-- The text that `Encode` writes for a block with headers in order. -/
theorem Encode_eq {b : Block} (h : HeadersOk b.Headers) :
    Encode b = some (pemStart.drop 1 ++ (b.Typ ++ pemEndOfLine ++ 10 ::
      ((if b.Headers = [] then []
        else ((headerLines b).map (fun kv => writeHeader kv.1 kv.2)).flatten ++ [10]) ++
        (lineBreaker (stdEncode b.Bytes) 0 ++ endLine b.Typ)))) := by
  have hany : b.Headers.any (fun kv => kv.1.contains 58) = false := by
    rw [Bool.eq_false_iff]
    intro ha
    obtain ⟨kv, hkv, hc⟩ := List.any_eq_true.1 ha
    have : 58 ∈ kv.1 := by simpa using hc
    exact (h kv hkv).1 this
  unfold Encode
  simp only [hany, Bool.false_eq_true, if_false, Option.some.injEq]
  by_cases hH : b.Headers = []
  · simp [hH, endLine, pemEndOfLine]
  · have hlen : b.Headers.length > 0 := List.length_pos.2 hH
    simp only [hlen, if_true, hH, if_false]
    unfold headerLines
    by_cases hp : b.Headers.any (fun kv => kv.1 = procType) = true
    · simp [hp, endLine, pemEndOfLine, List.map_map, Function.comp_def]
    · simp [hp, endLine, pemEndOfLine, List.map_map, Function.comp_def]

theorem flatten_writeHeader_length (lines : List (ByteSeq × ByteSeq)) :
    lines.length ≤ ((lines.map (fun kv => writeHeader kv.1 kv.2)).flatten).length := by
  induction lines with
  | nil => simp
  | cons kv lines ih =>
    simp only [List.map_cons, List.flatten_cons, List.length_append, List.length_cons]
    have : 0 < (writeHeader kv.1 kv.2).length := by simp [writeHeader]
    omega

/-- Round trip of a block whose type has no newline, whose headers are in
order and whose bytes are bytes, unless its END line reads as a header:
`Decode` reads the text that `Encode` wrote back into a block of the same
type and bytes, and nothing of the text is left over. -/
theorem Decode_Encode {b : Block} (hT : 10 ∉ b.Typ) (hH : HeadersOk b.Headers)
    (hB : ∀ x ∈ b.Bytes, x < 256) (hex : ¬ endLineReadsAsHeader b) :
    ∃ text q, Encode b = some text ∧ Decode text = (some q, []) ∧
      q.Typ = b.Typ ∧ q.Bytes = b.Bytes := by
  obtain ⟨hlast, hdec, hnil, hnn⟩ := encoded_body b.Bytes hB
  obtain ⟨hb45, hb58⟩ := body_chars hdec
  suffices h : ∃ q, Decode (pemStart.drop 1 ++ (b.Typ ++ pemEndOfLine ++ 10 ::
      ((if b.Headers = [] then []
        else ((headerLines b).map (fun kv => writeHeader kv.1 kv.2)).flatten ++ [10]) ++
        (lineBreaker (stdEncode b.Bytes) 0 ++ endLine b.Typ)))) = (some q, []) ∧
      q.Typ = b.Typ ∧ q.Bytes = b.Bytes by
    obtain ⟨q, hq⟩ := h
    exact ⟨_, q, Encode_eq hH, hq⟩
  by_cases hHe : b.Headers = []
  · -- no header: the text is a well-formed block
    have hwf : WellFormedBlock b.Typ (lineBreaker (stdEncode b.Bytes) 0) := by
      refine ⟨hT, fun hbody h58 => ?_, hlast, by rw [hdec]; rfl⟩
      apply hex
      refine ⟨hHe, ?_, h58⟩
      by_contra hne
      exact hnn hne hbody
    have hd := Decode_blockText hwf []
    have htext : pemStart.drop 1 ++ (b.Typ ++ pemEndOfLine ++ 10 ::
        ((if b.Headers = [] then []
          else ((headerLines b).map (fun kv => writeHeader kv.1 kv.2)).flatten ++ [10]) ++
          (lineBreaker (stdEncode b.Bytes) 0 ++ endLine b.Typ)))
        = blockText b.Typ (lineBreaker (stdEncode b.Bytes) 0) ++ [] := by
      simp [hHe, blockText, beginLine]
    rw [htext]
    exact ⟨_, hd, rfl, by simp [blockOf, payload, hdec]⟩
  · -- headers: the header loop reads them and stops at the empty line
    obtain ⟨hlines, hlne⟩ := headerLines_ok hH
    have hR : (10 :: (lineBreaker (stdEncode b.Bytes) 0 ++ endLine b.Typ)) ≠ [] := by simp
    have hRl : ∀ x ∈ (getLine (10 :: (lineBreaker (stdEncode b.Bytes) 0 ++ endLine b.Typ))).1,
        x ≠ 58 := by
      rw [getLine_nil_cons]
      simp
    have hrest : (if b.Headers = [] then []
          else ((headerLines b).map (fun kv => writeHeader kv.1 kv.2)).flatten ++ [10]) ++
          (lineBreaker (stdEncode b.Bytes) 0 ++ endLine b.Typ)
        = ((headerLines b).map (fun kv => writeHeader kv.1 kv.2)).flatten ++
          10 :: (lineBreaker (stdEncode b.Bytes) 0 ++ endLine b.Typ) := by
      simp [hHe]
    rw [hrest, Decode_eq, findStart_begin]
    simp only [getLine_typeLine _ _ hT, hasSuffix_append, Bool.not_true, Bool.false_eq_true,
      if_false, take_typeLine]
    obtain ⟨hs2, hhl, hne2, _⟩ := headerLoop_lines (headerLines b) hlines _ hR hRl
      ((((headerLines b).map (fun kv => writeHeader kv.1 kv.2)).flatten ++
          10 :: (lineBreaker (stdEncode b.Bytes) 0 ++ endLine b.Typ)).length + 1)
      (by
        have := flatten_writeHeader_length (headerLines b)
        simp only [List.length_append]
        omega) []
    rw [hhl]
    simp only
    have hlast2 : (10 :: lineBreaker (stdEncode b.Bytes) 0).getLast? = some 10 := by
      rcases hlast with h | h
      · rw [h]
        rfl
      · exact getLast_cons h
    have h45 : 45 ∉ 10 :: lineBreaker (stdEncode b.Bytes) 0 := by
      simp only [List.mem_cons, not_or]
      exact ⟨by decide, hb45⟩
    obtain ⟨e, t, hfe, htr, hd, hrst⟩ := findEnd_lines b.Typ hs2 [] hT hlast2 h45
    have hform : 10 :: (lineBreaker (stdEncode b.Bytes) 0 ++ endLine b.Typ)
        = (10 :: lineBreaker (stdEncode b.Bytes) 0) ++ endLine b.Typ ++ [] := by simp
    rw [hform]
    have hdec2 : stdDecode (removeSpacesAndTabs (10 :: lineBreaker (stdEncode b.Bytes) 0))
        = some b.Bytes := by
      have e1 : removeSpacesAndTabs (10 :: lineBreaker (stdEncode b.Bytes) 0)
          = 10 :: removeSpacesAndTabs (lineBreaker (stdEncode b.Bytes) 0) := by
        simp [removeSpacesAndTabs]
      rw [e1]
      unfold stdDecode
      rw [decodeFrom_newline]
      exact hdec
    rw [decodeBody_eq hfe htr (hd.trans hdec2), hrst]
    exact ⟨_, rfl, rfl, rfl⟩

/-! ## `Decode` steps over a malformed block -/

theorem getLine_crlf {l r : ByteSeq} {c : Nat} (hl : 10 ∉ l) (hc10 : c ≠ 10)
    (hc32 : c ≠ 32) (hc9 : c ≠ 9) :
    getLine (l ++ [c] ++ 13 :: 10 :: r) = (l ++ [c], r) := by
  have hn : 10 ∉ l ++ [c] ++ [13] := by
    simp only [List.mem_append, List.mem_singleton, not_or]
    exact ⟨⟨hl, fun e => hc10 e.symm⟩, by decide⟩
  have e : l ++ [c] ++ 13 :: 10 :: r = (l ++ [c] ++ [13]) ++ 10 :: r := by simp
  rw [e]
  unfold getLine
  rw [indexByte_append hn]
  have hget : ((l ++ [c] ++ [13]) ++ 10 :: r).get? ((l ++ [c] ++ [13]).length - 1) = some 13 := by
    have h1 : (l ++ [c] ++ [13]).length - 1 = (l ++ [c]).length := by simp
    rw [h1, List.get?_eq_getElem?, List.append_assoc, List.append_assoc,
      ← List.append_assoc l, List.getElem?_append_right (Nat.le_refl _)]
    simp
  have hpos : (l ++ [c] ++ [13]).length > 0 := by simp
  simp only [hget, hpos, and_self, if_true]
  have h1 : (l ++ [c] ++ [13]).length - 1 = (l ++ [c]).length := by simp
  rw [h1, List.append_assoc (l ++ [c]), List.take_left, trimRight_eq_self hc32 hc9]
  have h2 : l ++ [c] ++ ([13] ++ 10 :: r) = (l ++ [c] ++ [13] ++ [10]) ++ r := by simp
  rw [h2, List.drop_left' (by simp)]

/-- The line `getLine` returns when the first line ends in a byte that is
neither a carriage return nor a space or tab, whatever its line end. -/
theorem getLine_eol {l r e : ByteSeq} {c : Nat} (he : lineEnd e) (hl : 10 ∉ l)
    (hc10 : c ≠ 10) (hc13 : c ≠ 13) (hc32 : c ≠ 32) (hc9 : c ≠ 9) :
    getLine (l ++ [c] ++ e ++ r) = (l ++ [c], r) := by
  rcases he with rfl | rfl
  · have := @getLine_append_concat l r c hl hc10 hc13 hc32 hc9
    simpa using this
  · have := @getLine_crlf l r c hl hc10 hc32 hc9
    simpa using this

theorem getLine_typeLine_eol (label r : ByteSeq) {e : ByteSeq} (he : lineEnd e)
    (h : 10 ∉ label) :
    getLine (label ++ pemEndOfLine ++ e ++ r) = (label ++ pemEndOfLine, r) := by
  have e1 : label ++ pemEndOfLine = (label ++ [45, 45, 45, 45]) ++ [45] := by
    simp [pemEndOfLine]
  rw [e1]
  apply getLine_eol he
  · simp only [List.mem_append, not_or]
    exact ⟨h, by decide⟩
  all_goals decide

/-- Nothing stands on the line between the END line and its line end, or
the end of the input. -/
theorem getLine_fst_eol_nil {e tl : ByteSeq} (h : lineEnd e ∨ (e = [] ∧ tl = [])) :
    (getLine (e ++ tl)).1 = [] := by
  rcases h with (rfl | rfl) | ⟨rfl, rfl⟩
  · simp [getLine, indexByte, trimRight]
  · simp [getLine, indexByte, trimRight]
  · simp [getLine, indexByte, trimRight]

/-- What follows a line, whatever its line end. -/
theorem getLine_snd_eol {l e tl : ByteSeq} (hl : 10 ∉ l)
    (h : lineEnd e ∨ (e = [] ∧ tl = [])) : (getLine (l ++ e ++ tl)).2 = tl := by
  rcases h with (rfl | rfl) | ⟨rfl, rfl⟩
  · have := @getLine_snd_append l tl hl
    simpa using this
  · have hl2 : 10 ∉ l ++ [13] := by
      simp only [List.mem_append, List.mem_singleton, not_or]
      exact ⟨hl, by decide⟩
    have := @getLine_snd_append (l ++ [13]) tl hl2
    simpa using this
  · simp only [List.append_nil]
    unfold getLine
    rw [indexByte_none.2 hl]

/-- The bytes of a line, whatever its line end. -/
theorem getLine_fst_eol_mem {l e tl : ByteSeq} (hl : 10 ∉ l)
    (h : lineEnd e ∨ (e = [] ∧ tl = [])) :
    ∀ x ∈ (getLine (l ++ e ++ tl)).1, x ∈ l ∨ x = 13 := by
  intro x hx
  rcases h with (rfl | rfl) | ⟨rfl, rfl⟩
  · left
    have e1 : l ++ [10] ++ tl = l ++ 10 :: tl := by simp
    rw [e1] at hx
    exact (getLine_fst_le hl).subset hx
  · have hl2 : 10 ∉ l ++ [13] := by
      simp only [List.mem_append, List.mem_singleton, not_or]
      exact ⟨hl, by decide⟩
    have e1 : l ++ [13, 10] ++ tl = (l ++ [13]) ++ 10 :: tl := by simp
    rw [e1] at hx
    have := (getLine_fst_le hl2).subset hx
    simpa using this
  · left
    simp only [List.append_nil] at hx
    exact (getLine_fst_mem hx).1

/-- Behind whole lines that do not hold the marker `-----BEGIN `, `findStart`
finds the BEGIN line that follows them. -/
theorem findStart_lead {lead : ByteSeq} (x : ByteSeq)
    (hl : lead = [] ∨ lead.getLast? = some 10) (hno : ¬ pemStart.drop 1 <:+: lead) :
    findStart (lead ++ (pemStart.drop 1 ++ x)) = some x := by
  rcases hl with rfl | hl
  · exact findStart_begin x
  · obtain ⟨b, rfl⟩ := getLast_append hl
    unfold findStart
    have hp : hasPrefix (b ++ [10] ++ (pemStart.drop 1 ++ x)) (pemStart.drop 1) = false := by
      rw [Bool.eq_false_iff]
      intro hp
      have p1 : pemStart.drop 1 <+: b ++ [10] ++ (pemStart.drop 1 ++ x) :=
        (hasPrefix_iff _ _).1 hp
      have p2 : b ++ [10] <+: b ++ [10] ++ (pemStart.drop 1 ++ x) := List.prefix_append _ _
      rcases List.prefix_or_prefix_of_prefix p1 p2 with h1 | h2
      · exact hno h1.isInfix
      · have : 10 ∈ pemStart.drop 1 := h2.subset (by simp)
        revert this
        decide
    rw [hp]
    simp only [Bool.false_eq_true, if_false]
    have e : b ++ [10] ++ (pemStart.drop 1 ++ x) = b ++ 10 :: pemStart.drop 1 ++ x := by simp
    have hidx : index (b ++ [10] ++ (pemStart.drop 1 ++ x)) pemStart = some b.length := by
      rw [e]
      have hps : pemStart = 10 :: pemStart.drop 1 := by decide
      rw [hps]
      apply index_marker
      · decide
      · intro hi
        apply hno
        have h2 : pemStart.drop 1 <:+: 10 :: pemStart.drop 1 := ⟨[10], [], by simp⟩
        exact h2.trans hi
    rw [hidx]
    simp only [Option.some.injEq]
    have e2 : b ++ [10] ++ (pemStart.drop 1 ++ x) = (b ++ pemStart) ++ x := by
      simp [pemStart]
    rw [e2, List.drop_left' (by simp)]

/-- What `decodeBody` returns for an END line that is in order, whatever its
line end. -/
theorem decodeBody_eol {typeLine rest : ByteSeq} {hs : List (ByteSeq × ByteSeq)} {e t : Nat}
    {bytes eol tl : ByteSeq} (heol : lineEnd eol ∨ (eol = [] ∧ tl = []))
    (hfe : findEnd rest hs = some (e, t))
    (htr : rest.drop t = typeLine ++ pemEndOfLine ++ (eol ++ tl))
    (hdec : stdDecode (removeSpacesAndTabs (rest.take e)) = some bytes) :
    decodeBody typeLine rest hs =
      some ({ Typ := typeLine, Headers := hs, Bytes := bytes },
        (getLine (rest.drop (e + pemEnd.length - 1))).2) := by
  unfold decodeBody
  simp only [hfe, htr, hdec]
  have hlen : ¬ (typeLine ++ pemEndOfLine ++ (eol ++ tl)).length
      < typeLine.length + pemEndOfLine.length := by
    simp
  rw [if_neg hlen]
  have htake : (typeLine ++ pemEndOfLine ++ (eol ++ tl)).take
      (typeLine.length + pemEndOfLine.length) = typeLine ++ pemEndOfLine := by
    rw [List.take_left' (by simp)]
  have hdrop : (typeLine ++ pemEndOfLine ++ (eol ++ tl)).drop
      (typeLine.length + pemEndOfLine.length) = eol ++ tl := by
    rw [List.drop_left' (by simp)]
  rw [htake, hdrop, getLine_fst_eol_nil heol]
  have hp : hasPrefix (typeLine ++ pemEndOfLine) typeLine = true := hasPrefix_append _ _
  have hsf : hasSuffix (typeLine ++ pemEndOfLine) pemEndOfLine = true := hasSuffix_append _ _
  simp [hp, hsf]

/-- Where `Decode` finds the END line of a well-formed block, whatever the
line end of that line. -/
theorem findEnd_eol (label : ByteSeq) {body eol : ByteSeq} (hs : List (ByteSeq × ByteSeq))
    (tl : ByteSeq) (h10 : 10 ∉ label) (heol : lineEnd eol ∨ (eol = [] ∧ tl = []))
    (hb : (body = [] ∧ hs = []) ∨ body.getLast? = some 10) (h45 : 45 ∉ body) :
    ∃ e t, findEnd (body ++ (pemEnd.drop 1 ++ label ++ pemEndOfLine ++ eol) ++ tl) hs
        = some (e, t) ∧
      (body ++ (pemEnd.drop 1 ++ label ++ pemEndOfLine ++ eol) ++ tl).drop t
        = label ++ pemEndOfLine ++ (eol ++ tl) ∧
      stdDecode (removeSpacesAndTabs
          ((body ++ (pemEnd.drop 1 ++ label ++ pemEndOfLine ++ eol) ++ tl).take e))
        = stdDecode (removeSpacesAndTabs body) ∧
      (getLine ((body ++ (pemEnd.drop 1 ++ label ++ pemEndOfLine ++ eol) ++ tl).drop
          (e + pemEnd.length - 1))).2 = tl := by
  have hl32 : 10 ∉ 32 :: (label ++ pemEndOfLine) := by
    simp only [List.mem_cons, List.mem_append, not_or]
    exact ⟨by decide, h10, by decide⟩
  have hl : 10 ∉ label ++ pemEndOfLine := by
    simp only [List.mem_append, not_or]
    exact ⟨h10, by decide⟩
  rcases hb with ⟨rfl, rfl⟩ | hb
  · refine ⟨0, pemEnd.length - 1, ?_, ?_, ?_, ?_⟩
    · unfold findEnd
      have : hasPrefix ([] ++ (pemEnd.drop 1 ++ label ++ pemEndOfLine ++ eol) ++ tl)
          (pemEnd.drop 1) = true := by
        apply (hasPrefix_iff _ _).2
        exact ⟨label ++ pemEndOfLine ++ eol ++ tl, by simp⟩
      rw [if_pos ⟨rfl, this⟩]
    · simp [pemEnd]
    · simp
    · have e2 : [] ++ (pemEnd.drop 1 ++ label ++ pemEndOfLine ++ eol) ++ tl
          = [45, 45, 45, 45, 45, 69, 78, 68, 32] ++ ((label ++ pemEndOfLine) ++ eol ++ tl) := by
        simp [pemEnd]
      rw [e2, List.drop_left' (by simp [pemEnd])]
      exact getLine_snd_eol hl heol
  · obtain ⟨b, rfl⟩ := getLast_append hb
    have hb45 : 45 ∉ b := fun hm => h45 (List.mem_append_left _ hm)
    have hdata : b ++ [10] ++ (pemEnd.drop 1 ++ label ++ pemEndOfLine ++ eol) ++ tl
        = b ++ 10 :: pemEnd.drop 1 ++ (label ++ pemEndOfLine ++ (eol ++ tl)) := by
      simp
    have hidx : index (b ++ [10] ++ (pemEnd.drop 1 ++ label ++ pemEndOfLine ++ eol) ++ tl)
        pemEnd = some b.length := by
      rw [hdata]
      have hp : pemEnd = 10 :: pemEnd.drop 1 := by decide
      rw [hp]
      apply index_marker
      · decide
      · apply not_infix_of_not_mem (c := 45)
        · decide
        · exact h45
    have hnp : hasPrefix (b ++ [10] ++ (pemEnd.drop 1 ++ label ++ pemEndOfLine ++ eol) ++ tl)
        (pemEnd.drop 1) = false := by
      rw [Bool.eq_false_iff]
      intro hp
      obtain ⟨u, hu⟩ := (hasPrefix_iff _ _).1 hp
      cases b with
      | nil => simp [pemEnd] at hu
      | cons x b =>
        simp only [pemEnd, List.drop_succ_cons, List.drop_zero, List.cons_append,
          List.cons.injEq] at hu
        exact hb45 (by simp [← hu.1])
    refine ⟨b.length, b.length + pemEnd.length, ?_, ?_, ?_, ?_⟩
    · unfold findEnd
      have hc : ¬ (hs.length = 0 ∧
          hasPrefix (b ++ [10] ++ (pemEnd.drop 1 ++ label ++ pemEndOfLine ++ eol) ++ tl)
            (pemEnd.drop 1) = true) := by
        intro h
        rw [hnp] at h
        exact Bool.false_ne_true h.2
      rw [if_neg hc, hidx]
      rfl
    · rw [hdata]
      have e2 : b ++ 10 :: pemEnd.drop 1 ++ (label ++ pemEndOfLine ++ (eol ++ tl))
          = (b ++ pemEnd) ++ (label ++ pemEndOfLine ++ (eol ++ tl)) := by
        simp [pemEnd]
      rw [e2, List.drop_left' (by simp)]
    · rw [hdata, List.append_assoc, List.take_left' rfl]
      exact (stdDecode_body_init b).symm
    · rw [hdata]
      have e2 : b ++ 10 :: pemEnd.drop 1 ++ (label ++ pemEndOfLine ++ (eol ++ tl))
          = (b ++ [10, 45, 45, 45, 45, 45, 69, 78, 68]) ++
            ((32 :: (label ++ pemEndOfLine)) ++ eol ++ tl) := by
        simp [pemEnd]
      rw [e2, List.drop_left' (by simp [pemEnd])]
      exact getLine_snd_eol hl32 heol

theorem flatten_lines_length (lines : List ByteSeq) :
    lines.length ≤ ((lines.map (fun l => l ++ [10])).flatten).length := by
  induction lines with
  | nil => simp
  | cons l lines ih =>
    simp only [List.map_cons, List.flatten_cons, List.length_append, List.length_cons,
      List.length_nil]
    omega

/-- The header loop reads the header lines of a block of the input and stops
at the line after them, with a header read for each line. -/
theorem headerLoop_headerLines (lines : List ByteSeq)
    (hl : ∀ l ∈ lines, 58 ∈ l ∧ 10 ∉ l) (r : ByteSeq) (hr : r ≠ [])
    (hrl : ∀ x ∈ (getLine r).1, x ≠ 58) (fuel : Nat) (hf : lines.length < fuel)
    (hs : List (ByteSeq × ByteSeq)) :
    ∃ hs2, headerLoop fuel ((lines.map (fun l => l ++ [10])).flatten ++ r) hs
        = .body r hs2 ∧ (lines ≠ [] → hs2 ≠ []) ∧ (lines = [] → hs2 = hs) := by
  induction lines generalizing fuel hs with
  | nil =>
    cases fuel with
    | zero => simp at hf
    | succ fuel =>
      refine ⟨hs, ?_, fun h => absurd rfl h, fun _ => rfl⟩
      simp only [List.map_nil, List.flatten_nil, List.nil_append]
      exact headerLoop_stop hr hrl fuel hs
  | cons l lines ih =>
    cases fuel with
    | zero => simp at hf
    | succ fuel =>
      obtain ⟨hcolon, hline⟩ := hl l (List.mem_cons_self _ _)
      have htext : ((l :: lines).map (fun l => l ++ [10])).flatten ++ r
          = l ++ 10 :: ((lines.map (fun l => l ++ [10])).flatten ++ r) := by
        simp
      obtain ⟨tl, htl⟩ : ∃ tl, tl = (lines.map (fun l => l ++ [10])).flatten ++ r :=
        ⟨_, rfl⟩
      rw [htext, ← htl]
      unfold headerLoop
      have hne : ¬ (l ++ 10 :: tl).length = 0 := by simp
      rw [if_neg hne]
      have hin : 58 ∈ (getLine (l ++ 10 :: tl)).1 := getLine_fst_colon hline hcolon
      cases hi : indexByte (getLine (l ++ 10 :: tl)).1 58 with
      | none => exact absurd hin (indexByte_none.1 hi)
      | some i =>
        simp only
        rw [getLine_snd_append hline, htl]
        obtain ⟨hs2, h1, h2, h3⟩ := ih (fun x hx => hl x (List.mem_cons_of_mem _ hx)) fuel
          (by simp at hf; omega)
          (setHeader hs
            (trimSpace (List.take i (getLine (l ++ 10 :: tl)).1))
            (trimSpace (List.drop (i + 1) (getLine (l ++ 10 :: tl)).1)))
        rw [htl] at h1 h3
        refine ⟨hs2, h1, fun _ => ?_, fun h => by cases h⟩
        by_cases hn : lines = []
        · rw [h3 hn]
          exact setHeader_ne_nil _ _ _
        · exact h2 hn

/-- The result of `Decode` on a well-formed block of the input, whatever
follows it: a block of that label and payload, and as rest what follows the
END line. -/
theorem Decode_inputBlock {t : InputBlock} (h : t.WellFormed) (hex : ¬ t.endLineLost)
    (tl : ByteSeq) (heol : lineEnd t.endEol ∨ (t.endEol = [] ∧ tl = [])) :
    ∃ hs, Decode (t.text ++ tl)
        = (some { Typ := t.label, Headers := hs, Bytes := payload t.body }, tl) ∧
      (t.headers = [] → hs = []) := by
  obtain ⟨hlead, hno, h10, hbe, hhead, hlines, hdec⟩ := h
  obtain ⟨bytes, hbytes⟩ := Option.isSome_iff_exists.1 hdec
  obtain ⟨hb45, hb58⟩ := body_chars hbytes
  obtain ⟨R, hR⟩ : ∃ R, R = t.body ++ (pemEnd.drop 1 ++ t.label ++ pemEndOfLine ++ t.endEol)
      ++ tl := ⟨_, rfl⟩
  have hdata : t.text ++ tl
      = t.lead ++ (pemStart.drop 1 ++ (t.label ++ pemEndOfLine ++ t.beginEol ++
          ((t.headers.map (fun l => l ++ [10])).flatten ++ R))) := by
    rw [hR]
    simp [InputBlock.text]
  rw [Decode_eq, hdata, findStart_lead _ hlead hno]
  simp only [getLine_typeLine_eol _ _ hbe h10, hasSuffix_append, Bool.not_true,
    Bool.false_eq_true, if_false, take_typeLine]
  have hne : R ≠ [] := by
    rw [hR]
    simp [pemEnd]
  have hline : ∀ x ∈ (getLine R).1, x ≠ 58 := by
    intro x hx
    rw [hR] at hx
    rcases hlines with hnil | hl
    · have h58 : 58 ∉ t.label := fun hm => hex ⟨hnil, Or.inl hm⟩
      have e : t.body ++ (pemEnd.drop 1 ++ t.label ++ pemEndOfLine ++ t.endEol) ++ tl
          = (pemEnd.drop 1 ++ t.label ++ pemEndOfLine) ++ t.endEol ++ tl := by simp [hnil]
      rw [e] at hx
      have hl10 : 10 ∉ pemEnd.drop 1 ++ t.label ++ pemEndOfLine := by
        simp only [List.mem_append, not_or]
        exact ⟨⟨by decide, h10⟩, by decide⟩
      rintro rfl
      rcases getLine_fst_eol_mem hl10 heol 58 hx with hm | hm
      · simp only [List.mem_append] at hm
        rcases hm with (hm | hm) | hm
        · revert hm; decide
        · exact h58 hm
        · revert hm; decide
      · revert hm; decide
    · rw [List.append_assoc] at hx
      have := getLine_fst_of_body hl x hx
      rintro rfl
      exact hb58 this
  obtain ⟨hs2, hh1, hh2, hh3⟩ := headerLoop_headerLines t.headers hhead R hne hline
    (((t.headers.map (fun l => l ++ [10])).flatten ++ R).length + 1)
    (by
      have := flatten_lines_length t.headers
      rw [List.length_append]
      omega) []
  rw [hh1]
  have hb2 : (t.body = [] ∧ hs2 = []) ∨ t.body.getLast? = some 10 := by
    rcases hlines with hnil | hl
    · left
      refine ⟨hnil, hh3 ?_⟩
      by_contra hne2
      exact hex ⟨hnil, Or.inr hne2⟩
    · exact Or.inr hl
  obtain ⟨e, u, hfe, htr, hd, hrest⟩ := findEnd_eol t.label hs2 tl h10 heol hb2 hb45
  rw [← hR] at hfe htr hd hrest
  simp only
  rw [decodeBody_eol heol hfe htr (hd.trans hbytes), hrest]
  refine ⟨hs2, ?_, hh3⟩
  simp [payload, hbytes]

theorem inputOf_cons (t : InputBlock) (ts : List InputBlock) (trail : ByteSeq) :
    inputOf (t :: ts) trail = t.text ++ inputOf ts trail := by
  simp [inputOf]

/-- The first call of `Decode` on an input of well-formed blocks. -/
theorem Decode_inputOf {t : InputBlock} {ts : List InputBlock} {trail : ByteSeq}
    (hwf : WellFormedInput (t :: ts) trail) (hex : ¬ t.endLineLost) :
    ∃ b, Decode (inputOf (t :: ts) trail) = (some b, inputOf ts trail) ∧ t.yields b := by
  obtain ⟨h1, h2, _⟩ := hwf
  rw [inputOf_cons]
  have heol : lineEnd t.endEol ∨ (t.endEol = [] ∧ inputOf ts trail = []) := by
    rcases h2 with h2 | ⟨h2, rfl, rfl⟩
    · exact Or.inl h2
    · exact Or.inr ⟨h2, rfl⟩
  obtain ⟨hs, hd, hh⟩ := Decode_inputBlock h1 hex (inputOf ts trail) heol
  exact ⟨_, hd, rfl, rfl, hh⟩

/-- The scan of an input of well-formed blocks yields its blocks, in order. -/
theorem scanBlocks_inputOf (blocks : List InputBlock) (trail : ByteSeq)
    (hwf : WellFormedInput blocks trail) (hex : ∀ t ∈ blocks, ¬ t.endLineLost) :
    List.Forall₂ InputBlock.yields blocks
      (scanBlocks ((inputOf blocks trail).length + 1) (inputOf blocks trail)) := by
  induction blocks with
  | nil =>
    have hd : Decode (inputOf [] trail) = (none, inputOf [] trail) := by
      apply Decode_of_no_begin
      simpa [inputOf] using hwf
    unfold scanBlocks
    rw [hd]
    exact List.Forall₂.nil
  | cons t ts ih =>
    obtain ⟨b, hd, hy⟩ := Decode_inputOf hwf (hex t (List.mem_cons_self _ _))
    rw [scanBlocks_of_Decode hd]
    exact List.Forall₂.cons hy (ih hwf.2.2 (fun u hu => hex u (List.mem_cons_of_mem _ hu)))

/-- The bytes of a block whose body is the text that `pem.Encode` writes for
`bytes` are `bytes`. -/
theorem payload_encoded (bytes : ByteSeq) (h : ∀ x ∈ bytes, x < 256) :
    payload (lineBreaker (stdEncode bytes) 0) = bytes := by
  unfold payload
  rw [(encoded_body bytes h).2.1]
  rfl

/-! # The claims -/

/-- C1 fails as stated, in two ways.  The input of `exampleColon` is one
well-formed block: a BEGIN line and the END line of the same label, the empty
body between them being valid base64.  Its label holds a colon, `pem.Decode`
reads the END line as a header line and returns no block, and `main` exits
with code 1 without a call of `printPEM`.  And on an operating system whose
disk is full, `main` passes only the first of the two well-formed blocks of
`exampleBlocks` to `printPEM`: the failing `tmpfile.Write` ends the process
with code 1. -/
theorem C1_counterexample :
    WellFormedInput [exampleColon] [] ∧
    inputOf [exampleColon] [] = ascii "-----BEGIN a:b-----\n-----END a:b-----\n" ∧
    scanBlocks 100 (ascii "-----BEGIN a:b-----\n-----END a:b-----\n") = [] ∧
    main envOk (ascii "-----BEGIN a:b-----\n-----END a:b-----\n") = some (.exited 1
      { files := [], stdout := [], log := [noBlockMessage], printed := [], calls := [] }) ∧
    (∀ lb ∈ exampleBlocks, WellFormedBlock lb.1 lb.2) ∧
    main envDiskFull (bufferOf exampleBlocks) = some (.exited 1
      { files := [(ascii "/tmp/Certificate_PEM_Tempfile_001", [])],
        stdout := [ascii "-----BEGIN CERTIFICATE-----\nMIIB\n-----END CERTIFICATE-----\n\n"],
        log := [ascii ("error <no space left on device> at tmpfile.Write(); " ++
          "file = </tmp/Certificate_PEM_Tempfile_001>")],
        printed := [exampleCertificate],
        calls := [.tempFile (ascii "Certificate_PEM_Tempfile_"),
          .write (ascii "/tmp/Certificate_PEM_Tempfile_001")
            (ascii "-----BEGIN CERTIFICATE-----\nMIIB\n-----END CERTIFICATE-----\n")] }) := by
  refine ⟨by decide, by decide, by decide, by decide, by decide, by decide⟩

/-- C1, amended.  An input that consists of N >= 1 well-formed PEM blocks:
each a BEGIN line, header lines `Key: Value` if any, a body of whole lines
that is valid base64, and the END line of the same label; the line ends are
LF or CR LF, and the END line of the last block may end the input; before
each block there may be text, in whole lines, and after the last block any
text, that does not hold the marker `-----BEGIN `.  When no block has an
empty body together with a colon in its label or with headers, the scan
(`pem.Decode` on the buffer, then again and again on the rest it returned)
yields exactly N blocks, in input order, the i-th of them with the label and
the base64-decoded body of the i-th block of the input (and without headers
when that block has none).  On an operating system whose file operations do
not fail, `main` passes exactly these N blocks to `printPEM`, in that order,
and exits with code 0; on any operating system it passes the first k >= 1 of
them, in that order.  The decoded body of a block whose body is the text that
`pem.Encode` writes for some bytes is those bytes. -/
theorem C1_scan_yields_every_block (blocks : List InputBlock) (trail : ByteSeq)
    (hN : 1 ≤ blocks.length) (hwf : WellFormedInput blocks trail)
    (hex : ∀ t ∈ blocks, ¬ t.endLineLost) :
    (scanBlocks ((inputOf blocks trail).length + 1) (inputOf blocks trail)).length
      = blocks.length ∧
    List.Forall₂ InputBlock.yields blocks
      (scanBlocks ((inputOf blocks trail).length + 1) (inputOf blocks trail)) ∧
    (∀ env : Env, env.filesOk →
      ∃ w, main env (inputOf blocks trail) = some (.exited 0 w) ∧
        w.printed.length = blocks.length ∧ List.Forall₂ InputBlock.yields blocks w.printed) ∧
    (∀ env : Env, ∃ o k, 1 ≤ k ∧ main env (inputOf blocks trail) = some o ∧
      List.Forall₂ InputBlock.yields (blocks.take k) o.world.printed) ∧
    (∀ t ∈ blocks, ∀ bytes : ByteSeq, (∀ x ∈ bytes, x < 256) →
      t.body = lineBreaker (stdEncode bytes) 0 → payload t.body = bytes) := by
  have hscan := scanBlocks_inputOf blocks trail hwf hex
  cases blocks with
  | nil => simp at hN
  | cons t ts =>
    obtain ⟨b, hd, _⟩ := Decode_inputOf hwf (hex t (List.mem_cons_self _ _))
    refine ⟨hscan.length_eq.symm, hscan, fun env henv => ?_, fun env => ?_,
      fun u _ bytes hb hu => ?_⟩
    · obtain ⟨w, hw, hp⟩ := main_ok henv hd
      rw [← hp] at hscan
      exact ⟨w, hw, hscan.length_eq.symm, hscan⟩
    · obtain ⟨o, ho⟩ := main_total env (inputOf (t :: ts) trail)
      obtain ⟨k, hk⟩ := main_printed env ho
      refine ⟨o, k, ?_, ho, ?_⟩
      · rcases Nat.eq_zero_or_pos k with rfl | hpos
        · exact absurd (by simpa using hk) (main_printed_ne_nil env hd ho)
        · exact hpos
      · rw [hk]
        exact List.forall₂_take k hscan
    · rw [hu]
      exact payload_encoded bytes hb

/-- C1, amended, at `exampleInput`: a comment line, a certificate with CR LF
line ends, a CRL with a header line, an empty line, and an OCSP response
whose END line ends the input. -/
theorem C1_scan_yields_every_block_witness :
    inputOf exampleInput [] = ascii ("# bundle\n" ++
      "-----BEGIN CERTIFICATE-----\r\nMIIB\r\n-----END CERTIFICATE-----\r\n" ++
      "-----BEGIN X509 CRL-----\nComment: none\n\nMIIC\nAQ==\n-----END X509 CRL-----\n" ++
      "\n-----BEGIN OCSP RESPONSE-----\nMAMK\n-----END OCSP RESPONSE-----") ∧
    scanBlocks ((inputOf exampleInput []).length + 1) (inputOf exampleInput [])
      = [exampleCertificate,
         { Typ := ascii "X509 CRL", Headers := [(ascii "Comment", ascii "none")],
           Bytes := [48, 130, 2, 1] },
         exampleOCSP] ∧
    List.Forall₂ InputBlock.yields exampleInput
      (scanBlocks ((inputOf exampleInput []).length + 1) (inputOf exampleInput [])) ∧
    ∃ w, main envOk (inputOf exampleInput []) = some (.exited 0 w) ∧
      w.printed.length = exampleInput.length ∧
      List.Forall₂ InputBlock.yields exampleInput w.printed :=
  ⟨by decide, by decide,
   (C1_scan_yields_every_block exampleInput [] (by decide) (by decide) (by decide)).2.1,
   (C1_scan_yields_every_block exampleInput [] (by decide) (by decide) (by decide)).2.2.1
     envOk envOk_filesOk⟩

/-- C5. A buffer without a `-----BEGIN` marker: the first `pem.Decode`
returns no block and `main` logs the failure and exits with code 1, with no
call of `printPEM`, nothing printed and no request made.  More generally
`main` takes that fatal exit, the one that precedes every call of
`printPEM`, exactly when the first `pem.Decode` on the whole buffer returns
nil; and on an operating system whose file operations do not fail, `main`
exits with a nonzero code exactly then. -/
theorem C5_no_block_is_fatal (env : Env) (buf : ByteSeq) :
    (¬ ascii "-----BEGIN" <:+: buf →
      (Decode buf).1 = none ∧
      main env buf = some (.exited 1
        { files := [], stdout := [], log := [noBlockMessage], printed := [], calls := [] })) ∧
    ((Decode buf).1 = none ↔ ∃ w, main env buf = some (.exited 1 w) ∧ w.printed = []) ∧
    (env.filesOk →
      ((Decode buf).1 = none ↔ ∃ c w, c ≠ 0 ∧ main env buf = some (.exited c w))) := by
  refine ⟨fun h => ?_, ⟨fun h => ?_, fun h => ?_⟩, fun henv => ⟨fun h => ?_, fun h => ?_⟩⟩
  · have hno : ¬ pemStart.drop 1 <:+: buf := by
      intro hi
      apply h
      have hp : ascii "-----BEGIN" <+: pemStart.drop 1 := ⟨[32], by decide⟩
      exact hp.isInfix.trans hi
    have hd := Decode_of_no_begin hno
    have h1 : (Decode buf).1 = none := by rw [hd]
    exact ⟨h1, main_of_nil env h1⟩
  · exact ⟨_, main_of_nil env h, rfl⟩
  · obtain ⟨w, hw, hp⟩ := h
    rcases hd : Decode buf with ⟨_ | b, r⟩
    · rfl
    · exact absurd hp (main_printed_ne_nil env hd hw)
  · exact ⟨1, _, by decide, main_of_nil env h⟩
  · obtain ⟨c, w, hc, hw⟩ := h
    rcases hd : Decode buf with ⟨_ | b, r⟩
    · rfl
    · obtain ⟨w2, hw2, _⟩ := main_ok henv hd
      rw [hw2] at hw
      injection hw with hw
      injection hw with hc0 _
      exact absurd hc0.symm hc

/-- C5 at a buffer of plain text: `main` exits with code 1 at once. -/
theorem C5_no_block_is_fatal_witness :
    (Decode (ascii "no PEM data here\n")).1 = none ∧
      main envOk (ascii "no PEM data here\n") = some (.exited 1
        { files := [], stdout := [], log := [noBlockMessage], printed := [], calls := [] }) :=
  (C5_no_block_is_fatal envOk (ascii "no PEM data here\n")).1 (by decide)

/-- C6. For a block whose type is not exactly `CERTIFICATE`, `OCSP RESPONSE`
or `X509 CRL`, `printPEM` prints the line "PEM type <...> not supported." and
returns: no request to the operating system, nothing logged, no exit.  The
scan goes on with the rest of the buffer, in the first call of `main` and in
its loop, so every later well-formed block is passed to `printPEM` (on an
operating system whose file operations do not fail). -/
theorem C6_unsupported_type_goes_on (env : Env) (w : World) (b : Block)
    (h : ¬ recognized b.Typ) :
    printPEM env w b = .returned
      { w with printed := w.printed ++ [b],
               stdout := w.stdout ++ [ascii "\nPEM type <" ++ b.Typ ++ ascii "> not supported.\n"] } ∧
    (∀ fuel rest rest2, Decode rest = (some b, rest2) →
      scanLoop env (fuel + 1) w rest = scanLoop env fuel
        { w with printed := w.printed ++ [b],
                 stdout := w.stdout ++ [ascii "\nPEM type <" ++ b.Typ ++ ascii "> not supported.\n"] }
        rest2) ∧
    (∀ body later, env.filesOk → WellFormedBlock b.Typ body →
      (∀ lb ∈ later, WellFormedBlock lb.1 lb.2) →
      ∃ w2, main env (bufferOf ((b.Typ, body) :: later)) = some (.exited 0 w2) ∧
        w2.printed = blockOf (b.Typ, body) :: later.map blockOf) := by
  have hp := printPEM_unsupported env w h
  have hs : sprintf (ascii "\nPEM type <%v> not supported.\n") b.Typ
      = ascii "\nPEM type <" ++ b.Typ ++ ascii "> not supported.\n" := by
    simp [sprintf, ascii]
  rw [hs] at hp
  refine ⟨hp, fun fuel rest rest2 hd => ?_, fun body later henv hwf hl => ?_⟩
  · conv => lhs; unfold scanLoop
    rw [hd]
    simp only [hp]
  · have := @main_bufferOf env henv ((b.Typ, body) :: later) (by simp) (by
      intro lb hlb
      rcases List.mem_cons.1 hlb with rfl | hlb
      · exact hwf
      · exact hl lb hlb)
    simpa using this

/-- C6 at a private key followed by a certificate: the key is reported as not
supported, the certificate is passed to `printPEM` after it. -/
theorem C6_unsupported_type_goes_on_witness :
    ¬ recognized (ascii "PRIVATE KEY") ∧
    printPEM envOk World.start { Typ := ascii "PRIVATE KEY", Headers := [], Bytes := [1, 2, 3] }
      = .returned
        { files := [], log := [], calls := [],
          printed := [{ Typ := ascii "PRIVATE KEY", Headers := [], Bytes := [1, 2, 3] }],
          stdout := [ascii "\nPEM type <PRIVATE KEY> not supported.\n"] } ∧
    ∃ w2, main envOk (bufferOf [(ascii "PRIVATE KEY", ascii "AQID\n"),
        (ascii "CERTIFICATE", ascii "MIIB\n")]) = some (.exited 0 w2) ∧
      w2.printed = [blockOf (ascii "PRIVATE KEY", ascii "AQID\n"),
        blockOf (ascii "CERTIFICATE", ascii "MIIB\n")] :=
  ⟨by decide,
   (C6_unsupported_type_goes_on envOk World.start
      { Typ := ascii "PRIVATE KEY", Headers := [], Bytes := [1, 2, 3] } (by decide)).1,
   (C6_unsupported_type_goes_on envOk World.start
      { Typ := ascii "PRIVATE KEY", Headers := [], Bytes := [1, 2, 3] } (by decide)).2.2
      (ascii "AQID\n") [(ascii "CERTIFICATE", ascii "MIIB\n")] envOk_filesOk (by decide)
      (by decide)⟩

/-- The command line of a template for a file name. -/
theorem sprintf_templates (name : ByteSeq) :
    sprintf opensslCertificate name
      = ascii "openssl x509 -certopt ext_dump -text -noout -inform PEM -in " ++ name ∧
    sprintf opensslOCSPResonse name = ascii "openssl ocsp -text -noverify -respin " ++ name ∧
    sprintf opensslCRL name = ascii "openssl crl -text -noout -inform PEM -in " ++ name := by
  refine ⟨?_, ?_, ?_⟩ <;> simp [sprintf, ascii, opensslCertificate, opensslOCSPResonse, opensslCRL]

/-- C7. What a recognized block hands to the external command, when the file
operations of the dispatch succeed (the temporary file is `name`): for
`CERTIFICATE` and `X509 CRL` the bytes written to the file are the output of
`pem.Encode` for the block and the command is the x509, resp. crl, command
line over the file's name; for `OCSP RESPONSE` the bytes written are the
decoded bytes of the block themselves and the command is the ocsp command
line.  In each case these are the only requests made: create, write, close,
run, remove. -/
theorem C7_content_handed_over (env : Env) (w : World) (b : Block) (text name : ByteSeq)
    (henc : Encode b = some text) (hw : ∀ data, env.write name data = none)
    (hc : env.close name = none) :
    (b.Typ = ascii "CERTIFICATE" →
      env.tempFile (ascii "Certificate_PEM_Tempfile_") w.files = .ok name →
      ∃ w2, printPEM env w b = .returned w2 ∧
        w2.calls = w.calls ++ [.tempFile (ascii "Certificate_PEM_Tempfile_"),
          .write name text, .close name,
          .run (ascii "openssl x509 -certopt ext_dump -text -noout -inform PEM -in " ++ name),
          .remove name]) ∧
    (b.Typ = ascii "X509 CRL" →
      env.tempFile (ascii "CRL_PEM_Tempfile_") w.files = .ok name →
      ∃ w2, printPEM env w b = .returned w2 ∧
        w2.calls = w.calls ++ [.tempFile (ascii "CRL_PEM_Tempfile_"),
          .write name text, .close name,
          .run (ascii "openssl crl -text -noout -inform PEM -in " ++ name),
          .remove name]) ∧
    (b.Typ = ascii "OCSP RESPONSE" →
      env.tempFile (ascii "OCSPResponse_DER_Tempfile_") w.files = .ok name →
      ∃ w2, printPEM env w b = .returned w2 ∧
        w2.calls = w.calls ++ [.tempFile (ascii "OCSPResponse_DER_Tempfile_"),
          .write name b.Bytes, .close name,
          .run (ascii "openssl ocsp -text -noverify -respin " ++ name),
          .remove name]) := by
  obtain ⟨t1, t2, t3⟩ := sprintf_templates name
  refine ⟨fun ht hn => ?_, fun ht hn => ?_, fun ht hn => ?_⟩
  · obtain ⟨w2, h1, _, h2, _⟩ := @viaTempFile_ok env
      (({ w with printed := w.printed ++ [b] } : World).printf (sprintf (ascii "%s\n") text))
      (ascii "Certificate_PEM_Tempfile_") text opensslCertificate name hn (hw _) hc
    refine ⟨w2, ?_, ?_⟩
    · unfold printPEM printCertificatePEM
      simp only [ht, henc, if_true]
      exact h1
    · rw [h2, t1]
      rfl
  · obtain ⟨w2, h1, _, h2, _⟩ := @viaTempFile_ok env
      (({ w with printed := w.printed ++ [b] } : World).printf (sprintf (ascii "%s\n") text))
      (ascii "CRL_PEM_Tempfile_") text opensslCRL name hn (hw _) hc
    refine ⟨w2, ?_, ?_⟩
    · unfold printPEM printCRLPEM
      have n1 : ascii "X509 CRL" ≠ ascii "CERTIFICATE" := by decide
      have n2 : ascii "X509 CRL" ≠ ascii "OCSP RESPONSE" := by decide
      simp only [ht, henc, if_true, n1, n2, if_false]
      exact h1
    · rw [h2, t3]
      rfl
  · obtain ⟨w2, h1, _, h2, _⟩ := @viaTempFile_ok env
      (({ w with printed := w.printed ++ [b] } : World).printf (sprintf (ascii "%s\n") text))
      (ascii "OCSPResponse_DER_Tempfile_") b.Bytes opensslOCSPResonse name hn (hw _) hc
    refine ⟨w2, ?_, ?_⟩
    · unfold printPEM printOCSPResponsePEM
      have n1 : ascii "OCSP RESPONSE" ≠ ascii "CERTIFICATE" := by decide
      simp only [ht, henc, if_true, n1, if_false]
      exact h1
    · rw [h2, t2]
      rfl

/-- C7 at an OCSP response: the three decoded bytes go to the file, not
their PEM text. -/
theorem C7_content_handed_over_witness :
    ∃ w2, printPEM envOk World.start exampleOCSP = .returned w2 ∧
      w2.calls = World.start.calls ++ [.tempFile (ascii "OCSPResponse_DER_Tempfile_"),
        .write (ascii "/tmp/OCSPResponse_DER_Tempfile_001") exampleOCSP.Bytes,
        .close (ascii "/tmp/OCSPResponse_DER_Tempfile_001"),
        .run (ascii "openssl ocsp -text -noverify -respin " ++
          ascii "/tmp/OCSPResponse_DER_Tempfile_001"),
        .remove (ascii "/tmp/OCSPResponse_DER_Tempfile_001")] :=
  (C7_content_handed_over envOk World.start exampleOCSP
    (ascii "-----BEGIN OCSP RESPONSE-----\nMAMK\n-----END OCSP RESPONSE-----\n")
    (ascii "/tmp/OCSPResponse_DER_Tempfile_001") (by decide) (fun _ => rfl) rfl).2.2
    (by decide) rfl

/-- Every recognized block is dispatched through a temporary file. -/
theorem printPEM_recognized (env : Env) (w : World) {b : Block} {text : ByteSeq}
    (hrec : recognized b.Typ) (henc : Encode b = some text) :
    ∃ pattern content template,
      printPEM env w b = viaTempFile env
        (({ w with printed := w.printed ++ [b] } : World).printf (sprintf (ascii "%s\n") text))
        pattern content template := by
  unfold printPEM printCertificatePEM printOCSPResponsePEM printCRLPEM
  simp only [henc]
  rcases hrec with h | h | h
  · refine ⟨ascii "Certificate_PEM_Tempfile_", text, opensslCertificate, ?_⟩
    simp only [h, if_true]
  · have n1 : ascii "OCSP RESPONSE" ≠ ascii "CERTIFICATE" := by decide
    refine ⟨ascii "OCSPResponse_DER_Tempfile_", b.Bytes, opensslOCSPResonse, ?_⟩
    simp only [h, n1, if_true, if_false]
  · have n1 : ascii "X509 CRL" ≠ ascii "CERTIFICATE" := by decide
    have n2 : ascii "X509 CRL" ≠ ascii "OCSP RESPONSE" := by decide
    refine ⟨ascii "CRL_PEM_Tempfile_", text, opensslCRL, ?_⟩
    simp only [h, n1, n2, if_true, if_false]

/-- C9. `runCommand` returns the output it captured together with the error
of a command that failed.  For every recognized block whose file operations
succeed, the print function returns, whether its command failed or not: it
has run one command, printed the output captured from it as its last text,
and, when the command failed with error `e`, logged "error <e> at
runCommand()" as its last log line; the loop of `main` then goes on with the
rest of the buffer. -/
theorem C9_command_failure_goes_on (env : Env) (w : World) (b : Block) (henv : env.filesOk)
    (hrec : recognized b.Typ) (henc : (Encode b).isSome = true) :
    (∀ w1 command e, (env.run command w1.files).err = some e →
      (runCommand env w1 command).2.2 = ((env.run command w1.files).output, some e)) ∧
    ∃ w2 command files,
      printPEM env w b = .returned w2 ∧
      w2.calls.filter (fun c => match c with | .run _ => true | _ => false) =
        w.calls.filter (fun c => match c with | .run _ => true | _ => false) ++ [.run command] ∧
      w2.stdout.getLast? = some ((env.run command files).output ++ [10]) ∧
      (∀ e, (env.run command files).err = some e →
        w2.log.getLast? = some (ascii "error <" ++ e ++ ascii "> at runCommand()")) ∧
      (∀ fuel rest rest2, Decode rest = (some b, rest2) →
        scanLoop env (fuel + 1) w rest = scanLoop env fuel w2 rest2) := by
  constructor
  · intro w1 command e he
    rw [(runCommand_spec env w1 command).2.2.2.2, he]
  · obtain ⟨text, ht⟩ := Option.isSome_iff_exists.1 henc
    obtain ⟨pattern, content, template, hp⟩ := printPEM_recognized env w hrec ht
    obtain ⟨name, hn⟩ := henv.1 pattern
      (({ w with printed := w.printed ++ [b] } : World).printf (sprintf (ascii "%s\n") text)).files
    obtain ⟨w2, h1, _, h2, h3, _, h5, _⟩ :=
      @viaTempFile_ok env _ pattern content template name hn (henv.2.1 _ _) (henv.2.2 _)
    refine ⟨w2, sprintf template name,
      filesAtRun (({ w with printed := w.printed ++ [b] } : World).printf
        (sprintf (ascii "%s\n") text)) name content,
      hp.trans h1, ?_, ?_, ?_, ?_⟩
    · rw [h2]
      simp
    · rw [h3]
      simp [sprintf, ascii]
    · intro e he
      rw [h5 e he]
      simp [sprintf, ascii]
    · intro fuel rest rest2 hd
      conv => lhs; unfold scanLoop
      rw [hd]
      simp only [hp.trans h1]

/-- C9 at a certificate whose command exits with status 1: the print function
returns all the same. -/
theorem C9_command_failure_goes_on_witness :
    ∃ w2 command files,
      printPEM envCommandFails World.start exampleCertificate = .returned w2 ∧
      w2.calls.filter (fun c => match c with | .run _ => true | _ => false) =
        World.start.calls.filter (fun c => match c with | .run _ => true | _ => false)
          ++ [.run command] ∧
      w2.stdout.getLast? = some ((envCommandFails.run command files).output ++ [10]) ∧
      (∀ e, (envCommandFails.run command files).err = some e →
        w2.log.getLast? = some (ascii "error <" ++ e ++ ascii "> at runCommand()")) ∧
      (∀ fuel rest rest2, Decode rest = (some exampleCertificate, rest2) →
        scanLoop envCommandFails (fuel + 1) World.start rest
          = scanLoop envCommandFails fuel w2 rest2) :=
  (C9_command_failure_goes_on envCommandFails World.start exampleCertificate
    envCommandFails_filesOk (by decide) (by decide)).2

/-- C8, at its failing input.  A certificate, on an operating system whose
disk is full: `tmpfile.Write` fails, `log.Fatalf` exits the process with code
1, and the temporary file that `ioutil.TempFile` created still exists:
`os.Remove` was deferred and is never requested.  The same when
`tmpfile.Close` fails.  On the paths where the print function returns (the
command succeeds, the command fails) the file is removed. -/
theorem C8_temp_file_left_behind :
    (printPEM envOk World.start exampleCertificate).world.files = [] ∧
    (printPEM envCommandFails World.start exampleCertificate).world.files = [] ∧
    printPEM envDiskFull World.start exampleCertificate = .exited 1
      { files := [(ascii "/tmp/Certificate_PEM_Tempfile_001", [])],
        stdout := [ascii "-----BEGIN CERTIFICATE-----\nMIIB\n-----END CERTIFICATE-----\n\n"],
        log := [ascii ("error <no space left on device> at tmpfile.Write(); " ++
          "file = </tmp/Certificate_PEM_Tempfile_001>")],
        printed := [exampleCertificate],
        calls := [.tempFile (ascii "Certificate_PEM_Tempfile_"),
          .write (ascii "/tmp/Certificate_PEM_Tempfile_001")
            (ascii "-----BEGIN CERTIFICATE-----\nMIIB\n-----END CERTIFICATE-----\n")] } ∧
    printPEM envCloseFails World.start exampleCertificate = .exited 1
      { files := [(ascii "/tmp/Certificate_PEM_Tempfile_001",
          ascii "-----BEGIN CERTIFICATE-----\nMIIB\n-----END CERTIFICATE-----\n")],
        stdout := [ascii "-----BEGIN CERTIFICATE-----\nMIIB\n-----END CERTIFICATE-----\n\n"],
        log := [ascii ("error <input/output error> at tmpfile.Close(); " ++
          "file = </tmp/Certificate_PEM_Tempfile_001>")],
        printed := [exampleCertificate],
        calls := [.tempFile (ascii "Certificate_PEM_Tempfile_"),
          .write (ascii "/tmp/Certificate_PEM_Tempfile_001")
            (ascii "-----BEGIN CERTIFICATE-----\nMIIB\n-----END CERTIFICATE-----\n"),
          .close (ascii "/tmp/Certificate_PEM_Tempfile_001")] } := by
  refine ⟨by decide, by decide, by decide, by decide⟩

theorem drop_of_suffix {rest data : ByteSeq} (h : rest <:+ data) :
    data.drop (data.length - rest.length) = rest := by
  obtain ⟨t, ht⟩ := h
  subst ht
  have : (t ++ rest).length - rest.length = t.length := by simp
  rw [this, List.drop_left]

/-- The windows of the scan: each block was decoded from the buffer at its
window, each window is non-empty and inside the buffer, and the windows
follow one another without overlap. -/
theorem scanRanges_spec (buf : ByteSeq) (fuel cursor : Nat) (data : ByteSeq)
    (hdata : buf.drop cursor = data) (hlen : cursor + data.length = buf.length) :
    (∀ x ∈ scanRanges fuel cursor data,
      cursor ≤ x.2.1 ∧ x.2.1 < x.2.2 ∧ x.2.2 ≤ buf.length ∧
        Decode (buf.drop x.2.1) = (some x.1, buf.drop x.2.2)) ∧
    (scanRanges fuel cursor data).Pairwise (fun x y => x.2.2 ≤ y.2.1) ∧
    (scanRanges fuel cursor data).map (fun x => x.1) = scanBlocks fuel data := by
  induction fuel generalizing cursor data with
  | zero => simp [scanRanges, scanBlocks]
  | succ fuel ih =>
    unfold scanRanges scanBlocks
    rcases hd : Decode data with ⟨_ | b, rest⟩
    · simp
    · simp only
      obtain ⟨hsuf, hlt⟩ := Decode_block hd
      have hle := hsuf.length_le
      have hrest : buf.drop (cursor + (data.length - rest.length)) = rest := by
        have h0 : (buf.drop cursor).drop (data.length - rest.length) = rest := by
          rw [hdata]
          exact drop_of_suffix hsuf
        rw [List.drop_drop] at h0
        exact h0
      obtain ⟨h1, h2, h3⟩ := ih (cursor + (data.length - rest.length)) rest hrest (by omega)
      refine ⟨?_, ?_, ?_⟩
      · intro x hx
        rcases List.mem_cons.1 hx with rfl | hx
        · refine ⟨Nat.le_refl _, by simp only; omega, by simp only; omega, ?_⟩
          simp only
          rw [hdata, hrest, hd]
        · obtain ⟨a1, a2, a3, a4⟩ := h1 x hx
          exact ⟨by omega, a2, a3, a4⟩
      · rw [List.pairwise_cons]
        refine ⟨fun y hy => ?_, h2⟩
        exact (h1 y hy).1
      · rw [List.map_cons, h3]

/-- C10. Every `pem.Decode` call that returns a block returns a rest that is
a strictly shorter suffix of its input.  So the scan of `main` ends on every
buffer (the bound of the model's loop is never hit), it passes at most as
many blocks to `printPEM` as the buffer has bytes, and the windows of the
buffer that the calls consume (from the cursor before a call to the cursor
after it), from each of which one block is decoded, are non-empty, lie in
the buffer and follow one another: the cursor never rewinds and no two
windows overlap. -/
theorem C10_scan_terminates (env : Env) (buf : ByteSeq) :
    (∀ data p r, Decode data = (some p, r) → r <:+ data ∧ r.length < data.length) ∧
    (∃ o, main env buf = some o ∧ o.world.printed.length ≤ buf.length) ∧
    (scanBlocks (buf.length + 1) buf).length ≤ buf.length ∧
    (scanRanges (buf.length + 1) 0 buf).map (fun x => x.1) = scanBlocks (buf.length + 1) buf ∧
    (∀ x ∈ scanRanges (buf.length + 1) 0 buf,
      x.2.1 < x.2.2 ∧ x.2.2 ≤ buf.length ∧
        Decode (buf.drop x.2.1) = (some x.1, buf.drop x.2.2)) ∧
    (scanRanges (buf.length + 1) 0 buf).Pairwise (fun x y => x.2.2 ≤ y.2.1) := by
  obtain ⟨h1, h2, h3⟩ := scanRanges_spec buf (buf.length + 1) 0 buf rfl (by simp)
  refine ⟨fun data p r hd => Decode_block hd, ?_, scanBlocks_length _ _, h3,
    fun x hx => (h1 x hx).2, h2⟩
  obtain ⟨o, ho⟩ := main_total env buf
  obtain ⟨k, hk⟩ := main_printed env ho
  refine ⟨o, ho, ?_⟩
  rw [hk]
  rw [List.length_take]
  exact (Nat.min_le_right _ _).trans (scanBlocks_length _ _)

/-- C10 at the buffer of `exampleBlocks`: two blocks, decoded from the bytes
0 to 59 and 59 to 117 of the buffer. -/
theorem C10_scan_terminates_witness :
    (scanRanges ((bufferOf exampleBlocks).length + 1) 0 (bufferOf exampleBlocks)).map
        (fun x => x.2) = [(0, 59), (59, 117)] ∧
    (∃ o, main envOk (bufferOf exampleBlocks) = some o ∧
      o.world.printed.length ≤ (bufferOf exampleBlocks).length) :=
  ⟨by decide, (C10_scan_terminates envOk (bufferOf exampleBlocks)).2.1⟩

theorem mem_scanBlocks {fuel : Nat} {buf : ByteSeq} {p : Block} (h : p ∈ scanBlocks fuel buf) :
    ∃ data r, Decode data = (some p, r) := by
  induction fuel generalizing buf with
  | zero => simp [scanBlocks] at h
  | succ fuel ih =>
    unfold scanBlocks at h
    rcases hd : Decode buf with ⟨_ | b, r⟩
    · simp [hd] at h
    · simp only [hd, List.mem_cons] at h
      rcases h with rfl | h
      · exact ⟨buf, r, hd⟩
      · exact ih h

/-- C2 fails as stated: the scan of the buffer below yields the block of type
`a:b` with no bytes; `pem.Encode` writes it as a BEGIN line followed at once
by the END line; and `pem.Decode` reads that END line, which holds the
colon of the type, as a header line `Key: Value`, comes to the end of the
text and returns no block. -/
theorem C2_counterexample :
    scanBlocks 100 (ascii "-----BEGIN a:b-----\n\n-----END a:b-----\n")
      = [{ Typ := ascii "a:b", Headers := [], Bytes := [] }] ∧
    Encode { Typ := ascii "a:b", Headers := [], Bytes := [] }
      = some (ascii "-----BEGIN a:b-----\n-----END a:b-----\n") ∧
    Decode (ascii "-----BEGIN a:b-----\n-----END a:b-----\n")
      = (none, ascii "-----BEGIN a:b-----\n-----END a:b-----\n") := by
  decide

/-- C2, amended.  Round trip: for every block that the scan produces from
some buffer, except a block with no header, no bytes and a colon in its
type, encoding it with `pem.Encode` and running `pem.Decode` on the text
yields a block with the identical type and bytes, and an empty rest. -/
theorem C2_round_trip (buf : ByteSeq) (fuel : Nat) (p : Block)
    (h : p ∈ scanBlocks fuel buf) (hex : ¬ endLineReadsAsHeader p) :
    ∃ text q, Encode p = some text ∧ Decode text = (some q, []) ∧
      q.Typ = p.Typ ∧ q.Bytes = p.Bytes := by
  obtain ⟨data, r, hd⟩ := mem_scanBlocks h
  obtain ⟨hT, hH, hB⟩ := Decode_block_ok hd
  exact Decode_Encode hT hH hB hex

/-- C2, amended, at the CRL of `exampleBlocks`, the second block of its
buffer. -/
theorem C2_round_trip_witness :
    ∃ text q, Encode { Typ := ascii "X509 CRL", Headers := [], Bytes := [48, 130, 2, 1] }
        = some text ∧
      Decode text = (some q, []) ∧ q.Typ = ascii "X509 CRL" ∧ q.Bytes = [48, 130, 2, 1] :=
  C2_round_trip (bufferOf exampleBlocks) 10
    { Typ := ascii "X509 CRL", Headers := [], Bytes := [48, 130, 2, 1] } (by decide) (by decide)

end PemDecode
